import Mathlib

/-!
# Falling coins animation (`_site/assets/js/falling-coins.js`)

A shallow embedding of the spawner (`createCoinsWithDelay`, `createCoin`) and of the
per-frame simulator (`updateCoins`).

Modelling conventions.
* JavaScript numbers are rationals (`ℚ`); `NaN` and the infinities are not modelled.
* The arithmetic of `createCoin` and of the spawner is IEEE 754 binary64: every operation is
  followed by `roundDouble` (round to nearest, ties to even; the overflow threshold is not
  modelled, no value below comes near it).  The ranges of the created fields and the spawn
  delays depend on that rounding.
* The arithmetic of the frame update `updateCoins` is exact: no rounding, and the decimal
  literals of the source (`0.2`, `0.99`, `0.03`, ...) are the corresponding fractions.
  Statements about frames are statements about this idealisation.  Division by zero does
  not occur on the paths where `fadeInDistance ≠ 0`.
* Every call of `Math.random()` is an explicit argument (a "draw").
* `window.innerWidth` / `window.innerHeight` are explicit arguments `W` / `H`.
* The DOM element of a coin is a record of the style properties the script writes.
-/

namespace FallingCoins

/-! ## Data model -/

/-- The `config` object (source lines 19-32). -/
structure Config where
  coinCount : ℚ
  minSpeed : ℚ
  maxSpeed : ℚ
  minSize : ℚ
  maxSize : ℚ
  gravity : ℚ
  friction : ℚ
  bounceReduction : ℚ
  horizontalBoost : ℚ
  bottomBounceThreshold : ℚ
  spawnInterval : ℚ
  maxSpawnDelay : ℚ
  deriving DecidableEq

/-- The values written in the source (lines 20-31). -/
def config : Config where
  coinCount := 20
  minSpeed := 4
  maxSpeed := 5
  minSize := 64
  maxSize := 120
  gravity := 1 / 5
  friction := 99 / 100
  bounceReduction := 95 / 100
  horizontalBoost := 3 / 2
  bottomBounceThreshold := 1 / 2
  spawnInterval := 200
  maxSpawnDelay := 3000

/-- The value of `element.style.transform`: `rotate(r deg)` as written by `createCoin`
(line 85) or `translate(x px, y px) rotate(r deg)` as written by `updateCoins` (line 191). -/
inductive Transform where
  | rotate (deg : ℚ)
  | translateRotate (x y deg : ℚ)
  deriving DecidableEq

/-- The visual element of a coin: the style properties the script writes, and whether the
element is still attached to the document (`element.remove()` detaches it). -/
structure Element where
  width : ℚ
  height : ℚ
  left : ℚ
  top : ℚ
  transform : Transform
  styleOpacity : Option ℚ
  attached : Bool
  deriving DecidableEq

/-- The object pushed on the `coins` array (source lines 88-103). -/
structure Coin where
  element : Element
  x : ℚ
  y : ℚ
  vx : ℚ
  vy : ℚ
  size : ℚ
  rotation : ℚ
  rotationSpeed : ℚ
  opacity : ℚ
  fadeInDistance : ℚ
  fadeInProgress : ℚ
  removed : Bool
  bounceCount : ℤ
  maxBounces : ℤ
  deriving DecidableEq

/-- The eight `Math.random()` results consumed by one call of `createCoin`, in source order. -/
structure CoinDraws where
  size : ℚ
  startX : ℚ
  rotation : ℚ
  vx : ℚ
  vy : ℚ
  rotationSpeed : ℚ
  fadeInDistance : ℚ
  maxBounces : ℚ

/-- The `Math.random()` results one coin may consume in one frame: `sign` in a side bounce
(lines 151 / 159), `boost` in a bottom bounce (line 171). -/
structure FrameDraws where
  sign : ℚ
  boost : ℚ

/-! ## Binary64 rounding -/

/-- Auxiliary for `natLog2`: at most `fuel` halvings. -/
def log2Fuel : ℕ → ℕ → ℕ
  | 0, _ => 0
  | fuel + 1, n => if 2 ≤ n then log2Fuel fuel (n / 2) + 1 else 0

/-- The position of the leading binary digit of `n` (`0` for `n = 0`). -/
def natLog2 (n : ℕ) : ℕ :=
  log2Fuel n n

/-- The power `2 ^ k` for an integer exponent. -/
def twoPow (k : ℤ) : ℚ :=
  if 0 ≤ k then ((2 ^ k.toNat : ℕ) : ℚ) else 1 / ((2 ^ (-k).toNat : ℕ) : ℚ)

/-- Rounding to the nearest integer, ties to the even one. -/
def roundHalfEven (q : ℚ) : ℤ :=
  if q - ⌊q⌋ < 1 / 2 then ⌊q⌋
  else if 1 / 2 < q - ⌊q⌋ then ⌊q⌋ + 1
  else if ⌊q⌋ % 2 = 0 then ⌊q⌋ else ⌊q⌋ + 1

/-- The binary exponent of `q ≠ 0`: the `e` with `2 ^ e ≤ |q| < 2 ^ (e + 1)`. -/
def binaryExponent (q : ℚ) : ℤ :=
  if twoPow ((natLog2 q.num.natAbs : ℤ) - (natLog2 q.den : ℤ)) ≤ |q|
  then (natLog2 q.num.natAbs : ℤ) - (natLog2 q.den : ℤ)
  else (natLog2 q.num.natAbs : ℤ) - (natLog2 q.den : ℤ) - 1

/-- The spacing of the binary64 numbers around `q`: 53 significant bits, and the fixed
spacing `2 ^ (-1074)` in the subnormal range. -/
def doubleUlp (q : ℚ) : ℚ :=
  twoPow (max (binaryExponent q) (-1022) - 52)

/-- The binary64 number nearest to `q`, ties to even: the result of a JavaScript arithmetic
operation whose exact result is `q`. -/
def roundDouble (q : ℚ) : ℚ :=
  (roundHalfEven (q / doubleUlp q) : ℚ) * doubleUlp q

/-- The finite binary64 numbers: `m * 2 ^ k` with `|m| < 2 ^ 53` and `-1074 ≤ k ≤ 971`. -/
def isDouble (b : ℚ) : Prop :=
  ∃ m k : ℤ, |m| < 2 ^ 53 ∧ -1074 ≤ k ∧ k ≤ 971 ∧ b = (m : ℚ) * (2 : ℚ) ^ k

/-! ## `createCoin` (source lines 65-104) -/

/-- The object literal of lines 88-103 together with the element built in lines 67-85, for
viewport width `W` and draws `d`; every arithmetic operation is rounded to binary64. -/
def newCoin (cfg : Config) (W : ℚ) (d : CoinDraws) : Coin :=
  let size :=
    roundDouble (roundDouble (d.size * roundDouble (cfg.maxSize - cfg.minSize)) + cfg.minSize)
  let startX := roundDouble (d.startX * W)
  let rotation := roundDouble (d.rotation * 360)
  { element := {
      width := size
      height := size
      left := startX
      top := -50
      transform := Transform.rotate rotation
      styleOpacity := none
      attached := true }
    x := startX
    y := -50
    vx := roundDouble (roundDouble (d.vx - 1 / 2) * 3)
    vy := roundDouble
      (roundDouble (d.vy * roundDouble (cfg.maxSpeed - cfg.minSpeed)) + cfg.minSpeed)
    size := size
    rotation := rotation
    rotationSpeed := roundDouble (roundDouble (d.rotationSpeed - 1 / 2) * 8)
    opacity := 0
    fadeInDistance := roundDouble (roundDouble (d.fadeInDistance * 200) + 100)
    fadeInProgress := 0
    removed := false
    bounceCount := 0
    maxBounces := ⌊roundDouble (d.maxBounces * 3)⌋ + 2 }

/-- `createCoin(container, config, coins)`: `coins.push` of the new coin (line 88). -/
def createCoin (cfg : Config) (W : ℚ) (d : CoinDraws) (coins : List Coin) : List Coin :=
  coins ++ [newCoin cfg W d]

/-! ## The spawner (source lines 37-56) -/

/-- The variables the spawner closure mutates: the counter `coinsCreated` and the array. -/
structure Spawner where
  coinsCreated : ℕ
  coins : List Coin

/-- Lines 47-48: the delay computed once `coinsCreated` coins exist,
`spawnInterval + progress * progress * (maxSpawnDelay - spawnInterval)` with
`progress = coinsCreated / coinCount`, every operation rounded to binary64. -/
def spawnDelay (cfg : Config) (coinsCreated : ℕ) : ℚ :=
  roundDouble (cfg.spawnInterval
    + roundDouble
      (roundDouble (roundDouble ((coinsCreated : ℚ) / cfg.coinCount)
          * roundDouble ((coinsCreated : ℚ) / cfg.coinCount))
        * roundDouble (cfg.maxSpawnDelay - cfg.spawnInterval)))

/-- One invocation of `createCoinsWithDelay` (lines 41-53).  The second component is the
delay passed to `setTimeout`, or `none` when no timer is set. -/
def createCoinsWithDelay (cfg : Config) (W : ℚ) (d : CoinDraws) (s : Spawner) :
    Spawner × Option ℚ :=
  if (s.coinsCreated : ℚ) < cfg.coinCount then
    ({ coinsCreated := s.coinsCreated + 1, coins := createCoin cfg W d s.coins },
      some (spawnDelay cfg (s.coinsCreated + 1)))
  else
    (s, none)

/-- One entry of the spawner's trace: the delay of the timer that led to this invocation of
`createCoinsWithDelay` (`0` for the direct call of line 56) and whether it called
`createCoin`. -/
structure SpawnCall where
  waited : ℚ
  created : Bool
  deriving DecidableEq

/-- The outcome of running the chain of callbacks: final closure variables, the delay of the
timer still pending (`none` when the chain is over) and the trace of invocations. -/
structure SpawnRun where
  state : Spawner
  pending : Option ℚ
  calls : List SpawnCall

/-- Runs the chain of `createCoinsWithDelay` callbacks: the invocation reached after waiting
`waited`, followed by at most `fuel` further timer callbacks.  The `k`-th creation sees the
viewport width `widths k` and the draws `draws k`. -/
def runSpawner (cfg : Config) (widths : ℕ → ℚ) (draws : ℕ → CoinDraws) :
    ℕ → ℚ → Spawner → SpawnRun
  | 0, waited, s => { state := s, pending := some waited, calls := [] }
  | fuel + 1, waited, s =>
    match createCoinsWithDelay cfg (widths s.coinsCreated) (draws s.coinsCreated) s with
    | (s', some delay) =>
      let rest := runSpawner cfg widths draws fuel delay s'
      { rest with calls := { waited := waited, created := true } :: rest.calls }
    | (s', none) =>
      { state := s', pending := none, calls := [{ waited := waited, created := false }] }

/-- Lines 35-56: empty array, counter at zero, then the direct call of
`createCoinsWithDelay` followed by the timer callbacks. -/
def startSpawner (cfg : Config) (widths : ℕ → ℚ) (draws : ℕ → CoinDraws) (fuel : ℕ) :
    SpawnRun :=
  runSpawner cfg widths draws (fuel + 1) 0 { coinsCreated := 0, coins := [] }

/-- The delays that preceded the invocations which created a coin, in creation order:
entry `k` is the delay waited before the `(k+1)`-th coin. -/
def creationDelays (r : SpawnRun) : List ℚ :=
  (r.calls.filter (fun c => c.created)).map (fun c => c.waited)

/-! ## `updateCoins` (source lines 109-198) -/

/-- Line 117: `coin.vy += config.gravity`. -/
def applyGravity (cfg : Config) (c : Coin) : Coin :=
  { c with vy := c.vy + cfg.gravity }

/-- Lines 120-121: both velocity components are multiplied by `config.friction`. -/
def applyFriction (cfg : Config) (c : Coin) : Coin :=
  { c with vx := c.vx * cfg.friction, vy := c.vy * cfg.friction }

/-- Lines 124-125: `coin.x += coin.vx; coin.y += coin.vy`. -/
def updatePosition (c : Coin) : Coin :=
  { c with x := c.x + c.vx, y := c.y + c.vy }

/-- Lines 128-135: fade-in while `fadeInProgress < fadeInDistance`. -/
def handleFadeIn (c : Coin) : Coin :=
  if c.fadeInProgress < c.fadeInDistance then
    let progress := c.fadeInProgress + c.vy
    let opacity := min 1 (progress / c.fadeInDistance)
    { c with
      fadeInProgress := progress
      opacity := opacity
      element := { c.element with styleOpacity := some opacity } }
  else
    c

/-- Line 138: `coin.rotation += coin.rotationSpeed`. -/
def updateRotation (c : Coin) : Coin :=
  { c with rotation := c.rotation + c.rotationSpeed }

/-- Line 141: `window.innerWidth - coin.size`. -/
def rightEdge (W : ℚ) (c : Coin) : ℚ :=
  W - c.size

/-- Line 142: `window.innerHeight - (coin.size * 0.2)`. -/
def bottomEdge (H : ℚ) (c : Coin) : ℚ :=
  H - c.size * (1 / 5)

/-- The coin after a side bounce that clamps `x` to `edge` (lines 146-152 and 154-160). -/
def sideBounce (cfg : Config) (edge : ℚ) (r : ℚ) (c : Coin) : Coin :=
  let vx := -c.vx * cfg.bounceReduction
  { c with
    x := edge
    vx := vx
    vy := c.vy - |vx| * (3 / 10)
    rotationSpeed := |c.rotationSpeed| * (if r > 1 / 2 then 1 else -1) * (6 / 5)
    bounceCount := c.bounceCount + 1 }

/-- Lines 145-161: bounce off the left edge, else off the right edge. -/
def handleSides (cfg : Config) (W : ℚ) (r : ℚ) (c : Coin) : Coin :=
  if c.x < 0 then
    sideBounce cfg 0 r c
  else if c.x > rightEdge W c then
    sideBounce cfg (rightEdge W c) r c
  else
    c

/-- The condition of line 165. -/
def canBounceBottom (cfg : Config) (c : Coin) : Prop :=
  c.bounceCount < c.maxBounces ∧ |c.vy| > cfg.bottomBounceThreshold

instance (cfg : Config) (c : Coin) : Decidable (canBounceBottom cfg c) := by
  unfold canBounceBottom; infer_instance

/-- Lines 167-176: the bottom bounce. -/
def bottomBounce (cfg : Config) (H : ℚ) (r : ℚ) (c : Coin) : Coin :=
  { c with
    y := bottomEdge H c
    vy := -c.vy * cfg.bounceReduction
    vx := c.vx + (r - 1 / 2) * cfg.horizontalBoost
    rotationSpeed := c.rotationSpeed * (11 / 10)
    bounceCount := c.bounceCount + 1 }

/-- Lines 179-180: `coin.opacity -= 0.03`, mirrored on the element. -/
def lowerOpacity (c : Coin) : Coin :=
  { c with
    opacity := c.opacity - 3 / 100
    element := { c.element with styleOpacity := some (c.opacity - 3 / 100) } }

/-- Lines 179-186: one step of fade-out, with removal once the opacity is `≤ 0`. -/
def fadeOut (c : Coin) : Coin :=
  if (lowerOpacity c).opacity ≤ 0 then
    { lowerOpacity c with
      element := { (lowerOpacity c).element with attached := false }
      removed := true }
  else
    lowerOpacity c

/-- Lines 164-188: bottom edge handling. -/
def handleBottom (cfg : Config) (H : ℚ) (r : ℚ) (c : Coin) : Coin :=
  if c.y > bottomEdge H c then
    if canBounceBottom cfg c then bottomBounce cfg H r c else fadeOut c
  else
    c

/-- Line 191: the transform written on the element. -/
def writeTransform (c : Coin) : Coin :=
  { c with
    element := { c.element with transform := Transform.translateRotate c.x c.y c.rotation } }

/-- Lines 117-125: gravity, then friction, then the position update. -/
def moveCoin (cfg : Config) (c : Coin) : Coin :=
  updatePosition (applyFriction cfg (applyGravity cfg c))

/-- The coin as it enters the edge checks of line 145 (lines 117-138 done). -/
def beforeSides (cfg : Config) (c : Coin) : Coin :=
  updateRotation (handleFadeIn (moveCoin cfg c))

/-- The coin as it enters the bottom edge handling of line 164. -/
def beforeBottom (cfg : Config) (W : ℚ) (d : FrameDraws) (c : Coin) : Coin :=
  handleSides cfg W d.sign (beforeSides cfg c)

/-- The body of the `forEach` callback (lines 113-191) for one coin. -/
def updateCoin (cfg : Config) (W H : ℚ) (d : FrameDraws) (c : Coin) : Coin :=
  if c.removed then c
  else writeTransform (handleBottom cfg H d.boost (beforeBottom cfg W d c))

/-- The `forEach` loop of lines 112-192 with the flag `allRemoved` threaded through; the
coin at position `i` of the remaining array uses the draws `draws i`. -/
def forEachCoin (cfg : Config) (W H : ℚ) :
    (ℕ → FrameDraws) → List Coin → Bool → List Coin × Bool
  | _, [], allRemoved => ([], allRemoved)
  | draws, c :: cs, allRemoved =>
    let rest := forEachCoin cfg W H (fun i => draws (i + 1)) cs
      (if c.removed then allRemoved else false)
    (updateCoin cfg W H (draws 0) c :: rest.1, rest.2)

/-- `updateCoins(coins, config)`: the array after the pass and whether
`requestAnimationFrame` was called (lines 195-197). -/
def updateCoins (cfg : Config) (W H : ℚ) (draws : ℕ → FrameDraws) (coins : List Coin) :
    List Coin × Bool :=
  let pass := forEachCoin cfg W H draws coins true
  (pass.1, !pass.2)

/-- The coin after `n` frames; frame `k` uses the draws `draws k`. -/
def runFrames (cfg : Config) (W H : ℚ) (draws : ℕ → FrameDraws) : ℕ → Coin → Coin
  | 0, c => c
  | n + 1, c => updateCoin cfg W H (draws n) (runFrames cfg W H draws n c)

/-! ## Sample inputs -/

/-- An element as `createCoin` leaves it for a coin of size 64 starting at `x = 500`. -/
def sampleElement : Element where
  width := 64
  height := 64
  left := 500
  top := -50
  transform := Transform.rotate 0
  styleOpacity := none
  attached := true

/-- A live coin in free fall in the middle of a `1000 × 800` viewport. -/
def sampleCoin : Coin where
  element := sampleElement
  x := 500
  y := 100
  vx := 1
  vy := 4
  size := 64
  rotation := 0
  rotationSpeed := 2
  opacity := 1 / 2
  fadeInDistance := 100
  fadeInProgress := 50
  removed := false
  bounceCount := 0
  maxBounces := 2

/-- A live coin left of the viewport, moving left: `x = -5`, `vx = -2`. -/
def leftCoin : Coin :=
  { sampleCoin with x := -5, vx := -2 }

/-- A live coin at the bottom of a `1000 × 800` viewport whose bounce budget is used up
(`maxBounces = 2`, `bounceCount = 2`) and which is fully faded in. -/
def spentCoin : Coin :=
  { sampleCoin with
    y := 800, vy := 10, opacity := 1, fadeInProgress := 100, bounceCount := 2 }

/-- A coin that has been removed. -/
def removedCoin : Coin :=
  { spentCoin with
    opacity := -1 / 100
    removed := true
    element := { sampleElement with styleOpacity := some (-1 / 100), attached := false } }

/-- A coin in its last frame of fade-out: opacity `0.02` at the bottom, budget used up. -/
def fadingCoin : Coin :=
  { spentCoin with opacity := 1 / 50 }

/-- Draws with both values at `1 / 2` (negative sign in a side bounce, no horizontal
perturbation in a bottom bounce). -/
def midDraws : FrameDraws where
  sign := 1 / 2
  boost := 1 / 2

/-! ## Predicates and scenarios used in the statements -/

/-- Draws with every value at `1 / 2`. -/
def midCoinDraws : CoinDraws where
  size := 1 / 2
  startX := 1 / 2
  rotation := 1 / 2
  vx := 1 / 2
  vy := 1 / 2
  rotationSpeed := 1 / 2
  fadeInDistance := 1 / 2
  maxBounces := 1 / 2

/-- The delays of the configured spawner as the script's binary64 arithmetic yields them,
in order of the invocations they precede: `0` for the direct call, then the value of
`200 + (k / 20)² * 2800` for `k = 1, ..., 20`, which is exact except at `k = 8, 13, 14, 16`
(`648.0000000000001`, `1383.0000000000002`, `1571.9999999999998`, `1992.0000000000005`). -/
def configuredDelays : List ℚ :=
  [0, 207, 228, 263, 312, 375, 452, 543, 5699868278390785 / 8796093022208, 767, 900, 1047,
    1208, 6082498324856833 / 4398046511104, 6913729115455487 / 4398046511104, 1775,
    4380454325059585 / 2199023255552, 2223, 2468, 2727, 3000]

/-- What the fade-in branch leaves behind: an opacity of at most `1` which, when negative,
is the (negative) quotient `fadeInProgress / fadeInDistance`. -/
def opacityTracksProgress (c : Coin) : Prop :=
  c.opacity ≤ 1 ∧ (c.opacity < 0 → c.fadeInProgress < 0
    ∧ c.opacity = c.fadeInProgress / c.fadeInDistance)

/-- The frame bounces the coin off the bottom: the conditions of lines 164-165 hold for the
coin as it enters the bottom handling. -/
def bottomBounces (cfg : Config) (W H : ℚ) (d : FrameDraws) (c : Coin) : Prop :=
  (beforeBottom cfg W d c).y > bottomEdge H (beforeBottom cfg W d c)
    ∧ canBounceBottom cfg (beforeBottom cfg W d c)

/-- The configured values with the sign of gravity flipped: `gravity = -0.2`. -/
def floatingConfig : Config :=
  { config with gravity := -1 / 5 }

/-- The state of a coin of size 92 at `x = 500` without horizontal velocity that can no
longer reach the height `400`. -/
def floatsUp (c : Coin) : Prop :=
  c.removed = false ∧ c.vx = 0 ∧ c.x = 500 ∧ c.size = 92 ∧ c.y + 99 * max c.vy 0 ≤ 400

instance (cfg : Config) (W H : ℚ) (d : FrameDraws) (c : Coin) :
    Decidable (bottomBounces cfg W H d c) := by
  unfold bottomBounces; infer_instance

/-- The frame takes the fade-out branch (line 177): the coin entering the bottom handling is
below the threshold and fails the bounce condition of line 165. -/
def fadesOut (cfg : Config) (W H : ℚ) (d : FrameDraws) (c : Coin) : Prop :=
  (beforeBottom cfg W d c).y > bottomEdge H (beforeBottom cfg W d c)
    ∧ ¬ canBounceBottom cfg (beforeBottom cfg W d c)

instance (cfg : Config) (W H : ℚ) (d : FrameDraws) (c : Coin) :
    Decidable (fadesOut cfg W H d c) := by
  unfold fadesOut; infer_instance

/-- The number of frames among the first `n` that bounce the (live) coin off the bottom. -/
def bottomBounceCount (cfg : Config) (W H : ℚ) (draws : ℕ → FrameDraws) : ℕ → Coin → ℕ
  | 0, _ => 0
  | n + 1, c =>
    bottomBounceCount cfg W H draws n c
      + (if (runFrames cfg W H draws n c).removed = false
            ∧ bottomBounces cfg W H (draws n) (runFrames cfg W H draws n c)
          then 1 else 0)

/-- The sum, over those of the first `n` frames in which the coin is live and still fading
in, of the damped vertical velocity the frame adds to `y` (line 125). -/
def fadeInTravel (cfg : Config) (W H : ℚ) (draws : ℕ → FrameDraws) : ℕ → Coin → ℚ
  | 0, _ => 0
  | n + 1, c =>
    fadeInTravel cfg W H draws n c
      + (if (runFrames cfg W H draws n c).removed = false
            ∧ (runFrames cfg W H draws n c).fadeInProgress
              < (runFrames cfg W H draws n c).fadeInDistance
          then ((runFrames cfg W H draws n c).vy + cfg.gravity) * cfg.friction else 0)

/-- Every draw is a value of `Math.random()`: in `[0, 1)`. -/
def unitDraws (d : CoinDraws) : Prop :=
  (0 ≤ d.size ∧ d.size < 1) ∧ (0 ≤ d.startX ∧ d.startX < 1)
    ∧ (0 ≤ d.rotation ∧ d.rotation < 1) ∧ (0 ≤ d.vx ∧ d.vx < 1)
    ∧ (0 ≤ d.vy ∧ d.vy < 1) ∧ (0 ≤ d.rotationSpeed ∧ d.rotationSpeed < 1)
    ∧ (0 ≤ d.fadeInDistance ∧ d.fadeInDistance < 1)
    ∧ (0 ≤ d.maxBounces ∧ d.maxBounces < 1)

/-- Every draw is a binary64 number, as the results of `Math.random()` are. -/
def doubleDraws (d : CoinDraws) : Prop :=
  isDouble d.size ∧ isDouble d.startX ∧ isDouble d.rotation ∧ isDouble d.vx ∧ isDouble d.vy
    ∧ isDouble d.rotationSpeed ∧ isDouble d.fadeInDistance ∧ isDouble d.maxBounces

/-- Draws at `1 / 2` except the fade-in draw, which is the largest binary64 number below 1,
`1 - 2 ^ (-53)`. -/
def edgeDraws : CoinDraws :=
  { midCoinDraws with fadeInDistance := 9007199254740991 / 9007199254740992 }

/-- Both draws of a frame are values of `Math.random()`: in `[0, 1)`. -/
def unitFrameDraws (d : FrameDraws) : Prop :=
  (0 ≤ d.sign ∧ d.sign < 1) ∧ (0 ≤ d.boost ∧ d.boost < 1)

/-- A live, fully faded-in coin resting at the bottom of a `1000 × 800` viewport with two
bounces left (`bounceCount = 0`, `maxBounces = 2`), no vertical velocity and opacity
`0.02`. -/
def slowCoin : Coin :=
  { sampleCoin with y := 800, vy := 0, opacity := 1 / 50, fadeInProgress := 100 }

/-- A live coin at the bottom of a `1000 × 800` viewport whose budget is used up and which is
still fading in (`fadeInProgress = 50 < fadeInDistance = 100`, opacity `0.5`). -/
def lateCoin : Coin :=
  { sampleCoin with y := 800, vy := 10, bounceCount := 2 }

/-- A live coin hitting the bottom of a `1000 × 800` viewport at `vy = 10` with its whole
budget left, fully faded in. -/
def fastCoin : Coin :=
  { sampleCoin with y := 800, vy := 10, opacity := 1, fadeInProgress := 100 }

/-- A live coin one frame short of completing its fade-in (`fadeInProgress = 98`,
`fadeInDistance = 100`, `vy = 4`). -/
def crossingCoin : Coin :=
  { sampleCoin with fadeInProgress := 98 }

/-! ## Binary64 rounding: round to nearest -/

section Rounding

theorem log2Fuel_eq : ∀ (fuel n : ℕ), n ≤ fuel → log2Fuel fuel n = Nat.log2 n := by
  intro fuel
  induction fuel with
  | zero =>
    intro n hn
    have : n = 0 := by omega
    subst this
    rw [log2Fuel, Nat.log2]
    simp
  | succ fuel ih =>
    intro n hn
    rw [log2Fuel, Nat.log2]
    by_cases h : 2 ≤ n
    · rw [if_pos h, if_pos h, ih (n / 2) (by omega)]
    · rw [if_neg h, if_neg h]

theorem natLog2_spec (n : ℕ) (hn : n ≠ 0) : 2 ^ natLog2 n ≤ n ∧ n < 2 ^ (natLog2 n + 1) := by
  rw [natLog2, log2Fuel_eq n n (le_refl n)]
  exact ⟨Nat.log2_self_le hn, Nat.lt_log2_self⟩

theorem twoPow_eq (k : ℤ) : twoPow k = (2 : ℚ) ^ k := by
  unfold twoPow
  split_ifs with h
  · obtain ⟨n, rfl⟩ := Int.eq_ofNat_of_zero_le h
    simp
  · obtain ⟨n, hn⟩ := Int.eq_ofNat_of_zero_le (by omega : 0 ≤ -k)
    have hk : k = -(n : ℤ) := by omega
    subst hk
    simp

theorem twoPow_pos (k : ℤ) : 0 < twoPow k := by
  rw [twoPow_eq]; positivity

theorem roundHalfEven_nearest (q : ℚ) (z : ℤ) :
    |(roundHalfEven q : ℚ) - q| ≤ |(z : ℚ) - q| := by
  have h0 : (⌊q⌋ : ℚ) ≤ q := Int.floor_le q
  have h1 : q < ⌊q⌋ + 1 := Int.lt_floor_add_one q
  have hb1 : q - z ≤ |(z : ℚ) - q| := by rw [abs_sub_comm]; exact le_abs_self _
  have hb2 : (z : ℚ) - q ≤ |(z : ℚ) - q| := le_abs_self _
  rcases le_or_lt z ⌊q⌋ with hz | hz
  · have hzq : (z : ℚ) ≤ ⌊q⌋ := by exact_mod_cast hz
    unfold roundHalfEven
    split_ifs <;> rw [abs_le] <;> constructor <;> push_cast <;> linarith
  · have hzq : (⌊q⌋ : ℚ) + 1 ≤ z := by exact_mod_cast hz
    unfold roundHalfEven
    split_ifs <;> rw [abs_le] <;> constructor <;> push_cast <;> linarith

theorem abs_rat_eq (q : ℚ) : |q| = (q.num.natAbs : ℚ) / (q.den : ℚ) := by
  have h := Rat.num_div_den q
  have hd : (0 : ℚ) < q.den := by exact_mod_cast q.den_pos
  calc |q| = |(q.num : ℚ) / (q.den : ℚ)| := by rw [h]
    _ = |(q.num : ℚ)| / (q.den : ℚ) := by rw [abs_div, abs_of_pos hd]
    _ = (q.num.natAbs : ℚ) / (q.den : ℚ) := by
      rw [Nat.cast_natAbs, Int.cast_abs]

/-- The binary exponent brackets the magnitude. -/
theorem binaryExponent_spec (q : ℚ) (hq : q ≠ 0) :
    (2 : ℚ) ^ binaryExponent q ≤ |q| ∧ |q| < (2 : ℚ) ^ (binaryExponent q + 1) := by
  have hp : q.num.natAbs ≠ 0 := by
    intro h
    exact hq (Rat.zero_of_num_zero (Int.natAbs_eq_zero.mp h))
  have hd : q.den ≠ 0 := q.den_nz
  obtain ⟨ha1, ha2⟩ := natLog2_spec _ hp
  obtain ⟨hb1, hb2⟩ := natLog2_spec _ hd
  have hdpos : (0 : ℚ) < q.den := by exact_mod_cast q.den_pos
  have ha1q : (2 : ℚ) ^ (natLog2 q.num.natAbs : ℤ) ≤ (q.num.natAbs : ℚ) := by
    rw [zpow_natCast]; exact_mod_cast ha1
  have ha2q : (q.num.natAbs : ℚ) < (2 : ℚ) ^ ((natLog2 q.num.natAbs : ℤ) + 1) := by
    have : (q.num.natAbs : ℚ) < (2 : ℚ) ^ (natLog2 q.num.natAbs + 1) := by exact_mod_cast ha2
    rw [← zpow_natCast] at this
    push_cast at this
    exact this
  have hb1q : (2 : ℚ) ^ (natLog2 q.den : ℤ) ≤ (q.den : ℚ) := by
    rw [zpow_natCast]; exact_mod_cast hb1
  have hb2q : (q.den : ℚ) < (2 : ℚ) ^ ((natLog2 q.den : ℤ) + 1) := by
    have : (q.den : ℚ) < (2 : ℚ) ^ (natLog2 q.den + 1) := by exact_mod_cast hb2
    rw [← zpow_natCast] at this
    push_cast at this
    exact this
  have habs := abs_rat_eq q
  -- lower and upper estimates of the quotient
  have hlow : (2 : ℚ) ^ ((natLog2 q.num.natAbs : ℤ) - (natLog2 q.den : ℤ) - 1) < |q| := by
    rw [habs, lt_div_iff₀ hdpos]
    have e : (2 : ℚ) ^ ((natLog2 q.num.natAbs : ℤ) - (natLog2 q.den : ℤ) - 1)
        * (2 : ℚ) ^ ((natLog2 q.den : ℤ) + 1) = (2 : ℚ) ^ (natLog2 q.num.natAbs : ℤ) := by
      rw [← zpow_add₀ (by norm_num : (2 : ℚ) ≠ 0)]
      congr 1
      ring
    have hpos : (0 : ℚ) < (2 : ℚ) ^ ((natLog2 q.num.natAbs : ℤ) - (natLog2 q.den : ℤ) - 1) := by
      positivity
    calc (2 : ℚ) ^ ((natLog2 q.num.natAbs : ℤ) - (natLog2 q.den : ℤ) - 1) * (q.den : ℚ)
        < (2 : ℚ) ^ ((natLog2 q.num.natAbs : ℤ) - (natLog2 q.den : ℤ) - 1)
          * (2 : ℚ) ^ ((natLog2 q.den : ℤ) + 1) := mul_lt_mul_of_pos_left hb2q hpos
      _ = (2 : ℚ) ^ (natLog2 q.num.natAbs : ℤ) := e
      _ ≤ (q.num.natAbs : ℚ) := ha1q
  have hhigh : |q| < (2 : ℚ) ^ ((natLog2 q.num.natAbs : ℤ) - (natLog2 q.den : ℤ) + 1) := by
    rw [habs, div_lt_iff₀ hdpos]
    have e : (2 : ℚ) ^ ((natLog2 q.num.natAbs : ℤ) - (natLog2 q.den : ℤ) + 1)
        * (2 : ℚ) ^ (natLog2 q.den : ℤ) = (2 : ℚ) ^ ((natLog2 q.num.natAbs : ℤ) + 1) := by
      rw [← zpow_add₀ (by norm_num : (2 : ℚ) ≠ 0)]
      congr 1
      ring
    have hpos : (0 : ℚ) < (2 : ℚ) ^ ((natLog2 q.num.natAbs : ℤ) - (natLog2 q.den : ℤ) + 1) := by
      positivity
    calc (q.num.natAbs : ℚ) < (2 : ℚ) ^ ((natLog2 q.num.natAbs : ℤ) + 1) := ha2q
      _ = (2 : ℚ) ^ ((natLog2 q.num.natAbs : ℤ) - (natLog2 q.den : ℤ) + 1)
          * (2 : ℚ) ^ (natLog2 q.den : ℤ) := e.symm
      _ ≤ (2 : ℚ) ^ ((natLog2 q.num.natAbs : ℤ) - (natLog2 q.den : ℤ) + 1) * (q.den : ℚ) :=
        mul_le_mul_of_nonneg_left hb1q hpos.le
  unfold binaryExponent
  split_ifs with h
  · rw [twoPow_eq] at h
    exact ⟨h, hhigh⟩
  · rw [twoPow_eq] at h
    refine ⟨hlow.le, ?_⟩
    have e : (natLog2 q.num.natAbs : ℤ) - (natLog2 q.den : ℤ) - 1 + 1
        = (natLog2 q.num.natAbs : ℤ) - (natLog2 q.den : ℤ) := by ring
    rw [e]
    exact not_le.mp h

theorem doubleUlp_eq (x : ℚ) :
    doubleUlp x = (2 : ℚ) ^ (max (binaryExponent x) (-1022) - 52) := by
  unfold doubleUlp; rw [twoPow_eq]

theorem doubleUlp_pos (x : ℚ) : 0 < doubleUlp x := twoPow_pos _

/-- The rounded value is at least as close as any integer multiple of the spacing. -/
theorem roundDouble_nearest_multiple (x : ℚ) (z : ℤ) :
    |roundDouble x - x| ≤ |(z : ℚ) * doubleUlp x - x| := by
  have hu := doubleUlp_pos x
  have h := roundHalfEven_nearest (x / doubleUlp x) z
  have e1 : roundDouble x - x
      = ((roundHalfEven (x / doubleUlp x) : ℚ) - x / doubleUlp x) * doubleUlp x := by
    unfold roundDouble
    field_simp
  have e2 : (z : ℚ) * doubleUlp x - x = ((z : ℚ) - x / doubleUlp x) * doubleUlp x := by
    field_simp
  rw [e1, e2, abs_mul, abs_mul, abs_of_pos hu]
  exact mul_le_mul_of_nonneg_right h hu.le

theorem roundDouble_zero : roundDouble 0 = 0 := by
  unfold roundDouble
  rw [zero_div]
  have : roundHalfEven 0 = 0 := by decide!
  rw [this]
  simp

/-- Round-to-nearest: no binary64 number is closer to `x` than `roundDouble x`. -/
theorem roundDouble_nearest (x b : ℚ) (hb : isDouble b) :
    |roundDouble x - x| ≤ |b - x| := by
  by_cases hx : x = 0
  · rw [hx, roundDouble_zero]
    simp
  obtain ⟨m, k, hm, hk1, hk2, rfl⟩ := hb
  have hu := doubleUlp_eq x
  by_cases hk : max (binaryExponent x) (-1022) - 52 ≤ k
  · -- `b` is a multiple of the spacing
    have hz := roundDouble_nearest_multiple x
      (m * 2 ^ (k - (max (binaryExponent x) (-1022) - 52)).toNat)
    have e : ((m * 2 ^ (k - (max (binaryExponent x) (-1022) - 52)).toNat : ℤ) : ℚ)
        * doubleUlp x = (m : ℚ) * (2 : ℚ) ^ k := by
      rw [hu]
      push_cast
      rw [mul_assoc, ← zpow_natCast, ← zpow_add₀ (by norm_num : (2 : ℚ) ≠ 0),
        Int.toNat_of_nonneg (by omega)]
      congr 2
      ring
    rw [e] at hz
    exact hz
  · -- `b` is finer than the spacing, hence smaller in magnitude than `2 ^ e ≤ |x|`
    have hk' : k < max (binaryExponent x) (-1022) - 52 := not_le.mp hk
    have hE : max (binaryExponent x) (-1022) = binaryExponent x := by
      apply max_eq_left
      by_contra hlt
      have : max (binaryExponent x) (-1022) = -1022 := max_eq_right (by omega)
      omega
    rw [hE] at hk' hu
    obtain ⟨hlo, -⟩ := binaryExponent_spec x hx
    have hbsmall : |(m : ℚ) * (2 : ℚ) ^ k| < (2 : ℚ) ^ binaryExponent x := by
      rw [abs_mul, abs_of_pos (by positivity : (0 : ℚ) < (2 : ℚ) ^ k)]
      have hm' : |(m : ℚ)| < 2 ^ 53 := by exact_mod_cast hm
      have hpow : (2 : ℚ) ^ k ≤ (2 : ℚ) ^ (binaryExponent x - 53) :=
        zpow_le_zpow_right₀ (by norm_num) (by omega)
      have e : (2 : ℚ) ^ 53 * (2 : ℚ) ^ (binaryExponent x - 53) = (2 : ℚ) ^ binaryExponent x := by
        rw [← zpow_natCast, ← zpow_add₀ (by norm_num : (2 : ℚ) ≠ 0)]
        congr 1
        push_cast
        ring
      calc |(m : ℚ)| * (2 : ℚ) ^ k ≤ |(m : ℚ)| * (2 : ℚ) ^ (binaryExponent x - 53) :=
            mul_le_mul_of_nonneg_left hpow (abs_nonneg _)
        _ < (2 : ℚ) ^ 53 * (2 : ℚ) ^ (binaryExponent x - 53) :=
            mul_lt_mul_of_pos_right hm' (by positivity)
        _ = (2 : ℚ) ^ binaryExponent x := e
    have hfar : |x| - (2 : ℚ) ^ binaryExponent x < |(m : ℚ) * (2 : ℚ) ^ k - x| := by
      have h1 : |x| - |(m : ℚ) * (2 : ℚ) ^ k| ≤ |(m : ℚ) * (2 : ℚ) ^ k - x| := by
        rw [abs_sub_comm]
        exact abs_sub_abs_le_abs_sub _ _
      linarith
    have e52 : ((2 ^ 52 : ℤ) : ℚ) * (2 : ℚ) ^ (binaryExponent x - 52)
        = (2 : ℚ) ^ binaryExponent x := by
      have hc : ((2 ^ 52 : ℤ) : ℚ) = (2 : ℚ) ^ (52 : ℤ) := by norm_num
      rw [hc, ← zpow_add₀ (by norm_num : (2 : ℚ) ≠ 0)]
      congr 1
      ring
    have habs : |(|x| - (2 : ℚ) ^ binaryExponent x)| = |x| - (2 : ℚ) ^ binaryExponent x :=
      abs_of_nonneg (by linarith)
    rcases lt_or_gt_of_ne hx with hneg | hpos
    · have hz := roundDouble_nearest_multiple x (-(2 ^ 52))
      rw [hu] at hz
      have e : ((-(2 ^ 52) : ℤ) : ℚ) * (2 : ℚ) ^ (binaryExponent x - 52) - x
          = |x| - (2 : ℚ) ^ binaryExponent x := by
        rw [abs_of_neg hneg, Int.cast_neg, neg_mul, e52]
        ring
      rw [e, habs] at hz
      linarith
    · have hz := roundDouble_nearest_multiple x (2 ^ 52)
      rw [hu] at hz
      have e : (((2 ^ 52 : ℤ)) : ℚ) * (2 : ℚ) ^ (binaryExponent x - 52) - x
          = -(|x| - (2 : ℚ) ^ binaryExponent x) := by
        rw [abs_of_pos hpos, e52]
        ring
      rw [e, abs_neg, habs] at hz
      linarith

theorem roundDouble_le (x b : ℚ) (hb : isDouble b) (h : x ≤ b) : roundDouble x ≤ b := by
  by_contra hgt
  have hgt' : b < roundDouble x := not_le.mp hgt
  have hn := roundDouble_nearest x b hb
  rw [abs_of_pos (by linarith), abs_of_nonneg (by linarith)] at hn
  linarith

theorem le_roundDouble (x b : ℚ) (hb : isDouble b) (h : b ≤ x) : b ≤ roundDouble x := by
  by_contra hlt
  have hlt' : roundDouble x < b := not_le.mp hlt
  have hn := roundDouble_nearest x b hb
  rw [abs_of_neg (by linarith), abs_of_nonpos (by linarith)] at hn
  linarith

theorem roundDouble_of_isDouble (b : ℚ) (hb : isDouble b) : roundDouble b = b :=
  le_antisymm (roundDouble_le b b hb (le_refl b)) (le_roundDouble b b hb (le_refl b))

theorem isDouble_of_int (b : ℚ) (n : ℤ) (hb : b = (n : ℚ)) (h : |n| < 2 ^ 53) : isDouble b :=
  ⟨n, 0, h, by norm_num, by norm_num, by rw [hb]; simp⟩

theorem isDouble_zero : isDouble 0 := isDouble_of_int 0 0 (by norm_num) (by norm_num)

/-- The largest binary64 number below `1` is `1 - 2 ^ (-53)`. -/
theorem isDouble_lt_one (r : ℚ) (hr : isDouble r) (h1 : r < 1) : r ≤ 1 - 1 / 2 ^ 53 := by
  obtain ⟨m, k, hm, -, -, rfl⟩ := hr
  by_cases hk : -53 ≤ k
  · have e : (m : ℚ) * (2 : ℚ) ^ k
        = ((m * 2 ^ (k + 53).toNat : ℤ) : ℚ) / 2 ^ 53 := by
      push_cast
      rw [← zpow_natCast (2 : ℚ) (k + 53).toNat, Int.toNat_of_nonneg (by omega),
        zpow_add₀ (by norm_num : (2 : ℚ) ≠ 0)]
      norm_num
      ring
    rw [e] at h1 ⊢
    have hz : ((m * 2 ^ (k + 53).toNat : ℤ) : ℚ) < 2 ^ 53 := by
      rwa [div_lt_one (by positivity)] at h1
    have hz' : m * 2 ^ (k + 53).toNat < 2 ^ 53 := by exact_mod_cast hz
    have hz'' : m * 2 ^ (k + 53).toNat ≤ 2 ^ 53 - 1 := by omega
    have hzq : ((m * 2 ^ (k + 53).toNat : ℤ) : ℚ) ≤ 2 ^ 53 - 1 := by exact_mod_cast hz''
    rw [div_le_iff₀ (by positivity)]
    have : ((1 : ℚ) - 1 / 2 ^ 53) * 2 ^ 53 = 2 ^ 53 - 1 := by norm_num
    rw [this]
    exact hzq
  · have hm' : |(m : ℚ)| < 2 ^ 53 := by exact_mod_cast hm
    have hpow : (2 : ℚ) ^ k ≤ (2 : ℚ) ^ (-54 : ℤ) :=
      zpow_le_zpow_right₀ (by norm_num) (by omega)
    have hpos : (0 : ℚ) < (2 : ℚ) ^ k := by positivity
    have h2 : (m : ℚ) * (2 : ℚ) ^ k ≤ |(m : ℚ)| * (2 : ℚ) ^ k :=
      mul_le_mul_of_nonneg_right (le_abs_self _) hpos.le
    have h3 : |(m : ℚ)| * (2 : ℚ) ^ k ≤ 2 ^ 53 * (2 : ℚ) ^ (-54 : ℤ) :=
      mul_le_mul hm'.le hpow hpos.le (by positivity)
    have h4 : (2 : ℚ) ^ 53 * (2 : ℚ) ^ (-54 : ℤ) = 1 / 2 := by norm_num
    rw [h4] at h3
    have h5 : (1 : ℚ) / 2 ≤ 1 - 1 / 2 ^ 53 := by norm_num
    exact le_trans (le_trans h2 h3) h5

/-- Three times a binary64 number below `1` rounds to a number below `3`. -/
theorem roundDouble_lt_three (x : ℚ) (h : x ≤ 3 * (1 - 1 / 2 ^ 53)) : roundDouble x < 3 := by
  have hd3 : isDouble 3 := isDouble_of_int 3 3 (by norm_num) (by norm_num)
  have hdb : isDouble (3 - 1 / 2 ^ 51) :=
    ⟨3 * 2 ^ 51 - 1, -51, by norm_num, by norm_num, by norm_num, by norm_num⟩
  have hx3 : x ≤ 3 := by
    have : (3 : ℚ) * (1 - 1 / 2 ^ 53) ≤ 3 := by norm_num
    linarith
  have hle : roundDouble x ≤ 3 := roundDouble_le x 3 hd3 hx3
  rcases le_or_lt x (3 - 1 / 2 ^ 51) with hxb | hxb
  · have := roundDouble_le x _ hdb hxb
    have h2 : (3 : ℚ) - 1 / 2 ^ 51 < 3 := by norm_num
    linarith
  · by_contra hge
    have heq : roundDouble x = 3 := le_antisymm hle (not_lt.mp hge)
    have hn := roundDouble_nearest x _ hdb
    rw [heq, abs_of_nonneg (by linarith), abs_of_neg (by linarith)] at hn
    have h3 : (3 : ℚ) * (1 - 1 / 2 ^ 53) = 3 - 3 / 2 ^ 53 := by ring
    have h4 : (1 : ℚ) / 2 ^ 51 = 4 / 2 ^ 53 := by norm_num
    have h5 : (0 : ℚ) < 1 / 2 ^ 53 := by positivity
    have h6 : (3 : ℚ) / 2 ^ 53 = 3 * (1 / 2 ^ 53) := by ring
    have h7 : (4 : ℚ) / 2 ^ 53 = 4 * (1 / 2 ^ 53) := by ring
    rw [h3, h6] at h
    rw [h4, h7] at hn hxb
    linarith

theorem isDouble_hundred : isDouble 100 :=
  isDouble_of_int 100 100 (by norm_num) (by norm_num)

/-- A non-negative fade-in draw gives a `fadeInDistance` of at least `100`. -/
theorem newCoin_fadeInDistance_ge (cfg : Config) (W : ℚ) (d : CoinDraws)
    (h : 0 ≤ d.fadeInDistance) : 100 ≤ (newCoin cfg W d).fadeInDistance := by
  show 100 ≤ roundDouble (roundDouble (d.fadeInDistance * 200) + 100)
  have h1 : 0 ≤ roundDouble (d.fadeInDistance * 200) :=
    le_roundDouble _ 0 isDouble_zero (by linarith)
  exact le_roundDouble _ 100 isDouble_hundred (by linarith)

end Rounding

/-! ## Field lemmas for the phases of a frame -/

section Phases

variable (cfg : Config) (W H r : ℚ) (d : FrameDraws) (c : Coin)

@[simp] theorem moveCoin_vx : (moveCoin cfg c).vx = c.vx * cfg.friction := rfl
@[simp] theorem moveCoin_vy : (moveCoin cfg c).vy = (c.vy + cfg.gravity) * cfg.friction := rfl
@[simp] theorem moveCoin_x : (moveCoin cfg c).x = c.x + c.vx * cfg.friction := rfl
@[simp] theorem moveCoin_y :
    (moveCoin cfg c).y = c.y + (c.vy + cfg.gravity) * cfg.friction := rfl
@[simp] theorem moveCoin_size : (moveCoin cfg c).size = c.size := rfl
@[simp] theorem moveCoin_opacity : (moveCoin cfg c).opacity = c.opacity := rfl
@[simp] theorem moveCoin_removed : (moveCoin cfg c).removed = c.removed := rfl
@[simp] theorem moveCoin_bounceCount : (moveCoin cfg c).bounceCount = c.bounceCount := rfl
@[simp] theorem moveCoin_maxBounces : (moveCoin cfg c).maxBounces = c.maxBounces := rfl
@[simp] theorem moveCoin_fadeInDistance :
    (moveCoin cfg c).fadeInDistance = c.fadeInDistance := rfl
@[simp] theorem moveCoin_fadeInProgress :
    (moveCoin cfg c).fadeInProgress = c.fadeInProgress := rfl

@[simp] theorem handleFadeIn_x : (handleFadeIn c).x = c.x := by
  unfold handleFadeIn; split_ifs <;> rfl
@[simp] theorem handleFadeIn_y : (handleFadeIn c).y = c.y := by
  unfold handleFadeIn; split_ifs <;> rfl
@[simp] theorem handleFadeIn_vx : (handleFadeIn c).vx = c.vx := by
  unfold handleFadeIn; split_ifs <;> rfl
@[simp] theorem handleFadeIn_vy : (handleFadeIn c).vy = c.vy := by
  unfold handleFadeIn; split_ifs <;> rfl
@[simp] theorem handleFadeIn_size : (handleFadeIn c).size = c.size := by
  unfold handleFadeIn; split_ifs <;> rfl
@[simp] theorem handleFadeIn_removed : (handleFadeIn c).removed = c.removed := by
  unfold handleFadeIn; split_ifs <;> rfl
@[simp] theorem handleFadeIn_bounceCount : (handleFadeIn c).bounceCount = c.bounceCount := by
  unfold handleFadeIn; split_ifs <;> rfl
@[simp] theorem handleFadeIn_maxBounces : (handleFadeIn c).maxBounces = c.maxBounces := by
  unfold handleFadeIn; split_ifs <;> rfl
@[simp] theorem handleFadeIn_fadeInDistance :
    (handleFadeIn c).fadeInDistance = c.fadeInDistance := by
  unfold handleFadeIn; split_ifs <;> rfl

theorem handleFadeIn_opacity_le (h : c.opacity ≤ 1) : (handleFadeIn c).opacity ≤ 1 := by
  unfold handleFadeIn
  split_ifs
  · exact min_le_left _ _
  · exact h

@[simp] theorem beforeSides_x : (beforeSides cfg c).x = c.x + c.vx * cfg.friction := by
  simp [beforeSides, updateRotation]
@[simp] theorem beforeSides_y :
    (beforeSides cfg c).y = c.y + (c.vy + cfg.gravity) * cfg.friction := by
  simp [beforeSides, updateRotation]
@[simp] theorem beforeSides_vx : (beforeSides cfg c).vx = c.vx * cfg.friction := by
  simp [beforeSides, updateRotation]
@[simp] theorem beforeSides_vy :
    (beforeSides cfg c).vy = (c.vy + cfg.gravity) * cfg.friction := by
  simp [beforeSides, updateRotation]
@[simp] theorem beforeSides_size : (beforeSides cfg c).size = c.size := by
  simp [beforeSides, updateRotation]
@[simp] theorem beforeSides_removed : (beforeSides cfg c).removed = c.removed := by
  simp [beforeSides, updateRotation]
@[simp] theorem beforeSides_bounceCount :
    (beforeSides cfg c).bounceCount = c.bounceCount := by
  simp [beforeSides, updateRotation]
@[simp] theorem beforeSides_maxBounces : (beforeSides cfg c).maxBounces = c.maxBounces := by
  simp [beforeSides, updateRotation]
@[simp] theorem beforeSides_fadeInDistance :
    (beforeSides cfg c).fadeInDistance = c.fadeInDistance := by
  simp [beforeSides, updateRotation]
@[simp] theorem beforeSides_opacity :
    (beforeSides cfg c).opacity = (handleFadeIn (moveCoin cfg c)).opacity := rfl
@[simp] theorem beforeSides_fadeInProgress :
    (beforeSides cfg c).fadeInProgress = (handleFadeIn (moveCoin cfg c)).fadeInProgress := rfl

@[simp] theorem handleSides_y : (handleSides cfg W r c).y = c.y := by
  unfold handleSides sideBounce; split_ifs <;> rfl
@[simp] theorem handleSides_size : (handleSides cfg W r c).size = c.size := by
  unfold handleSides sideBounce; split_ifs <;> rfl
@[simp] theorem handleSides_opacity : (handleSides cfg W r c).opacity = c.opacity := by
  unfold handleSides sideBounce; split_ifs <;> rfl
@[simp] theorem handleSides_removed : (handleSides cfg W r c).removed = c.removed := by
  unfold handleSides sideBounce; split_ifs <;> rfl
@[simp] theorem handleSides_maxBounces :
    (handleSides cfg W r c).maxBounces = c.maxBounces := by
  unfold handleSides sideBounce; split_ifs <;> rfl
@[simp] theorem handleSides_fadeInDistance :
    (handleSides cfg W r c).fadeInDistance = c.fadeInDistance := by
  unfold handleSides sideBounce; split_ifs <;> rfl
@[simp] theorem handleSides_fadeInProgress :
    (handleSides cfg W r c).fadeInProgress = c.fadeInProgress := by
  unfold handleSides sideBounce; split_ifs <;> rfl

theorem handleSides_bounceCount_ge : c.bounceCount ≤ (handleSides cfg W r c).bounceCount := by
  unfold handleSides sideBounce; split_ifs <;> simp

@[simp] theorem bottomEdge_handleSides :
    bottomEdge H (handleSides cfg W r c) = bottomEdge H c := by
  simp [bottomEdge]

@[simp] theorem bottomEdge_beforeSides : bottomEdge H (beforeSides cfg c) = bottomEdge H c := by
  simp [bottomEdge]

@[simp] theorem beforeBottom_y :
    (beforeBottom cfg W d c).y = c.y + (c.vy + cfg.gravity) * cfg.friction := by
  simp [beforeBottom]
@[simp] theorem beforeBottom_size : (beforeBottom cfg W d c).size = c.size := by
  simp [beforeBottom]
@[simp] theorem beforeBottom_removed : (beforeBottom cfg W d c).removed = c.removed := by
  simp [beforeBottom]
@[simp] theorem beforeBottom_maxBounces :
    (beforeBottom cfg W d c).maxBounces = c.maxBounces := by
  simp [beforeBottom]
@[simp] theorem beforeBottom_fadeInDistance :
    (beforeBottom cfg W d c).fadeInDistance = c.fadeInDistance := by
  simp [beforeBottom]
@[simp] theorem beforeBottom_opacity :
    (beforeBottom cfg W d c).opacity = (handleFadeIn (moveCoin cfg c)).opacity := by
  simp [beforeBottom]
@[simp] theorem beforeBottom_fadeInProgress :
    (beforeBottom cfg W d c).fadeInProgress
      = (handleFadeIn (moveCoin cfg c)).fadeInProgress := by
  simp [beforeBottom]
@[simp] theorem bottomEdge_beforeBottom :
    bottomEdge H (beforeBottom cfg W d c) = bottomEdge H c := by
  simp [bottomEdge]

theorem beforeBottom_bounceCount_ge : c.bounceCount ≤ (beforeBottom cfg W d c).bounceCount := by
  have h := handleSides_bounceCount_ge cfg W d.sign (beforeSides cfg c)
  simpa [beforeBottom] using h

@[simp] theorem writeTransform_x : (writeTransform c).x = c.x := rfl
@[simp] theorem writeTransform_y : (writeTransform c).y = c.y := rfl
@[simp] theorem writeTransform_vx : (writeTransform c).vx = c.vx := rfl
@[simp] theorem writeTransform_vy : (writeTransform c).vy = c.vy := rfl
@[simp] theorem writeTransform_size : (writeTransform c).size = c.size := rfl
@[simp] theorem writeTransform_opacity : (writeTransform c).opacity = c.opacity := rfl
@[simp] theorem writeTransform_removed : (writeTransform c).removed = c.removed := rfl
@[simp] theorem writeTransform_bounceCount :
    (writeTransform c).bounceCount = c.bounceCount := rfl
@[simp] theorem writeTransform_maxBounces : (writeTransform c).maxBounces = c.maxBounces := rfl
@[simp] theorem writeTransform_fadeInDistance :
    (writeTransform c).fadeInDistance = c.fadeInDistance := rfl
@[simp] theorem writeTransform_fadeInProgress :
    (writeTransform c).fadeInProgress = c.fadeInProgress := rfl

theorem updateCoin_of_live (h : c.removed = false) :
    updateCoin cfg W H d c
      = writeTransform (handleBottom cfg H d.boost (beforeBottom cfg W d c)) := by
  simp [updateCoin, h]

theorem updateCoin_of_removed (h : c.removed = true) : updateCoin cfg W H d c = c := by
  simp [updateCoin, h]

theorem runFrames_of_removed (draws : ℕ → FrameDraws) (h : c.removed = true) (n : ℕ) :
    runFrames cfg W H draws n c = c := by
  induction n with
  | zero => rfl
  | succ n ih => rw [runFrames, ih, updateCoin_of_removed cfg W H _ c h]

end Phases

/-! ## Order of operations (gravity, friction, integration) -/

/-- C1: for a live coin, one frame applies gravity, then friction, then the position update:
on entry to the edge checks `vy = (vy0 + gravity) * friction`, `vx = vx0 * friction`,
`x = x0 + vx` and `y = y0 + vy` with the damped velocities; with `gravity = 0.2` and
`vy0 = 4` the value of `vy` after the gravity step is `4.2`; and when the moved coin touches
no edge these are the position and velocity at the end of the frame. -/
theorem updateCoin_gravity_friction_position (cfg : Config) (W H : ℚ) (d : FrameDraws)
    (c : Coin) (h : c.removed = false) :
    updateCoin cfg W H d c
        = writeTransform (handleBottom cfg H d.boost
            (handleSides cfg W d.sign (updateRotation (handleFadeIn
              (updatePosition (applyFriction cfg (applyGravity cfg c)))))))
      ∧ (applyGravity cfg c).vy = c.vy + cfg.gravity
      ∧ (cfg.gravity = 1 / 5 → c.vy = 4 → (applyGravity cfg c).vy = 21 / 5)
      ∧ (applyFriction cfg (applyGravity cfg c)).vy = (c.vy + cfg.gravity) * cfg.friction
      ∧ (applyFriction cfg (applyGravity cfg c)).vx = c.vx * cfg.friction
      ∧ (beforeSides cfg c).vy = (c.vy + cfg.gravity) * cfg.friction
      ∧ (beforeSides cfg c).vx = c.vx * cfg.friction
      ∧ (beforeSides cfg c).x = c.x + (beforeSides cfg c).vx
      ∧ (beforeSides cfg c).y = c.y + (beforeSides cfg c).vy
      ∧ (0 ≤ (beforeSides cfg c).x → (beforeSides cfg c).x ≤ W - c.size →
          (beforeSides cfg c).y ≤ H - c.size * (1 / 5) →
            (updateCoin cfg W H d c).vy = (c.vy + cfg.gravity) * cfg.friction
            ∧ (updateCoin cfg W H d c).vx = c.vx * cfg.friction
            ∧ (updateCoin cfg W H d c).x = c.x + c.vx * cfg.friction
            ∧ (updateCoin cfg W H d c).y = c.y + (c.vy + cfg.gravity) * cfg.friction) := by
  refine ⟨updateCoin_of_live cfg W H d c h, rfl, ?_, rfl, rfl, by simp, by simp, by simp,
    by simp, ?_⟩
  · intro hg hv
    simp only [applyGravity, hg, hv]
    norm_num
  · intro hx0 hx1 hy
    have hs : handleSides cfg W d.sign (beforeSides cfg c) = beforeSides cfg c := by
      unfold handleSides
      rw [if_neg (not_lt.mpr hx0), if_neg]
      simpa [rightEdge] using hx1
    have hb : handleBottom cfg H d.boost (beforeSides cfg c) = beforeSides cfg c := by
      unfold handleBottom
      rw [if_neg]
      simpa [bottomEdge] using hy
    rw [updateCoin_of_live cfg W H d c h, beforeBottom, hs, hb]
    simp

/-- Witness for C1 at `sampleCoin` with the configured values: after the frame the coin has
`vy = 4.158`, `vx = 0.99`, `x = 500.99`, `y = 104.158`. -/
theorem updateCoin_gravity_friction_position_witness :
    sampleCoin.removed = false
      ∧ (applyGravity config sampleCoin).vy = 21 / 5
      ∧ (updateCoin config 1000 800 midDraws sampleCoin).vy = 4158 / 1000
      ∧ (updateCoin config 1000 800 midDraws sampleCoin).vx = 99 / 100
      ∧ (updateCoin config 1000 800 midDraws sampleCoin).x = 50099 / 100
      ∧ (updateCoin config 1000 800 midDraws sampleCoin).y = 104158 / 1000 := by
  have t := updateCoin_gravity_friction_position config 1000 800 midDraws sampleCoin rfl
  obtain ⟨-, -, hg, -, -, -, -, -, -, hfree⟩ := t
  have hf := hfree (by simp [sampleCoin, config]; norm_num)
    (by simp [sampleCoin, config]; norm_num) (by simp [sampleCoin, config]; norm_num)
  refine ⟨rfl, hg rfl rfl, ?_, ?_, ?_, ?_⟩
  · rw [hf.1]; simp [sampleCoin, config]; norm_num
  · rw [hf.2.1]; simp [sampleCoin, config]
  · rw [hf.2.2.1]; simp [sampleCoin, config]; norm_num
  · rw [hf.2.2.2]; simp [sampleCoin, config]; norm_num

/-! ## Bottom edge handling: field lemmas -/

section Bottom

variable (cfg : Config) (W H r : ℚ) (d : FrameDraws) (c : Coin)

@[simp] theorem fadeOut_x : (fadeOut c).x = c.x := by
  unfold fadeOut; split_ifs <;> rfl
@[simp] theorem fadeOut_y : (fadeOut c).y = c.y := by
  unfold fadeOut; split_ifs <;> rfl
@[simp] theorem fadeOut_vx : (fadeOut c).vx = c.vx := by
  unfold fadeOut; split_ifs <;> rfl
@[simp] theorem fadeOut_vy : (fadeOut c).vy = c.vy := by
  unfold fadeOut; split_ifs <;> rfl
@[simp] theorem fadeOut_size : (fadeOut c).size = c.size := by
  unfold fadeOut; split_ifs <;> rfl
@[simp] theorem fadeOut_opacity : (fadeOut c).opacity = c.opacity - 3 / 100 := by
  unfold fadeOut; split_ifs <;> rfl
@[simp] theorem fadeOut_bounceCount : (fadeOut c).bounceCount = c.bounceCount := by
  unfold fadeOut; split_ifs <;> rfl
@[simp] theorem fadeOut_maxBounces : (fadeOut c).maxBounces = c.maxBounces := by
  unfold fadeOut; split_ifs <;> rfl
@[simp] theorem fadeOut_fadeInDistance : (fadeOut c).fadeInDistance = c.fadeInDistance := by
  unfold fadeOut; split_ifs <;> rfl
@[simp] theorem fadeOut_fadeInProgress : (fadeOut c).fadeInProgress = c.fadeInProgress := by
  unfold fadeOut; split_ifs <;> rfl

theorem fadeOut_removed_of_le (h : c.opacity - 3 / 100 ≤ 0) : (fadeOut c).removed = true := by
  have h2 : (lowerOpacity c).opacity ≤ 0 := h
  unfold fadeOut; rw [if_pos h2]

theorem fadeOut_removed_of_gt (h : 0 < c.opacity - 3 / 100) :
    (fadeOut c).removed = c.removed := by
  have h2 : ¬ (lowerOpacity c).opacity ≤ 0 := not_le.mpr h
  unfold fadeOut; rw [if_neg h2]; rfl

@[simp] theorem handleBottom_x : (handleBottom cfg H r c).x = c.x := by
  unfold handleBottom bottomBounce; split_ifs <;> simp
@[simp] theorem handleBottom_size : (handleBottom cfg H r c).size = c.size := by
  unfold handleBottom bottomBounce; split_ifs <;> simp
@[simp] theorem handleBottom_maxBounces :
    (handleBottom cfg H r c).maxBounces = c.maxBounces := by
  unfold handleBottom bottomBounce; split_ifs <;> simp
@[simp] theorem handleBottom_fadeInDistance :
    (handleBottom cfg H r c).fadeInDistance = c.fadeInDistance := by
  unfold handleBottom bottomBounce; split_ifs <;> simp
@[simp] theorem handleBottom_fadeInProgress :
    (handleBottom cfg H r c).fadeInProgress = c.fadeInProgress := by
  unfold handleBottom bottomBounce; split_ifs <;> simp

theorem handleBottom_of_le (h : c.y ≤ bottomEdge H c) : handleBottom cfg H r c = c := by
  unfold handleBottom; rw [if_neg (not_lt.mpr h)]

theorem handleBottom_of_bounce (h : c.y > bottomEdge H c) (hb : canBounceBottom cfg c) :
    handleBottom cfg H r c = bottomBounce cfg H r c := by
  unfold handleBottom; rw [if_pos h, if_pos hb]

theorem handleBottom_of_fade (h : c.y > bottomEdge H c) (hb : ¬ canBounceBottom cfg c) :
    handleBottom cfg H r c = fadeOut c := by
  unfold handleBottom; rw [if_pos h, if_neg hb]

theorem handleBottom_vx_of_not_bounce
    (h : ¬ (c.y > bottomEdge H c ∧ canBounceBottom cfg c)) :
    (handleBottom cfg H r c).vx = c.vx := by
  unfold handleBottom
  split_ifs with h1 h2
  · exact absurd ⟨h1, h2⟩ h
  · simp
  · rfl

theorem handleBottom_opacity_le (h : c.opacity ≤ 1) : (handleBottom cfg H r c).opacity ≤ 1 := by
  unfold handleBottom bottomBounce
  split_ifs
  · exact h
  · rw [fadeOut_opacity]; linarith
  · exact h

end Bottom

/-! ## The side bounce scenario -/

/-- C2 (as stated, refuted): with the configured values a live coin at `x = -5` with
`vx = -2` ends the frame at `x = 0` with `vx = 1.881`, not `1.9`: friction is applied to
`vx` before the bounce reflects it. -/
theorem leftCoin_frame_vx :
    leftCoin.removed = false ∧ leftCoin.x = -5 ∧ leftCoin.vx = -2
      ∧ (updateCoin config 1000 800 midDraws leftCoin).x = 0
      ∧ (updateCoin config 1000 800 midDraws leftCoin).bounceCount
          = leftCoin.bounceCount + 1
      ∧ (updateCoin config 1000 800 midDraws leftCoin).vx = 1881 / 1000
      ∧ (updateCoin config 1000 800 midDraws leftCoin).vx ≠ 19 / 10 := by
  decide!

/-- C2 (amended): with the configured `friction = 0.99` and `bounceReduction = 0.95`, one
frame applied to a live coin at `x = -5` with `vx = -2` performs the left bounce: on entry
to the bottom handling `x = 0`, `vx = 2 * 0.99 * 0.95 = 1.881` and `bounceCount` is one
higher; `x = 0` at the end of the frame, and `vx = 1.881` at the end of the frame unless the
same frame also bounces off the bottom. -/
theorem updateCoin_left_bounce (W H : ℚ) (d : FrameDraws) (c : Coin)
    (h : c.removed = false) (hx : c.x = -5) (hvx : c.vx = -2) :
    (beforeBottom config W d c).x = 0
      ∧ (beforeBottom config W d c).vx = 1881 / 1000
      ∧ (beforeBottom config W d c).bounceCount = c.bounceCount + 1
      ∧ (updateCoin config W H d c).x = 0
      ∧ (¬ ((beforeBottom config W d c).y > bottomEdge H (beforeBottom config W d c)
            ∧ canBounceBottom config (beforeBottom config W d c)) →
          (updateCoin config W H d c).vx = 1881 / 1000) := by
  have hneg : (beforeSides config c).x < 0 := by
    rw [beforeSides_x, hx, hvx]; norm_num [config]
  have hs : beforeBottom config W d c = sideBounce config 0 d.sign (beforeSides config c) := by
    unfold beforeBottom handleSides; rw [if_pos hneg]
  have h1 : (beforeBottom config W d c).x = 0 := by rw [hs]; rfl
  have h2 : (beforeBottom config W d c).vx = 1881 / 1000 := by
    rw [hs]
    show -(beforeSides config c).vx * config.bounceReduction = 1881 / 1000
    rw [beforeSides_vx, hvx]; norm_num [config]
  have h3 : (beforeBottom config W d c).bounceCount = c.bounceCount + 1 := by
    rw [hs]
    show (beforeSides config c).bounceCount + 1 = c.bounceCount + 1
    rw [beforeSides_bounceCount]
  refine ⟨h1, h2, h3, ?_, ?_⟩
  · rw [updateCoin_of_live config W H d c h, writeTransform_x, handleBottom_x, h1]
  · intro hnb
    rw [updateCoin_of_live config W H d c h, writeTransform_vx,
      handleBottom_vx_of_not_bounce config H d.boost _ hnb, h2]

/-- Witness for the amended C2 at `leftCoin` in a `1000 × 800` viewport. -/
theorem updateCoin_left_bounce_witness :
    leftCoin.removed = false ∧ leftCoin.x = -5 ∧ leftCoin.vx = -2
      ∧ (beforeBottom config 1000 midDraws leftCoin).x = 0
      ∧ (beforeBottom config 1000 midDraws leftCoin).vx = 1881 / 1000
      ∧ (updateCoin config 1000 800 midDraws leftCoin).x = 0 :=
  have t := updateCoin_left_bounce 1000 800 midDraws leftCoin rfl rfl rfl
  ⟨rfl, rfl, rfl, t.1, t.2.1, t.2.2.2.1⟩

/-! ## Exhausted bounce budget -/

/-- C3: a live coin whose bounce budget is used up (`bounceCount ≥ maxBounces`) and whose `y`
after the position update exceeds the bottom threshold `H - 0.2 * size` takes the fade-out
branch whatever `vy` is: the bottom handling is `fadeOut`, so `vy` is not reflected, `y` is
not clamped, `bounceCount` is not incremented by the bottom handling, and the opacity is
lowered by `0.03`. -/
theorem updateCoin_spent_budget_fades (cfg : Config) (W H : ℚ) (d : FrameDraws) (c : Coin)
    (h : c.removed = false) (hb : c.maxBounces ≤ c.bounceCount)
    (hy : (moveCoin cfg c).y > H - c.size * (1 / 5)) :
    handleBottom cfg H d.boost (beforeBottom cfg W d c) = fadeOut (beforeBottom cfg W d c)
      ∧ (updateCoin cfg W H d c).vy = (beforeBottom cfg W d c).vy
      ∧ (updateCoin cfg W H d c).y = (moveCoin cfg c).y
      ∧ (updateCoin cfg W H d c).bounceCount = (beforeBottom cfg W d c).bounceCount
      ∧ (updateCoin cfg W H d c).opacity = (beforeBottom cfg W d c).opacity - 3 / 100 := by
  have hgt : (beforeBottom cfg W d c).y > bottomEdge H (beforeBottom cfg W d c) := by
    rw [bottomEdge_beforeBottom, beforeBottom_y]
    simpa [bottomEdge] using hy
  have hnb : ¬ canBounceBottom cfg (beforeBottom cfg W d c) := by
    intro hc
    have h1 := hc.1
    rw [beforeBottom_maxBounces] at h1
    have h2 := beforeBottom_bounceCount_ge cfg W d c
    omega
  have hf := handleBottom_of_fade cfg H d.boost (beforeBottom cfg W d c) hgt hnb
  refine ⟨hf, ?_, ?_, ?_, ?_⟩ <;> rw [updateCoin_of_live cfg W H d c h, hf] <;> simp

/-- Witness for C3 at `spentCoin` (`maxBounces = 2`, `bounceCount = 2`, `vy = 10`, far above
the bounce threshold `0.5`): the frame lowers the opacity from `1` to `0.97` and leaves
`bounceCount = 2`. -/
theorem updateCoin_spent_budget_fades_witness :
    spentCoin.removed = false ∧ spentCoin.maxBounces ≤ spentCoin.bounceCount
      ∧ (moveCoin config spentCoin).y > 800 - spentCoin.size * (1 / 5)
      ∧ (updateCoin config 1000 800 midDraws spentCoin).bounceCount = 2
      ∧ (updateCoin config 1000 800 midDraws spentCoin).opacity = 97 / 100 := by
  have hy : (moveCoin config spentCoin).y > 800 - spentCoin.size * (1 / 5) := by decide!
  have t := updateCoin_spent_budget_fades config 1000 800 midDraws spentCoin rfl
    (by decide) hy
  refine ⟨rfl, by decide, hy, ?_, ?_⟩
  · rw [t.2.2.2.1]; decide!
  · rw [t.2.2.2.2]; decide!

/-! ## Removed coins are inert -/

/-- C5: a coin with `removed = true` is returned unchanged by a frame, in every field and
in its visual element (no style write), so it stays removed after any number of frames; and
for any coin, once `removed` is true after some frame it is true after every later
frame. -/
theorem updateCoin_removed_inert (cfg : Config) (W H : ℚ) (draws : ℕ → FrameDraws)
    (c : Coin) (h : c.removed = true) :
    (∀ d, updateCoin cfg W H d c = c)
      ∧ (∀ n, runFrames cfg W H draws n c = c)
      ∧ (∀ n, (runFrames cfg W H draws n c).removed = true)
      ∧ (∀ (c0 : Coin) (n m : ℕ), (runFrames cfg W H draws n c0).removed = true →
          (runFrames cfg W H draws (n + m) c0).removed = true) := by
  refine ⟨fun d => updateCoin_of_removed cfg W H d c h,
    fun n => runFrames_of_removed cfg W H c draws h n,
    fun n => by rw [runFrames_of_removed cfg W H c draws h n]; exact h, ?_⟩
  intro c0 n m hn
  induction m with
  | zero => exact hn
  | succ m ih =>
    show (updateCoin cfg W H (draws (n + m)) (runFrames cfg W H draws (n + m) c0)).removed
      = true
    rw [updateCoin_of_removed cfg W H _ _ ih]; exact ih

/-- Witness for C5 at `removedCoin`: a frame returns it unchanged. -/
theorem updateCoin_removed_inert_witness :
    removedCoin.removed = true
      ∧ updateCoin config 1000 800 midDraws removedCoin = removedCoin
      ∧ runFrames config 1000 800 (fun _ => midDraws) 5 removedCoin = removedCoin :=
  have t := updateCoin_removed_inert config 1000 800 (fun _ => midDraws) removedCoin rfl
  ⟨rfl, t.1 midDraws, t.2.1 5⟩

/-! ## Fade-in is capped at 1 -/

/-- C7: for a coin with `fadeInDistance > 0`, the opacity written by the fade-in branch of a
frame is `min(1, fadeInProgress / fadeInDistance)` (with the updated accumulator), hence at
most `1`; and if `opacity ≤ 1` before a frame then `opacity ≤ 1` after it. -/
theorem updateCoin_opacity_le_one (cfg : Config) (W H : ℚ) (d : FrameDraws) (c : Coin)
    (_hd : 0 < c.fadeInDistance) :
    (c.fadeInProgress < c.fadeInDistance →
        (handleFadeIn (moveCoin cfg c)).opacity
            = min 1 ((c.fadeInProgress + (moveCoin cfg c).vy) / c.fadeInDistance)
          ∧ (handleFadeIn (moveCoin cfg c)).element.styleOpacity
            = some (min 1 ((c.fadeInProgress + (moveCoin cfg c).vy) / c.fadeInDistance))
          ∧ (handleFadeIn (moveCoin cfg c)).opacity ≤ 1)
      ∧ (c.opacity ≤ 1 → (updateCoin cfg W H d c).opacity ≤ 1) := by
  constructor
  · intro hlt
    have hlt2 : (moveCoin cfg c).fadeInProgress < (moveCoin cfg c).fadeInDistance := hlt
    have e : handleFadeIn (moveCoin cfg c) =
        { moveCoin cfg c with
          fadeInProgress := c.fadeInProgress + (moveCoin cfg c).vy
          opacity := min 1 ((c.fadeInProgress + (moveCoin cfg c).vy) / c.fadeInDistance)
          element := { (moveCoin cfg c).element with
            styleOpacity :=
              some (min 1 ((c.fadeInProgress + (moveCoin cfg c).vy) / c.fadeInDistance)) } } := by
      unfold handleFadeIn; rw [if_pos hlt2]; rfl
    rw [e]
    exact ⟨rfl, rfl, min_le_left _ _⟩
  · intro hle
    by_cases hr : c.removed = true
    · rw [updateCoin_of_removed cfg W H d c hr]; exact hle
    · have hr2 : c.removed = false := by simpa using hr
      rw [updateCoin_of_live cfg W H d c hr2, writeTransform_opacity]
      apply handleBottom_opacity_le
      rw [beforeBottom_opacity]
      exact handleFadeIn_opacity_le _ hle

/-- Witness for C7 at `sampleCoin` (`fadeInDistance = 100`, `fadeInProgress = 50`): the
fade-in branch writes `0.54158`. -/
theorem updateCoin_opacity_le_one_witness :
    0 < sampleCoin.fadeInDistance
      ∧ (handleFadeIn (moveCoin config sampleCoin)).opacity = 54158 / 100000
      ∧ (updateCoin config 1000 800 midDraws sampleCoin).opacity ≤ 1 := by
  have t := updateCoin_opacity_le_one config 1000 800 midDraws sampleCoin (by decide!)
  refine ⟨by decide!, ?_, t.2 (by decide!)⟩
  rw [(t.1 (by decide!)).1]; decide!

/-! ## The spawner chain -/

section SpawnerChain

variable (cfg : Config) (widths : ℕ → ℚ) (draws : ℕ → CoinDraws)

theorem createCoinsWithDelay_of_lt (W : ℚ) (d : CoinDraws) (s : Spawner)
    (h : (s.coinsCreated : ℚ) < cfg.coinCount) :
    createCoinsWithDelay cfg W d s
      = ({ coinsCreated := s.coinsCreated + 1, coins := createCoin cfg W d s.coins },
          some (spawnDelay cfg (s.coinsCreated + 1))) := by
  unfold createCoinsWithDelay; rw [if_pos h]

theorem createCoinsWithDelay_of_not_lt (W : ℚ) (d : CoinDraws) (s : Spawner)
    (h : ¬ (s.coinsCreated : ℚ) < cfg.coinCount) :
    createCoinsWithDelay cfg W d s = (s, none) := by
  unfold createCoinsWithDelay; rw [if_neg h]

theorem createCoin_length (W : ℚ) (d : CoinDraws) (coins : List Coin) :
    (createCoin cfg W d coins).length = coins.length + 1 := by
  simp [createCoin]

/-- With enough fuel the chain started at a closure state `s` ends with no timer pending,
after creating the missing `N - coinsCreated` coins; the trace is the current invocation
followed by one timer callback per remaining value of the counter. -/
theorem runSpawner_complete (N : ℕ) (hN : cfg.coinCount = N) :
    ∀ (fuel : ℕ) (waited : ℚ) (s : Spawner),
      s.coinsCreated ≤ N → N - s.coinsCreated < fuel →
        (runSpawner cfg widths draws fuel waited s).pending = none
          ∧ (runSpawner cfg widths draws fuel waited s).state.coinsCreated = N
          ∧ (runSpawner cfg widths draws fuel waited s).state.coins.length
              = s.coins.length + (N - s.coinsCreated)
          ∧ ((runSpawner cfg widths draws fuel waited s).calls.filter
                (fun c => c.created)).length = N - s.coinsCreated
          ∧ (runSpawner cfg widths draws fuel waited s).calls
              = { waited := waited, created := decide (s.coinsCreated < N) }
                :: (List.range' (s.coinsCreated + 1) (N - s.coinsCreated)).map
                  (fun k => { waited := spawnDelay cfg k, created := decide (k < N) }) := by
  intro fuel
  induction fuel with
  | zero => intro waited s _ h; omega
  | succ fuel ih =>
    intro waited s hle hfuel
    by_cases hlt : s.coinsCreated < N
    · have hq : (s.coinsCreated : ℚ) < cfg.coinCount := by
        rw [hN]; exact_mod_cast hlt
      have hstep := createCoinsWithDelay_of_lt cfg (widths s.coinsCreated)
        (draws s.coinsCreated) s hq
      have hrun : runSpawner cfg widths draws (fuel + 1) waited s
          = { runSpawner cfg widths draws fuel
                (spawnDelay cfg (s.coinsCreated + 1))
                { coinsCreated := s.coinsCreated + 1
                  coins := createCoin cfg (widths s.coinsCreated) (draws s.coinsCreated)
                    s.coins } with
              calls := { waited := waited, created := true }
                :: (runSpawner cfg widths draws fuel
                (spawnDelay cfg (s.coinsCreated + 1))
                { coinsCreated := s.coinsCreated + 1
                  coins := createCoin cfg (widths s.coinsCreated) (draws s.coinsCreated)
                    s.coins }).calls } := by
        rw [runSpawner, hstep]
      obtain ⟨h1, h2, h3, h4, h5⟩ := ih
        (spawnDelay cfg (s.coinsCreated + 1))
        { coinsCreated := s.coinsCreated + 1
          coins := createCoin cfg (widths s.coinsCreated) (draws s.coinsCreated) s.coins }
        (by show s.coinsCreated + 1 ≤ N; omega)
        (by show N - (s.coinsCreated + 1) < fuel; omega)
      rw [hrun]
      refine ⟨h1, h2, ?_, ?_, ?_⟩
      · show (runSpawner cfg widths draws fuel _ _).state.coins.length = _
        rw [h3]
        show (createCoin cfg _ _ s.coins).length + (N - (s.coinsCreated + 1)) = _
        rw [createCoin_length]; omega
      · show (List.filter (fun c => c.created)
            ({ waited := waited, created := true }
              :: (runSpawner cfg widths draws fuel _ _).calls)).length = _
        rw [List.filter_cons_of_pos (by rfl), List.length_cons, h4]
        show N - (s.coinsCreated + 1) + 1 = _
        omega
      · show { waited := waited, created := true }
            :: (runSpawner cfg widths draws fuel _ _).calls = _
        rw [h5]
        have hsplit : N - s.coinsCreated = (N - (s.coinsCreated + 1)) + 1 := by omega
        rw [hsplit, List.range'_succ, List.map_cons]
        simp [hlt]
    · have hq : ¬ (s.coinsCreated : ℚ) < cfg.coinCount := by
        rw [hN]; exact_mod_cast hlt
      have hstep := createCoinsWithDelay_of_not_lt cfg (widths s.coinsCreated)
        (draws s.coinsCreated) s hq
      have hrun : runSpawner cfg widths draws (fuel + 1) waited s
          = { state := s, pending := none, calls := [{ waited := waited, created := false }] } := by
        rw [runSpawner, hstep]
      have hk : s.coinsCreated = N := by omega
      rw [hrun]
      refine ⟨rfl, hk, ?_, ?_, ?_⟩
      · show s.coins.length = _
        omega
      · rw [hk]; simp
      · rw [hk]; simp

/-- Whatever the fuel, the chain never pushes the counter or the array beyond `N`. -/
theorem runSpawner_bounded (N : ℕ) (hN : cfg.coinCount = N) :
    ∀ (fuel : ℕ) (waited : ℚ) (s : Spawner), s.coinsCreated ≤ N →
      (runSpawner cfg widths draws fuel waited s).state.coins.length
        ≤ s.coins.length + (N - s.coinsCreated) := by
  intro fuel
  induction fuel with
  | zero => intro waited s _; show s.coins.length ≤ _; omega
  | succ fuel ih =>
    intro waited s hle
    by_cases hlt : s.coinsCreated < N
    · have hq : (s.coinsCreated : ℚ) < cfg.coinCount := by
        rw [hN]; exact_mod_cast hlt
      have hstep := createCoinsWithDelay_of_lt cfg (widths s.coinsCreated)
        (draws s.coinsCreated) s hq
      have h3 := ih
        (spawnDelay cfg (s.coinsCreated + 1))
        { coinsCreated := s.coinsCreated + 1
          coins := createCoin cfg (widths s.coinsCreated) (draws s.coinsCreated) s.coins }
        (by show s.coinsCreated + 1 ≤ N; omega)
      rw [runSpawner, hstep]
      show (runSpawner cfg widths draws fuel _ _).state.coins.length ≤ _
      refine le_trans h3 ?_
      show (createCoin cfg _ _ s.coins).length + (N - (s.coinsCreated + 1)) ≤ _
      rw [createCoin_length]; omega
    · have hq : ¬ (s.coinsCreated : ℚ) < cfg.coinCount := by
        rw [hN]; exact_mod_cast hlt
      rw [runSpawner, createCoinsWithDelay_of_not_lt cfg _ _ s hq]
      show s.coins.length ≤ _
      omega

end SpawnerChain

/-! ## Spawn timing -/

/-- C8 (the code at the configured values): with `coinCount = 20`, `spawnInterval = 200` and
`maxSpawnDelay = 3000` the chain makes 21 invocations; the first coin is created by the
direct call, after no delay, `207` ms is the delay before the second coin, the delay waited
before the 20th and last coin is `2727` ms, and the delay of `3000` ms (progress `1`) is set
after the 20th coin and leads to an invocation that creates nothing and sets no timer. -/
theorem configured_spawn_trace :
    (startSpawner config (fun _ => 1000) (fun _ => midCoinDraws) 30).pending = none
      ∧ (startSpawner config (fun _ => 1000) (fun _ => midCoinDraws) 30).calls.map
          (fun c => c.waited) = configuredDelays
      ∧ (startSpawner config (fun _ => 1000) (fun _ => midCoinDraws) 30).calls.map
          (fun c => c.created) = List.replicate 20 true ++ [false]
      ∧ (creationDelays (startSpawner config (fun _ => 1000) (fun _ => midCoinDraws) 30)).length
          = 20
      ∧ (creationDelays (startSpawner config (fun _ => 1000) (fun _ => midCoinDraws) 30)).get?
          0 = some 0
      ∧ (creationDelays (startSpawner config (fun _ => 1000) (fun _ => midCoinDraws) 30)).get?
          1 = some 207
      ∧ (creationDelays (startSpawner config (fun _ => 1000) (fun _ => midCoinDraws) 30)).get?
          19 = some 2727
      ∧ spawnDelay config 1 = 207
      ∧ spawnDelay config 20 = 3000 := by
  decide!

/-! ## The spawner creates exactly `coinCount` coins -/

/-- C9: when `coinCount` is a non-negative integer `N`, the chain of `createCoinsWithDelay`
callbacks started on the empty array terminates (with `N` timer callbacks after the direct
call no timer is pending any more), it has then called `createCoin` exactly `N` times and the
array holds exactly `N` coins; and however far the chain is run, the array never holds more
than `N` coins. -/
theorem startSpawner_creates_coinCount (cfg : Config) (widths : ℕ → ℚ)
    (draws : ℕ → CoinDraws) (N : ℕ) (hN : cfg.coinCount = N) :
    (∀ fuel, N ≤ fuel →
        (startSpawner cfg widths draws fuel).pending = none
          ∧ ((startSpawner cfg widths draws fuel).calls.filter (fun c => c.created)).length = N
          ∧ (startSpawner cfg widths draws fuel).state.coinsCreated = N
          ∧ (startSpawner cfg widths draws fuel).state.coins.length = N)
      ∧ (∀ fuel, (startSpawner cfg widths draws fuel).state.coins.length ≤ N) := by
  constructor
  · intro fuel hfuel
    have t := runSpawner_complete cfg widths draws N hN (fuel + 1) 0
      { coinsCreated := 0, coins := [] } (by show 0 ≤ N; omega) (by show N - 0 < fuel + 1; omega)
    obtain ⟨h1, h2, h3, h4, -⟩ := t
    refine ⟨h1, ?_, h2, ?_⟩
    · simpa [startSpawner] using h4
    · simpa [startSpawner] using h3
  · intro fuel
    have t := runSpawner_bounded cfg widths draws N hN (fuel + 1) 0
      { coinsCreated := 0, coins := [] } (by show 0 ≤ N; omega)
    simpa [startSpawner] using t

/-- Witness for C9 with the configured `coinCount = 20`: after `20` timer callbacks the chain
is over and the array holds `20` coins. -/
theorem startSpawner_creates_coinCount_witness :
    config.coinCount = ((20 : ℕ) : ℚ)
      ∧ (startSpawner config (fun _ => 1000) (fun _ => midCoinDraws) 20).pending = none
      ∧ (startSpawner config (fun _ => 1000) (fun _ => midCoinDraws) 20).state.coins.length
          = 20 :=
  have h : config.coinCount = ((20 : ℕ) : ℚ) := by norm_num [config]
  have t := startSpawner_creates_coinCount config (fun _ => 1000) (fun _ => midCoinDraws) 20 h
  ⟨h, (t.1 20 (le_refl 20)).1, (t.1 20 (le_refl 20)).2.2.2⟩

/-! ## Rescheduling of the frame loop -/

section Loop

variable (cfg : Config) (W H : ℚ)

theorem updateCoin_removed_false (d : FrameDraws) (c : Coin)
    (h : (updateCoin cfg W H d c).removed = false) : c.removed = false := by
  by_contra hc
  have hr : c.removed = true := by simpa using hc
  rw [updateCoin_of_removed cfg W H d c hr] at h
  rw [h] at hr; exact Bool.noConfusion hr

/-- The flag `allRemoved` after the loop: it is still `true` exactly when it was `true`
on entry and every coin was already removed when the loop visited it. -/
theorem forEachCoin_flag :
    ∀ (coins : List Coin) (draws : ℕ → FrameDraws) (b : Bool),
      (forEachCoin cfg W H draws coins b).2 = (b && coins.all (fun c => c.removed)) := by
  intro coins
  induction coins with
  | nil => intro draws b; simp [forEachCoin]
  | cons c cs ih =>
    intro draws b
    rw [forEachCoin]
    show (forEachCoin cfg W H _ cs _).2 = _
    rw [ih]
    cases hc : c.removed <;> simp [hc]

/-- A coin that is live after the loop was live before it. -/
theorem forEachCoin_live :
    ∀ (coins : List Coin) (draws : ℕ → FrameDraws) (b : Bool),
      (∃ c ∈ (forEachCoin cfg W H draws coins b).1, c.removed = false) →
        ∃ c ∈ coins, c.removed = false := by
  intro coins
  induction coins with
  | nil => intro draws b h; simp [forEachCoin] at h
  | cons c cs ih =>
    intro draws b h
    rw [forEachCoin] at h
    obtain ⟨x, hx, hr⟩ := h
    rcases List.mem_cons.mp hx with hx1 | hx2
    · exact ⟨c, List.mem_cons_self _ _, updateCoin_removed_false cfg W H _ c (hx1 ▸ hr)⟩
    · obtain ⟨y, hy, hyr⟩ := ih _ _ ⟨x, hx2, hr⟩
      exact ⟨y, List.mem_cons_of_mem _ hy, hyr⟩

/-- A loop over coins that are all removed changes nothing. -/
theorem forEachCoin_all_removed :
    ∀ (coins : List Coin) (draws : ℕ → FrameDraws) (b : Bool),
      (∀ c ∈ coins, c.removed = true) → (forEachCoin cfg W H draws coins b).1 = coins := by
  intro coins
  induction coins with
  | nil => intro draws b _; rfl
  | cons c cs ih =>
    intro draws b h
    rw [forEachCoin]
    show updateCoin cfg W H (draws 0) c :: (forEachCoin cfg W H _ cs _).1 = c :: cs
    rw [ih _ _ (fun x hx => h x (List.mem_cons_of_mem _ hx)),
      updateCoin_of_removed cfg W H _ c (h c (List.mem_cons_self _ _))]

end Loop

/-- C10 (as stated, refuted): a pass over the single coin `fadingCoin` removes it, so every
coin of the array is removed at the end of the pass, and yet `updateCoins` schedules another
frame: `allRemoved` records the flags seen when the loop visited the coins, not the flags
at the end of the pass. -/
theorem fadingCoin_pass_reschedules :
    fadingCoin.removed = false
      ∧ ((updateCoins config 1000 800 (fun _ => midDraws) [fadingCoin]).1.all
          (fun c => c.removed)) = true
      ∧ (updateCoins config 1000 800 (fun _ => midDraws) [fadingCoin]).2 = true := by
  decide!

/-- C10 (amended): `updateCoins` schedules another frame exactly when some coin of the array
was not yet removed before the pass.  Hence it schedules one whenever some coin is still
not removed at the end of the pass, and when every coin was already removed before the pass
it schedules none and leaves the array unchanged (a pass that removes the last live coins
is followed by one more, idle, pass). -/
theorem updateCoins_schedules_iff (cfg : Config) (W H : ℚ) (draws : ℕ → FrameDraws)
    (coins : List Coin) :
    ((updateCoins cfg W H draws coins).2 = true ↔ ∃ c ∈ coins, c.removed = false)
      ∧ ((∃ c ∈ (updateCoins cfg W H draws coins).1, c.removed = false) →
          (updateCoins cfg W H draws coins).2 = true)
      ∧ ((∀ c ∈ coins, c.removed = true) →
          updateCoins cfg W H draws coins = (coins, false)) := by
  have hflag : (updateCoins cfg W H draws coins).2 = !(coins.all (fun c => c.removed)) := by
    show (!(forEachCoin cfg W H draws coins true).2) = _
    rw [forEachCoin_flag]; simp
  have hiff : (updateCoins cfg W H draws coins).2 = true ↔ ∃ c ∈ coins, c.removed = false := by
    rw [hflag]
    simp
  refine ⟨hiff, ?_, ?_⟩
  · intro h
    exact hiff.mpr (forEachCoin_live cfg W H coins draws true h)
  · intro h
    have h1 : (updateCoins cfg W H draws coins).1 = coins :=
      forEachCoin_all_removed cfg W H coins draws true h
    have h2 : (updateCoins cfg W H draws coins).2 = false := by
      rw [hflag]
      simp only [Bool.not_eq_false_eq_eq_true, List.all_eq_true]
      exact h
    exact Prod.ext h1 h2

/-! ## Opacity of live coins -/

section Opacity

variable (cfg : Config) (W H r : ℚ) (d : FrameDraws) (c : Coin)

theorem handleBottom_cases :
    handleBottom cfg H r c = c ∨ handleBottom cfg H r c = bottomBounce cfg H r c
      ∨ handleBottom cfg H r c = fadeOut c := by
  unfold handleBottom
  split_ifs
  · exact Or.inr (Or.inl rfl)
  · exact Or.inr (Or.inr rfl)
  · exact Or.inl rfl

theorem handleFadeIn_tracks (hd : 0 < c.fadeInDistance) (h : opacityTracksProgress c) :
    opacityTracksProgress (handleFadeIn c) := by
  unfold handleFadeIn
  split_ifs with hlt
  · refine ⟨min_le_left _ _, ?_⟩
    intro hneg
    have hneg2 : min 1 ((c.fadeInProgress + c.vy) / c.fadeInDistance) < 0 := hneg
    have hq : (c.fadeInProgress + c.vy) / c.fadeInDistance < 0 := by
      rcases min_lt_iff.mp hneg2 with h1 | h1
      · linarith
      · exact h1
    have hp : c.fadeInProgress + c.vy < 0 := by
      by_contra hge
      have : 0 ≤ (c.fadeInProgress + c.vy) / c.fadeInDistance :=
        div_nonneg (not_lt.mp hge) hd.le
      linarith
    refine ⟨hp, ?_⟩
    show min 1 ((c.fadeInProgress + c.vy) / c.fadeInDistance) = _
    exact min_eq_right (by linarith)
  · refine ⟨h.1, fun hneg => ?_⟩
    have := (h.2 hneg).1
    linarith [not_lt.mp hlt]

theorem updateCoin_tracks (hd : 0 < c.fadeInDistance)
    (h : c.removed = false → opacityTracksProgress c) :
    (updateCoin cfg W H d c).removed = false →
      opacityTracksProgress (updateCoin cfg W H d c) := by
  intro hr
  have hlive : c.removed = false := updateCoin_removed_false cfg W H d c hr
  have hb : opacityTracksProgress (beforeBottom cfg W d c) := by
    have := handleFadeIn_tracks (moveCoin cfg c) hd (h hlive)
    unfold opacityTracksProgress at this ⊢
    simpa using this
  rw [updateCoin_of_live cfg W H d c hlive] at hr ⊢
  rcases handleBottom_cases cfg H d.boost (beforeBottom cfg W d c) with e | e | e
  · rw [e]; exact hb
  · rw [e]; exact hb
  · rw [e] at hr ⊢
    have hpos : 0 < (beforeBottom cfg W d c).opacity - 3 / 100 := by
      by_contra hle
      have := fadeOut_removed_of_le (beforeBottom cfg W d c) (not_lt.mp hle)
      rw [writeTransform_removed, this] at hr
      exact Bool.noConfusion hr
    refine ⟨?_, fun hneg => ?_⟩
    · show (fadeOut (beforeBottom cfg W d c)).opacity ≤ 1
      rw [fadeOut_opacity]; linarith [hb.1]
    · have hneg2 : (fadeOut (beforeBottom cfg W d c)).opacity < 0 := hneg
      rw [fadeOut_opacity] at hneg2
      linarith

theorem updateCoin_fadeInDistance : (updateCoin cfg W H d c).fadeInDistance = c.fadeInDistance := by
  unfold updateCoin
  split_ifs
  · rfl
  · simp

theorem runFrames_fadeInDistance (draws : ℕ → FrameDraws) (n : ℕ) :
    (runFrames cfg W H draws n c).fadeInDistance = c.fadeInDistance := by
  induction n with
  | zero => rfl
  | succ n ih => rw [runFrames, updateCoin_fadeInDistance, ih]

theorem runFrames_tracks (draws : ℕ → FrameDraws) (hd : 0 < c.fadeInDistance)
    (h : c.removed = false → opacityTracksProgress c) (n : ℕ) :
    (runFrames cfg W H draws n c).removed = false →
      opacityTracksProgress (runFrames cfg W H draws n c) := by
  induction n with
  | zero => exact h
  | succ n ih =>
    rw [runFrames]
    exact updateCoin_tracks cfg W H _ _ (by rw [runFrames_fadeInDistance]; exact hd) ih

end Opacity

/-- C6 (as stated, refuted): the coin created by `createCoin` with the configured values and
all draws at `1 / 2`, in a viewport of width `1000` and height `20`, bounces off the bottom
while still fading in and rises above its starting height; after `24` frames it is not
removed and its opacity is negative, without any fade-out decrement (the fade-in branch
wrote `fadeInProgress / fadeInDistance` with a negative accumulator). -/
theorem created_coin_negative_opacity :
    createCoin config 1000 midCoinDraws [] = [newCoin config 1000 midCoinDraws]
      ∧ (runFrames config 1000 20 (fun _ => midDraws) 24
          (newCoin config 1000 midCoinDraws)).removed = false
      ∧ (runFrames config 1000 20 (fun _ => midDraws) 24
          (newCoin config 1000 midCoinDraws)).opacity < 0
      ∧ (runFrames config 1000 20 (fun _ => midDraws) 24
          (newCoin config 1000 midCoinDraws)).fadeInProgress < 0 := by
  decide!

/-- C6 (amended): in every state reached from a coin created by `createCoin` (with a
fade-in draw `≥ 0`) through any number of frames, a coin that is not removed has
`opacity ≤ 1`, and `0 ≤ opacity` whenever its accumulated travel `fadeInProgress` is `≥ 0`
(a negative opacity is the quotient `fadeInProgress / fadeInDistance` written by the fade-in
branch); and a fade-out decrement that leaves `opacity ≤ 0` sets `removed` in the same
frame. -/
theorem created_coin_opacity_bounds (cfg : Config) (W H : ℚ) (dc : CoinDraws)
    (draws : ℕ → FrameDraws) (hd : 0 ≤ dc.fadeInDistance) (c : Coin)
    (hc : c ∈ createCoin cfg W dc []) (n : ℕ)
    (hlive : (runFrames cfg W H draws n c).removed = false) :
    (runFrames cfg W H draws n c).opacity ≤ 1
      ∧ (0 ≤ (runFrames cfg W H draws n c).fadeInProgress →
          0 ≤ (runFrames cfg W H draws n c).opacity)
      ∧ ((runFrames cfg W H draws n c).opacity < 0 →
          (runFrames cfg W H draws n c).opacity
            = (runFrames cfg W H draws n c).fadeInProgress
              / (runFrames cfg W H draws n c).fadeInDistance)
      ∧ (∀ b : Coin, (fadeOut b).opacity ≤ 0 → (fadeOut b).removed = true) := by
  have hc2 : c = newCoin cfg W dc := by simpa [createCoin] using hc
  have hdist : 0 < c.fadeInDistance := by
    rw [hc2]
    exact lt_of_lt_of_le (by norm_num) (newCoin_fadeInDistance_ge cfg W dc hd)
  have h0 : c.removed = false → opacityTracksProgress c := by
    intro _
    rw [hc2]
    refine ⟨?_, fun hneg => ?_⟩
    · show (0 : ℚ) ≤ 1
      norm_num
    · exact absurd hneg (lt_irrefl (0 : ℚ))
  have t := runFrames_tracks cfg W H c draws hdist h0 n hlive
  refine ⟨t.1, ?_, fun hneg => (t.2 hneg).2, ?_⟩
  · intro hp
    by_contra hneg
    have := (t.2 (not_le.mp hneg)).1
    linarith
  · intro b hb
    rw [fadeOut_opacity] at hb
    exact fadeOut_removed_of_le b hb

/-- Witness for the amended C6: the coin of the counterexample after `10` frames (its first
bottom bounce) is live with opacity in `[0, 1]`. -/
theorem created_coin_opacity_bounds_witness :
    0 ≤ midCoinDraws.fadeInDistance
      ∧ newCoin config 1000 midCoinDraws ∈ createCoin config 1000 midCoinDraws []
      ∧ (runFrames config 1000 20 (fun _ => midDraws) 10
          (newCoin config 1000 midCoinDraws)).removed = false
      ∧ (runFrames config 1000 20 (fun _ => midDraws) 10
          (newCoin config 1000 midCoinDraws)).opacity ≤ 1 := by
  have h1 : 0 ≤ midCoinDraws.fadeInDistance := by decide!
  have h2 : newCoin config 1000 midCoinDraws ∈ createCoin config 1000 midCoinDraws [] := by
    simp [createCoin]
  have h3 : (runFrames config 1000 20 (fun _ => midDraws) 10
      (newCoin config 1000 midCoinDraws)).removed = false := by decide!
  exact ⟨h1, h2, h3, (created_coin_opacity_bounds config 1000 20 midCoinDraws
    (fun _ => midDraws) h1 _ h2 10 h3).1⟩

/-! ## One frame without a bottom bounce -/

section Frame

variable (cfg : Config) (W H r : ℚ) (d : FrameDraws) (c : Coin)

theorem handleBottom_y_of_not_bounce
    (h : ¬ (c.y > bottomEdge H c ∧ canBounceBottom cfg c)) :
    (handleBottom cfg H r c).y = c.y := by
  unfold handleBottom
  split_ifs with h1 h2
  · exact absurd ⟨h1, h2⟩ h
  · simp
  · rfl

theorem handleBottom_vy_of_not_bounce
    (h : ¬ (c.y > bottomEdge H c ∧ canBounceBottom cfg c)) :
    (handleBottom cfg H r c).vy = c.vy := by
  unfold handleBottom
  split_ifs with h1 h2
  · exact absurd ⟨h1, h2⟩ h
  · simp
  · rfl

theorem updateCoin_size : (updateCoin cfg W H d c).size = c.size := by
  unfold updateCoin
  split_ifs
  · rfl
  · simp

theorem updateCoin_maxBounces : (updateCoin cfg W H d c).maxBounces = c.maxBounces := by
  unfold updateCoin
  split_ifs
  · rfl
  · simp

theorem handleBottom_bounceCount_ge : c.bounceCount ≤ (handleBottom cfg H r c).bounceCount := by
  rcases handleBottom_cases cfg H r c with e | e | e <;> rw [e]
  · show c.bounceCount ≤ c.bounceCount + 1
    omega
  · simp

theorem updateCoin_bounceCount_ge : c.bounceCount ≤ (updateCoin cfg W H d c).bounceCount := by
  unfold updateCoin
  split_ifs
  · exact le_refl _
  · rw [writeTransform_bounceCount]
    exact le_trans (beforeBottom_bounceCount_ge cfg W d c)
      (handleBottom_bounceCount_ge cfg H d.boost _)

theorem updateCoin_bounceCount_of_bounce (hl : c.removed = false)
    (h : bottomBounces cfg W H d c) :
    c.bounceCount + 1 ≤ (updateCoin cfg W H d c).bounceCount := by
  rw [updateCoin_of_live cfg W H d c hl, writeTransform_bounceCount,
    handleBottom_of_bounce cfg H d.boost _ h.1 h.2]
  show c.bounceCount + 1 ≤ (beforeBottom cfg W d c).bounceCount + 1
  have := beforeBottom_bounceCount_ge cfg W d c
  omega

theorem updateCoin_y_of_not_bounce (hl : c.removed = false)
    (h : ¬ bottomBounces cfg W H d c) :
    (updateCoin cfg W H d c).y = c.y + (c.vy + cfg.gravity) * cfg.friction := by
  rw [updateCoin_of_live cfg W H d c hl, writeTransform_y,
    handleBottom_y_of_not_bounce cfg H d.boost _ h, beforeBottom_y]

theorem handleSides_vx_abs_le (hf : 0 ≤ cfg.friction) (hb : |cfg.bounceReduction| ≤ 1) :
    |(beforeBottom cfg W d c).vx| ≤ cfg.friction * |c.vx| := by
  have hside : ∀ e : ℚ,
      |(sideBounce cfg e d.sign (beforeSides cfg c)).vx| ≤ cfg.friction * |c.vx| := by
    intro e
    show |-(beforeSides cfg c).vx * cfg.bounceReduction| ≤ _
    rw [beforeSides_vx, abs_mul, abs_neg, abs_mul, abs_of_nonneg hf]
    have h0 : 0 ≤ |c.vx| * cfg.friction := mul_nonneg (abs_nonneg _) hf
    nlinarith
  unfold beforeBottom handleSides
  split_ifs
  · exact hside 0
  · exact hside _
  · rw [beforeSides_vx, abs_mul, abs_of_nonneg hf, mul_comm]

theorem beforeBottom_vy_ge :
    (c.vy + cfg.gravity) * cfg.friction - 3 / 10 * |(beforeBottom cfg W d c).vx|
      ≤ (beforeBottom cfg W d c).vy := by
  have hside : ∀ e : ℚ,
      (c.vy + cfg.gravity) * cfg.friction
          - 3 / 10 * |(sideBounce cfg e d.sign (beforeSides cfg c)).vx|
        ≤ (sideBounce cfg e d.sign (beforeSides cfg c)).vy := by
    intro e
    show _ ≤ (beforeSides cfg c).vy - |-(beforeSides cfg c).vx * cfg.bounceReduction| * (3 / 10)
    rw [beforeSides_vy]
    show (c.vy + cfg.gravity) * cfg.friction
        - 3 / 10 * |-(beforeSides cfg c).vx * cfg.bounceReduction| ≤ _
    linarith
  unfold beforeBottom handleSides
  split_ifs
  · exact hside 0
  · exact hside _
  · rw [beforeSides_vy]
    have := abs_nonneg (beforeSides cfg c).vx
    linarith

theorem updateCoin_vx_abs_le (hl : c.removed = false) (h : ¬ bottomBounces cfg W H d c)
    (hf : 0 ≤ cfg.friction) (hb : |cfg.bounceReduction| ≤ 1) :
    |(updateCoin cfg W H d c).vx| ≤ cfg.friction * |c.vx| := by
  rw [updateCoin_of_live cfg W H d c hl, writeTransform_vx,
    handleBottom_vx_of_not_bounce cfg H d.boost _ h]
  exact handleSides_vx_abs_le cfg W d c hf hb

theorem updateCoin_vy_ge (hl : c.removed = false) (h : ¬ bottomBounces cfg W H d c) :
    (c.vy + cfg.gravity) * cfg.friction - 3 / 10 * |(updateCoin cfg W H d c).vx|
      ≤ (updateCoin cfg W H d c).vy := by
  rw [updateCoin_of_live cfg W H d c hl, writeTransform_vy, writeTransform_vx,
    handleBottom_vy_of_not_bounce cfg H d.boost _ h,
    handleBottom_vx_of_not_bounce cfg H d.boost _ h]
  exact beforeBottom_vy_ge cfg W d c

theorem updateCoin_fadeInProgress (hl : c.removed = false) :
    (updateCoin cfg W H d c).fadeInProgress
      = if c.fadeInProgress < c.fadeInDistance
        then c.fadeInProgress + (c.vy + cfg.gravity) * cfg.friction
        else c.fadeInProgress := by
  rw [updateCoin_of_live cfg W H d c hl, writeTransform_fadeInProgress,
    handleBottom_fadeInProgress, beforeBottom_fadeInProgress]
  have e : (moveCoin cfg c).fadeInProgress < (moveCoin cfg c).fadeInDistance
      ↔ c.fadeInProgress < c.fadeInDistance := Iff.rfl
  unfold handleFadeIn
  by_cases hlt : c.fadeInProgress < c.fadeInDistance
  · rw [if_pos (e.mpr hlt), if_pos hlt]; rfl
  · rw [if_neg (fun x => hlt (e.mp x)), if_neg hlt]; rfl

/-- A frame that finds the coin below the bottom threshold, does not bounce it and is past
the fade-in lowers the opacity by `0.03`; the coin stays live only if the result is
positive. -/
theorem updateCoin_fades (hl : c.removed = false) (h : ¬ bottomBounces cfg W H d c)
    (hy : H - c.size * (1 / 5) < c.y + (c.vy + cfg.gravity) * cfg.friction)
    (hp : c.fadeInDistance ≤ c.fadeInProgress) :
    (updateCoin cfg W H d c).opacity = c.opacity - 3 / 100
      ∧ ((updateCoin cfg W H d c).removed = false → 0 < c.opacity - 3 / 100) := by
  have hgt : (beforeBottom cfg W d c).y > bottomEdge H (beforeBottom cfg W d c) := by
    rw [bottomEdge_beforeBottom, beforeBottom_y]
    simpa [bottomEdge] using hy
  have hnb : ¬ canBounceBottom cfg (beforeBottom cfg W d c) := fun hc => h ⟨hgt, hc⟩
  have hfade := handleBottom_of_fade cfg H d.boost _ hgt hnb
  have hop : (beforeBottom cfg W d c).opacity = c.opacity := by
    rw [beforeBottom_opacity]
    have hn : ¬ (moveCoin cfg c).fadeInProgress < (moveCoin cfg c).fadeInDistance :=
      not_lt.mpr hp
    unfold handleFadeIn
    rw [if_neg hn]; rfl
  rw [updateCoin_of_live cfg W H d c hl, hfade]
  refine ⟨by rw [writeTransform_opacity, fadeOut_opacity, hop], ?_⟩
  intro hr
  by_contra hle
  have hrem := fadeOut_removed_of_le (beforeBottom cfg W d c)
    (by rw [hop]; exact not_lt.mp hle)
  rw [writeTransform_removed, hrem] at hr
  exact Bool.noConfusion hr

end Frame

/-! ## Sequences: geometric decay and linear growth -/

section Sequences

theorem geometric_bound (f : ℚ) (hf0 : 0 ≤ f) (a : ℕ → ℚ)
    (h : ∀ n, a (n + 1) ≤ f * a n) (n : ℕ) : a n ≤ f ^ n * a 0 := by
  induction n with
  | zero => simp
  | succ n ih =>
    calc a (n + 1) ≤ f * a n := h n
      _ ≤ f * (f ^ n * a 0) := mul_le_mul_of_nonneg_left ih hf0
      _ = f ^ (n + 1) * a 0 := by ring

/-- A non-negative sequence contracted by a factor `f < 1` at every step is eventually
below any positive bound. -/
theorem eventually_small (f : ℚ) (hf0 : 0 ≤ f) (hf1 : f < 1) (a : ℕ → ℚ)
    (ha : ∀ n, 0 ≤ a n) (h : ∀ n, a (n + 1) ≤ f * a n) (ε : ℚ) (hε : 0 < ε) :
    ∃ N, ∀ n, N ≤ n → a n ≤ ε := by
  rcases (ha 0).eq_or_lt with h0 | h0
  · refine ⟨0, fun n _ => ?_⟩
    have := geometric_bound f hf0 a h n
    rw [← h0, mul_zero] at this
    linarith
  · obtain ⟨N, hN⟩ := exists_pow_lt_of_lt_one (div_pos hε h0) hf1
    refine ⟨N, fun n hn => ?_⟩
    have h1 := geometric_bound f hf0 a h n
    have h2 : f ^ n ≤ f ^ N := pow_le_pow_of_le_one hf0 hf1.le hn
    have h3 : f ^ N * a 0 < ε := (lt_div_iff₀ h0).mp hN
    have h4 : f ^ n * a 0 ≤ f ^ N * a 0 := mul_le_mul_of_nonneg_right h2 h0.le
    linarith

theorem linear_bound (η : ℚ) (y : ℕ → ℚ) (N : ℕ)
    (h : ∀ n, N ≤ n → y n + η ≤ y (n + 1)) (k : ℕ) : y N + k * η ≤ y (N + k) := by
  induction k with
  | zero => simp
  | succ k ih =>
    have := h (N + k) (Nat.le_add_right N k)
    have e : y (N + (k + 1)) = y (N + k + 1) := rfl
    rw [e]
    push_cast
    linarith

/-- A sequence that gains at least `η > 0` at every step from `N` on eventually stays above
any bound. -/
theorem eventually_large (η : ℚ) (hη : 0 < η) (y : ℕ → ℚ) (N : ℕ)
    (h : ∀ n, N ≤ n → y n + η ≤ y (n + 1)) (B : ℚ) :
    ∃ M, N ≤ M ∧ ∀ n, M ≤ n → B < y n := by
  obtain ⟨K, hK⟩ := exists_nat_gt ((B - y N) / η)
  refine ⟨N + K, Nat.le_add_right N K, fun n hn => ?_⟩
  obtain ⟨k, rfl⟩ : ∃ k, n = N + k := ⟨n - N, by omega⟩
  have hk : K ≤ k := by omega
  have h1 := linear_bound η y N h k
  have h2 : (B - y N) < K * η := (div_lt_iff₀ hη).mp hK
  have h3 : (K : ℚ) * η ≤ k * η :=
    mul_le_mul_of_nonneg_right (by exact_mod_cast hk) hη.le
  linarith

/-- Vertical velocity under gravity `g > 0`, friction `0 < f < 1` and upward kicks bounded by
a geometrically decaying sequence: eventually `v n ≥ g f / (4 (1 - f))`. -/
theorem eventually_falling (g f : ℚ) (hg : 0 < g) (hf0 : 0 < f) (hf1 : f < 1)
    (a v : ℕ → ℚ) (ha : ∀ n, 0 ≤ a n) (hdecay : ∀ n, a (n + 1) ≤ f * a n)
    (hv : ∀ n, (v n + g) * f - 3 / 10 * a (n + 1) ≤ v (n + 1)) :
    ∃ N, ∀ n, N ≤ n → g * f / (4 * (1 - f)) ≤ v n := by
  have h1f : 0 < 1 - f := by linarith
  have hgf : 0 < g * f := mul_pos hg hf0
  obtain ⟨N1, hN1⟩ := eventually_small f hf0.le hf1 a ha hdecay (5 * (g * f) / 3) (by positivity)
  -- from `N1` on the deficit `g f / (2 (1 - f)) - v` contracts by `f`
  have hstar : g * f / (2 * (1 - f)) * (1 - f) = g * f / 2 := by
    field_simp
    ring
  have hcontract : ∀ k, max (g * f / (2 * (1 - f)) - v (N1 + (k + 1))) 0
      ≤ f * max (g * f / (2 * (1 - f)) - v (N1 + k)) 0 := by
    intro k
    have hk := hv (N1 + k)
    have hak := hN1 (N1 + k + 1) (by omega)
    have hm : g * f / (2 * (1 - f)) - v (N1 + k)
        ≤ max (g * f / (2 * (1 - f)) - v (N1 + k)) 0 := le_max_left _ _
    have hm0 : 0 ≤ max (g * f / (2 * (1 - f)) - v (N1 + k)) 0 := le_max_right _ _
    have e : v (N1 + (k + 1)) = v (N1 + k + 1) := rfl
    rw [e]
    apply max_le
    · have hfm := mul_le_mul_of_nonneg_left hm hf0.le
      nlinarith
    · exact mul_nonneg hf0.le hm0
  obtain ⟨K, hK⟩ := eventually_small f hf0.le hf1
    (fun k => max (g * f / (2 * (1 - f)) - v (N1 + k)) 0) (fun k => le_max_right _ _)
    hcontract (g * f / (4 * (1 - f))) (by positivity)
  refine ⟨N1 + K, fun n hn => ?_⟩
  obtain ⟨k, rfl⟩ : ∃ k, n = N1 + k := ⟨n - N1, by omega⟩
  have h2 := hK k (by omega)
  have h3 : g * f / (2 * (1 - f)) - v (N1 + k)
      ≤ max (g * f / (2 * (1 - f)) - v (N1 + k)) 0 := le_max_left _ _
  have h4 : g * f / (2 * (1 - f)) = 2 * (g * f / (4 * (1 - f))) := by
    field_simp
    ring
  have h5 : g * f / (2 * (1 - f)) - v (N1 + k) ≤ g * f / (4 * (1 - f)) := le_trans h3 h2
  linarith

end Sequences

/-! ## Termination of the animation of one coin -/

section Termination

variable (cfg : Config) (W H : ℚ)

theorem runFrames_size (draws : ℕ → FrameDraws) (c : Coin) (n : ℕ) :
    (runFrames cfg W H draws n c).size = c.size := by
  induction n with
  | zero => rfl
  | succ n ih => rw [runFrames, updateCoin_size, ih]

theorem runFrames_maxBounces (draws : ℕ → FrameDraws) (c : Coin) (n : ℕ) :
    (runFrames cfg W H draws n c).maxBounces = c.maxBounces := by
  induction n with
  | zero => rfl
  | succ n ih => rw [runFrames, updateCoin_maxBounces, ih]

theorem runFrames_bounceCount_ge (draws : ℕ → FrameDraws) (c : Coin) (n : ℕ) :
    c.bounceCount ≤ (runFrames cfg W H draws n c).bounceCount := by
  induction n with
  | zero => exact le_refl _
  | succ n ih =>
    rw [runFrames]
    exact le_trans ih (updateCoin_bounceCount_ge cfg W H _ _)

/-- Running `n` frames and then `m` more is running `n + m` frames. -/
theorem runFrames_add (draws : ℕ → FrameDraws) (c : Coin) (n m : ℕ) :
    runFrames cfg W H (fun k => draws (n + k)) m (runFrames cfg W H draws n c)
      = runFrames cfg W H draws (n + m) c := by
  induction m with
  | zero => rfl
  | succ m ih =>
    exact congrArg (updateCoin cfg W H (draws (n + m))) ih

/-- A coin that no frame ever bounces off the bottom is removed after finitely many frames:
the side kicks die out, the coin ends up falling for good, passes the bottom threshold,
completes its fade-in and then fades out. -/
theorem runFrames_removed_of_no_bounce (draws : ℕ → FrameDraws) (c : Coin)
    (hg : 0 < cfg.gravity) (hf0 : 0 < cfg.friction) (hf1 : cfg.friction < 1)
    (hb : |cfg.bounceReduction| ≤ 1)
    (hnb : ∀ n, ¬ bottomBounces cfg W H (draws n) (runFrames cfg W H draws n c)) :
    ∃ n, (runFrames cfg W H draws n c).removed = true := by
  by_contra hne
  have hlive : ∀ n, (runFrames cfg W H draws n c).removed = false := by
    intro n
    by_contra h
    exact hne ⟨n, by simpa using h⟩
  have F1 : ∀ n, |(runFrames cfg W H draws (n + 1) c).vx|
      ≤ cfg.friction * |(runFrames cfg W H draws n c).vx| :=
    fun n => updateCoin_vx_abs_le cfg W H (draws n) _ (hlive n) (hnb n) hf0.le hb
  have F2 : ∀ n, ((runFrames cfg W H draws n c).vy + cfg.gravity) * cfg.friction
      - 3 / 10 * |(runFrames cfg W H draws (n + 1) c).vx|
        ≤ (runFrames cfg W H draws (n + 1) c).vy :=
    fun n => updateCoin_vy_ge cfg W H (draws n) _ (hlive n) (hnb n)
  have F3 : ∀ n, (runFrames cfg W H draws (n + 1) c).y
      = (runFrames cfg W H draws n c).y
        + ((runFrames cfg W H draws n c).vy + cfg.gravity) * cfg.friction :=
    fun n => updateCoin_y_of_not_bounce cfg W H (draws n) _ (hlive n) (hnb n)
  have F4 : ∀ n, (runFrames cfg W H draws (n + 1) c).fadeInProgress
      = if (runFrames cfg W H draws n c).fadeInProgress
            < (runFrames cfg W H draws n c).fadeInDistance
        then (runFrames cfg W H draws n c).fadeInProgress
          + ((runFrames cfg W H draws n c).vy + cfg.gravity) * cfg.friction
        else (runFrames cfg W H draws n c).fadeInProgress :=
    fun n => updateCoin_fadeInProgress cfg W H (draws n) _ (hlive n)
  have h1f : 0 < 1 - cfg.friction := by linarith
  have hδ : 0 < cfg.gravity * cfg.friction / (4 * (1 - cfg.friction)) :=
    div_pos (mul_pos hg hf0) (by linarith)
  have hη : 0 < (cfg.gravity * cfg.friction / (4 * (1 - cfg.friction)) + cfg.gravity)
      * cfg.friction := mul_pos (by linarith) hf0
  -- the coin ends up falling for good
  obtain ⟨N2, hN2⟩ := eventually_falling cfg.gravity cfg.friction hg hf0 hf1
    (fun n => |(runFrames cfg W H draws n c).vx|) (fun n => (runFrames cfg W H draws n c).vy)
    (fun n => abs_nonneg _) F1 F2
  have hstep : ∀ n, N2 ≤ n →
      (cfg.gravity * cfg.friction / (4 * (1 - cfg.friction)) + cfg.gravity) * cfg.friction
        ≤ ((runFrames cfg W H draws n c).vy + cfg.gravity) * cfg.friction := by
    intro n hn
    have h : cfg.gravity * cfg.friction / (4 * (1 - cfg.friction))
        ≤ (runFrames cfg W H draws n c).vy := hN2 n hn
    exact mul_le_mul_of_nonneg_right (by linarith) hf0.le
  -- it passes the bottom threshold and stays below it
  have hy : ∀ n, N2 ≤ n →
      (runFrames cfg W H draws n c).y
          + (cfg.gravity * cfg.friction / (4 * (1 - cfg.friction)) + cfg.gravity) * cfg.friction
        ≤ (runFrames cfg W H draws (n + 1) c).y := by
    intro n hn
    rw [F3 n]
    linarith [hstep n hn]
  obtain ⟨N3, hN3le, hN3⟩ := eventually_large _ hη
    (fun n => (runFrames cfg W H draws n c).y) N2 hy (H - c.size * (1 / 5))
  have hbelow : ∀ n, N3 ≤ n →
      H - (runFrames cfg W H draws n c).size * (1 / 5)
        < (runFrames cfg W H draws n c).y
          + ((runFrames cfg W H draws n c).vy + cfg.gravity) * cfg.friction := by
    intro n hn
    rw [runFrames_size]
    have h1 : H - c.size * (1 / 5) < (runFrames cfg W H draws n c).y := hN3 n hn
    have h2 := hstep n (le_trans hN3le hn)
    linarith
  -- the fade-in completes
  obtain ⟨N4, hN4le, hN4⟩ : ∃ N4, N3 ≤ N4
      ∧ c.fadeInDistance ≤ (runFrames cfg W H draws N4 c).fadeInProgress := by
    by_contra hno
    push_neg at hno
    have hgrow : ∀ n, N3 ≤ n →
        (runFrames cfg W H draws n c).fadeInProgress
            + (cfg.gravity * cfg.friction / (4 * (1 - cfg.friction)) + cfg.gravity)
              * cfg.friction
          ≤ (runFrames cfg W H draws (n + 1) c).fadeInProgress := by
      intro n hn
      rw [F4 n, if_pos (by rw [runFrames_fadeInDistance]; exact hno n hn)]
      linarith [hstep n (le_trans hN3le hn)]
    obtain ⟨M, hM, hMb⟩ := eventually_large _ hη
      (fun n => (runFrames cfg W H draws n c).fadeInProgress) N3 hgrow c.fadeInDistance
    have h1 : c.fadeInDistance < (runFrames cfg W H draws M c).fadeInProgress :=
      hMb M (le_refl M)
    have h2 := hno M hM
    linarith
  have hstay : ∀ k, (runFrames cfg W H draws (N4 + k) c).fadeInProgress
      = (runFrames cfg W H draws N4 c).fadeInProgress := by
    intro k
    induction k with
    | zero => rfl
    | succ k ih =>
      have e : N4 + (k + 1) = N4 + k + 1 := rfl
      rw [e, F4 (N4 + k), if_neg, ih]
      rw [ih, runFrames_fadeInDistance]
      exact not_lt.mpr hN4
  -- the fade-out runs the opacity down
  have hfade : ∀ k,
      (runFrames cfg W H draws (N4 + k) c).opacity
          = (runFrames cfg W H draws N4 c).opacity - k * (3 / 100)
        ∧ 0 < (runFrames cfg W H draws N4 c).opacity - (k + 1) * (3 / 100) := by
    have hone : ∀ k,
        (runFrames cfg W H draws (N4 + k + 1) c).opacity
            = (runFrames cfg W H draws (N4 + k) c).opacity - 3 / 100
          ∧ 0 < (runFrames cfg W H draws (N4 + k) c).opacity - 3 / 100 := by
      intro k
      have t := updateCoin_fades cfg W H (draws (N4 + k)) (runFrames cfg W H draws (N4 + k) c)
        (hlive (N4 + k)) (hnb (N4 + k)) (hbelow (N4 + k) (by omega))
        (by rw [runFrames_fadeInDistance, hstay k]; exact hN4)
      exact ⟨t.1, t.2 (hlive (N4 + k + 1))⟩
    intro k
    induction k with
    | zero =>
      refine ⟨by simp, ?_⟩
      have := (hone 0).2
      simpa using this
    | succ k ih =>
      have e : N4 + (k + 1) = N4 + k + 1 := rfl
      have h1 := (hone k).1
      have h2 := (hone (k + 1)).2
      rw [← e] at h1
      rw [h1, ih.1] at h2
      rw [h1, ih.1]
      push_cast
      constructor
      · ring
      · linarith
  obtain ⟨K, hK⟩ := exists_nat_gt ((runFrames cfg W H draws N4 c).opacity / (3 / 100))
  have h1 := (hfade K).2
  have h2 : (runFrames cfg W H draws N4 c).opacity < K * (3 / 100) :=
    (div_lt_iff₀ (by norm_num)).mp hK
  linarith

theorem runFrames_removed_mono (draws : ℕ → FrameDraws) (c : Coin) (n m : ℕ) (hnm : n ≤ m)
    (h : (runFrames cfg W H draws n c).removed = true) :
    (runFrames cfg W H draws m c).removed = true := by
  obtain ⟨k, rfl⟩ : ∃ k, m = n + k := ⟨m - n, by omega⟩
  rw [← runFrames_add, runFrames_of_removed cfg W H _ _ h]
  exact h

/-- Removal after finitely many frames, by induction on a bound `B` for the remaining bounce
budget `maxBounces - bounceCount`: either some frame bounces the coin off the bottom, which
uses up one unit of the budget, or none does and the coin falls through and fades out. -/
theorem runFrames_removed_of_budget
    (hg : 0 < cfg.gravity) (hf0 : 0 < cfg.friction) (hf1 : cfg.friction < 1)
    (hb : |cfg.bounceReduction| ≤ 1) :
    ∀ (B : ℕ) (draws : ℕ → FrameDraws) (c : Coin),
      (c.maxBounces - c.bounceCount).toNat ≤ B →
        ∃ n, (runFrames cfg W H draws n c).removed = true := by
  intro B
  induction B with
  | zero =>
    intro draws c hB
    apply runFrames_removed_of_no_bounce cfg W H draws c hg hf0 hf1 hb
    intro n hbn
    have h1 := hbn.2.1
    rw [beforeBottom_maxBounces, runFrames_maxBounces] at h1
    have h2 := beforeBottom_bounceCount_ge cfg W (draws n) (runFrames cfg W H draws n c)
    have h3 := runFrames_bounceCount_ge cfg W H draws c n
    omega
  | succ B ih =>
    intro draws c hB
    by_cases hex : ∃ n, bottomBounces cfg W H (draws n) (runFrames cfg W H draws n c)
    · obtain ⟨n, hbn⟩ := hex
      by_cases hl : (runFrames cfg W H draws n c).removed = true
      · exact ⟨n, hl⟩
      · have hl2 : (runFrames cfg W H draws n c).removed = false := by simpa using hl
        have h1 := updateCoin_bounceCount_of_bounce cfg W H (draws n) _ hl2 hbn
        have h3 := runFrames_bounceCount_ge cfg W H draws c n
        have h4 := runFrames_maxBounces cfg W H draws c (n + 1)
        have hbudget : ((runFrames cfg W H draws (n + 1) c).maxBounces
            - (runFrames cfg W H draws (n + 1) c).bounceCount).toNat ≤ B := by
          have h5 : c.bounceCount + 1 ≤ (runFrames cfg W H draws (n + 1) c).bounceCount :=
            le_trans (by omega) h1
          rw [h4]
          omega
        obtain ⟨m, hm⟩ := ih (fun k => draws (n + 1 + k)) (runFrames cfg W H draws (n + 1) c)
          hbudget
        rw [runFrames_add] at hm
        exact ⟨n + 1 + m, hm⟩
    · push_neg at hex
      exact runFrames_removed_of_no_bounce cfg W H draws c hg hf0 hf1 hb hex

end Termination

/-! ## A configuration under which a coin is never removed -/

theorem floatsUp_updateCoin (d : FrameDraws) (c : Coin) (h : floatsUp c) :
    floatsUp (updateCoin floatingConfig 1000 800 d c) := by
  obtain ⟨hl, hvx, hx, hsize, hpot⟩ := h
  have hm1 : c.vy ≤ max c.vy 0 := le_max_left _ _
  have hm0 : (0 : ℚ) ≤ max c.vy 0 := le_max_right _ _
  have hg : floatingConfig.gravity = -1 / 5 := rfl
  have hf : floatingConfig.friction = 99 / 100 := rfl
  have hpot2 : c.y + (c.vy + -1 / 5) * (99 / 100)
      + 99 * max ((c.vy + -1 / 5) * (99 / 100)) 0 ≤ 400 := by
    rcases le_total ((c.vy + -1 / 5) * (99 / 100)) 0 with h0 | h0
    · rw [max_eq_right h0]; linarith
    · rw [max_eq_left h0]; linarith
  have hm2 : (0 : ℚ) ≤ max ((c.vy + -1 / 5) * (99 / 100)) 0 := le_max_right _ _
  have hs : beforeBottom floatingConfig 1000 d c = beforeSides floatingConfig c := by
    unfold beforeBottom handleSides
    rw [if_neg (by rw [beforeSides_x, hx, hvx]; norm_num),
      if_neg (by rw [beforeSides_x, hx, hvx, rightEdge, beforeSides_size, hsize]; norm_num)]
  have hb : handleBottom floatingConfig 800 d.boost (beforeSides floatingConfig c)
      = beforeSides floatingConfig c := by
    apply handleBottom_of_le
    rw [bottomEdge_beforeSides, beforeSides_y, bottomEdge, hsize, hg, hf]
    linarith
  rw [updateCoin_of_live floatingConfig 1000 800 d c hl, hs, hb]
  refine ⟨?_, ?_, ?_, ?_, ?_⟩
  · rw [writeTransform_removed, beforeSides_removed, hl]
  · rw [writeTransform_vx, beforeSides_vx, hvx, zero_mul]
  · rw [writeTransform_x, beforeSides_x, hx, hvx]; norm_num
  · rw [writeTransform_size, beforeSides_size, hsize]
  · rw [writeTransform_y, writeTransform_vy, beforeSides_y, beforeSides_vy, hg, hf]
    exact hpot2

theorem floatsUp_runFrames (draws : ℕ → FrameDraws) (c : Coin) (h : floatsUp c) (n : ℕ) :
    floatsUp (runFrames floatingConfig 1000 800 draws n c) := by
  induction n with
  | zero => exact h
  | succ n ih => exact floatsUp_updateCoin _ _ ih

/-- C4 (as stated, refuted): `gravity = -0.2` is non-zero and `friction = 0.99 < 1`, yet the
coin that `createCoin` makes with all draws at `1 / 2` (so `maxBounces = 3`), in a
`1000 × 800` viewport, is never removed, whatever the draws of the frames: it decelerates,
turns around below height `400` and then rises for ever. -/
theorem floating_coin_never_removed :
    floatingConfig.gravity ≠ 0 ∧ floatingConfig.friction < 1
      ∧ (newCoin floatingConfig 1000 midCoinDraws).maxBounces = 3
      ∧ ∀ (draws : ℕ → FrameDraws) (n : ℕ),
          (runFrames floatingConfig 1000 800 draws n
            (newCoin floatingConfig 1000 midCoinDraws)).removed = false := by
  refine ⟨by decide!, by decide!, by decide!, fun draws n => ?_⟩
  have h0 : floatsUp (newCoin floatingConfig 1000 midCoinDraws) := by
    unfold floatsUp
    decide!
  exact (floatsUp_runFrames draws _ h0 n).1

/-- C4 (amended): with the configured values, in every fixed viewport whose width and height
lie between `0` and `1000000`, every coin created by `createCoin` from draws in `[0, 1)` is
removed after finitely many frames, whatever the draws in `[0, 1)` of the frames, and stays
removed in every later frame.  (The proof is carried out on the exact frame update, where it
needs none of the bounds: they delimit the inputs for which the statement is made.) -/
theorem created_coin_eventually_removed (W H : ℚ) (dc : CoinDraws) (draws : ℕ → FrameDraws)
    (c : Coin) (_hW : 0 ≤ W ∧ W ≤ 1000000) (_hH : 0 ≤ H ∧ H ≤ 1000000)
    (_hdc : unitDraws dc) (_hdraws : ∀ n, unitFrameDraws (draws n))
    (_hc : c ∈ createCoin config W dc []) :
    ∃ n, ∀ m, n ≤ m → (runFrames config W H draws m c).removed = true := by
  have hg : 0 < config.gravity := by decide!
  have hf0 : 0 < config.friction := by decide!
  have hf1 : config.friction < 1 := by decide!
  have hb : |config.bounceReduction| ≤ 1 := by
    rw [abs_le]; constructor <;> decide!
  obtain ⟨n, hn⟩ := runFrames_removed_of_budget config W H hg hf0 hf1 hb
    (c.maxBounces - c.bounceCount).toNat draws c (le_refl _)
  exact ⟨n, fun m hm => runFrames_removed_mono config W H draws c n m hm hn⟩

/-- Witness for the amended C4: the coin created with all draws at `1 / 2` in a `1000 × 800`
viewport, with all frame draws at `1 / 2`, is eventually removed. -/
theorem created_coin_eventually_removed_witness :
    ((0 : ℚ) ≤ 1000 ∧ (1000 : ℚ) ≤ 1000000) ∧ ((0 : ℚ) ≤ 800 ∧ (800 : ℚ) ≤ 1000000)
      ∧ unitDraws midCoinDraws ∧ (∀ n : ℕ, unitFrameDraws ((fun _ => midDraws) n))
      ∧ newCoin config 1000 midCoinDraws ∈ createCoin config 1000 midCoinDraws []
      ∧ ∃ n, ∀ m, n ≤ m → (runFrames config 1000 800 (fun _ => midDraws) m
          (newCoin config 1000 midCoinDraws)).removed = true := by
  have hW : (0 : ℚ) ≤ 1000 ∧ (1000 : ℚ) ≤ 1000000 := by norm_num
  have hH : (0 : ℚ) ≤ 800 ∧ (800 : ℚ) ≤ 1000000 := by norm_num
  have hdc : unitDraws midCoinDraws := by
    unfold unitDraws
    decide!
  have hdraws : ∀ n : ℕ, unitFrameDraws ((fun _ => midDraws) n) := by
    intro n
    show unitFrameDraws midDraws
    unfold unitFrameDraws
    decide!
  have hc : newCoin config 1000 midCoinDraws ∈ createCoin config 1000 midCoinDraws [] := by
    simp [createCoin]
  exact ⟨hW, hH, hdc, hdraws, hc,
    created_coin_eventually_removed 1000 800 midCoinDraws (fun _ => midDraws) _ hW hH hdc
      hdraws hc⟩

/-! ## Removal and fade-out -/

section Removal

variable (cfg : Config) (W H : ℚ) (d : FrameDraws) (c : Coin)

@[simp] theorem fadeOut_rotationSpeed (c : Coin) :
    (fadeOut c).rotationSpeed = c.rotationSpeed := by
  unfold fadeOut; split_ifs <;> rfl

theorem fadeOut_removed_iff (c : Coin) (h : c.removed = false) :
    (fadeOut c).removed = true ↔ (fadeOut c).opacity ≤ 0 := by
  rw [fadeOut_opacity]
  constructor
  · intro hr
    by_contra hgt
    rw [fadeOut_removed_of_gt c (not_le.mp hgt), h] at hr
    exact Bool.noConfusion hr
  · exact fadeOut_removed_of_le c

/-- On a live coin the frame is: no bottom handling, the bottom bounce, or the fade-out,
according to the two tests of lines 164-165. -/
theorem updateCoin_cases (h : c.removed = false) :
    (¬ (beforeBottom cfg W d c).y > bottomEdge H (beforeBottom cfg W d c)
        ∧ updateCoin cfg W H d c = writeTransform (beforeBottom cfg W d c))
      ∨ (bottomBounces cfg W H d c
        ∧ updateCoin cfg W H d c
          = writeTransform (bottomBounce cfg H d.boost (beforeBottom cfg W d c)))
      ∨ (fadesOut cfg W H d c
        ∧ updateCoin cfg W H d c = writeTransform (fadeOut (beforeBottom cfg W d c))) := by
  rw [updateCoin_of_live cfg W H d c h]
  by_cases hy : (beforeBottom cfg W d c).y > bottomEdge H (beforeBottom cfg W d c)
  · by_cases hb : canBounceBottom cfg (beforeBottom cfg W d c)
    · exact Or.inr (Or.inl ⟨⟨hy, hb⟩, by rw [handleBottom_of_bounce cfg H _ _ hy hb]⟩)
    · exact Or.inr (Or.inr ⟨⟨hy, hb⟩, by rw [handleBottom_of_fade cfg H _ _ hy hb]⟩)
  · exact Or.inl ⟨hy, by rw [handleBottom_of_le cfg H _ _ (not_lt.mp hy)]⟩

end Removal

/-- C11 (as stated, refuted): `slowCoin` lies below the bottom threshold with two bounces
left (`bounceCount = 0 < maxBounces = 2`) but moves too slowly to bounce
(`|vy| = 0.198 ≤ 0.5`); the frame fades it out and removes it although its bounce budget is
not exhausted. -/
theorem slowCoin_removed_with_budget :
    slowCoin.removed = false
      ∧ (updateCoin config 1000 800 midDraws slowCoin).removed = true
      ∧ (updateCoin config 1000 800 midDraws slowCoin).bounceCount
          < (updateCoin config 1000 800 midDraws slowCoin).maxBounces
      ∧ |(updateCoin config 1000 800 midDraws slowCoin).vy| = 198 / 1000 := by
  decide!

/-- C11 (amended): a frame changes `removed` from false to true only if, at the end of that
frame, the opacity is `≤ 0`, `y` is beyond the bottom threshold `H - 0.2 * size`, and the
bounce condition of line 165 fails: the bounce budget is exhausted
(`bounceCount ≥ maxBounces`) or the coin is too slow (`|vy| ≤ bottomBounceThreshold`). -/
theorem updateCoin_removed_only_if (cfg : Config) (W H : ℚ) (d : FrameDraws) (c : Coin)
    (h0 : c.removed = false) (h1 : (updateCoin cfg W H d c).removed = true) :
    (updateCoin cfg W H d c).opacity ≤ 0
      ∧ (updateCoin cfg W H d c).y > H - (updateCoin cfg W H d c).size * (1 / 5)
      ∧ ((updateCoin cfg W H d c).maxBounces ≤ (updateCoin cfg W H d c).bounceCount
        ∨ |(updateCoin cfg W H d c).vy| ≤ cfg.bottomBounceThreshold) := by
  rcases updateCoin_cases cfg W H d c h0 with ⟨-, e⟩ | ⟨-, e⟩ | ⟨hf, e⟩
  · rw [e, writeTransform_removed, beforeBottom_removed, h0] at h1
    exact Bool.noConfusion h1
  · rw [e] at h1
    have : (beforeBottom cfg W d c).removed = true := h1
    rw [beforeBottom_removed, h0] at this
    exact Bool.noConfusion this
  · rw [e] at h1 ⊢
    have hb : (beforeBottom cfg W d c).removed = false := by
      rw [beforeBottom_removed, h0]
    have hop := (fadeOut_removed_iff _ hb).mp h1
    refine ⟨hop, ?_, ?_⟩
    · rw [writeTransform_y, writeTransform_size, fadeOut_y, fadeOut_size]
      exact hf.1
    · rw [writeTransform_maxBounces, writeTransform_bounceCount, writeTransform_vy,
        fadeOut_maxBounces, fadeOut_bounceCount, fadeOut_vy]
      by_contra hno
      push_neg at hno
      exact hf.2 ⟨hno.1, hno.2⟩

/-- Witness for the amended C11 at `slowCoin`: removed in this frame, with opacity `-0.01`. -/
theorem updateCoin_removed_only_if_witness :
    slowCoin.removed = false
      ∧ (updateCoin config 1000 800 midDraws slowCoin).removed = true
      ∧ (updateCoin config 1000 800 midDraws slowCoin).opacity ≤ 0 :=
  have h1 : (updateCoin config 1000 800 midDraws slowCoin).removed = true := by decide!
  ⟨rfl, h1, (updateCoin_removed_only_if config 1000 800 midDraws slowCoin rfl h1).1⟩

/-- C12 (as stated, refuted): `lateCoin` is below the bottom threshold with its budget used
up, so the frame takes the fade-out branch; but it is still fading in, so the frame first
overwrites the opacity `0.5` with `min(1, 60.098 / 100)` and then lowers it: the result is
`0.57098`, not `0.5 - 0.03`. -/
theorem lateCoin_fade_overwritten :
    lateCoin.removed = false
      ∧ (moveCoin config lateCoin).y > 800 - lateCoin.size * (1 / 5)
      ∧ ¬ canBounceBottom config (beforeBottom config 1000 midDraws lateCoin)
      ∧ (updateCoin config 1000 800 midDraws lateCoin).opacity = 57098 / 100000
      ∧ (updateCoin config 1000 800 midDraws lateCoin).opacity
          ≠ lateCoin.opacity - 3 / 100 := by
  decide!

/-- C12 (amended): for a live coin whose `y` after the position update is beyond the bottom
threshold and which fails the bounce condition, the frame leaves the opacity equal to the
opacity on entry to the bottom handling minus `0.03`: that is the value before the frame
minus `0.03` when the fade-in is over (`fadeInProgress ≥ fadeInDistance`), and
`min(1, fadeInProgress / fadeInDistance) - 0.03` with the updated accumulator while the coin
is still fading in; and it sets `removed` exactly when the resulting opacity is `≤ 0`. -/
theorem updateCoin_fade_out_step (cfg : Config) (W H : ℚ) (d : FrameDraws) (c : Coin)
    (h0 : c.removed = false) (hy : (moveCoin cfg c).y > H - c.size * (1 / 5))
    (hb : ¬ canBounceBottom cfg (beforeBottom cfg W d c)) :
    (updateCoin cfg W H d c).opacity = (handleFadeIn (moveCoin cfg c)).opacity - 3 / 100
      ∧ (c.fadeInDistance ≤ c.fadeInProgress →
          (updateCoin cfg W H d c).opacity = c.opacity - 3 / 100)
      ∧ (c.fadeInProgress < c.fadeInDistance →
          (updateCoin cfg W H d c).opacity
            = min 1 ((c.fadeInProgress + (c.vy + cfg.gravity) * cfg.friction)
                / c.fadeInDistance) - 3 / 100)
      ∧ ((updateCoin cfg W H d c).removed = true ↔ (updateCoin cfg W H d c).opacity ≤ 0) := by
  have hgt : (beforeBottom cfg W d c).y > bottomEdge H (beforeBottom cfg W d c) := by
    rw [bottomEdge_beforeBottom, beforeBottom_y]
    simpa [bottomEdge] using hy
  have e : updateCoin cfg W H d c = writeTransform (fadeOut (beforeBottom cfg W d c)) := by
    rw [updateCoin_of_live cfg W H d c h0, handleBottom_of_fade cfg H _ _ hgt hb]
  have hop : (updateCoin cfg W H d c).opacity
      = (handleFadeIn (moveCoin cfg c)).opacity - 3 / 100 := by
    rw [e, writeTransform_opacity, fadeOut_opacity, beforeBottom_opacity]
  have hlive : (beforeBottom cfg W d c).removed = false := by
    rw [beforeBottom_removed, h0]
  refine ⟨hop, ?_, ?_, ?_⟩
  · intro hp
    have hn : ¬ (moveCoin cfg c).fadeInProgress < (moveCoin cfg c).fadeInDistance :=
      not_lt.mpr hp
    rw [hop]
    unfold handleFadeIn
    rw [if_neg hn]
    rfl
  · intro hp
    have hp2 : (moveCoin cfg c).fadeInProgress < (moveCoin cfg c).fadeInDistance := hp
    rw [hop]
    unfold handleFadeIn
    rw [if_pos hp2]
    rfl
  · rw [e]
    exact fadeOut_removed_iff _ hlive

/-- Witness for the amended C12 at `spentCoin` (fade-in over, opacity `1`): the frame leaves
the opacity at `0.97` and does not remove the coin. -/
theorem updateCoin_fade_out_step_witness :
    spentCoin.removed = false
      ∧ (moveCoin config spentCoin).y > 800 - spentCoin.size * (1 / 5)
      ∧ ¬ canBounceBottom config (beforeBottom config 1000 midDraws spentCoin)
      ∧ (updateCoin config 1000 800 midDraws spentCoin).opacity = spentCoin.opacity - 3 / 100 := by
  have hy : (moveCoin config spentCoin).y > 800 - spentCoin.size * (1 / 5) := by decide!
  have hb : ¬ canBounceBottom config (beforeBottom config 1000 midDraws spentCoin) := by
    decide!
  exact ⟨rfl, hy, hb,
    (updateCoin_fade_out_step config 1000 800 midDraws spentCoin rfl hy hb).2.1 (by decide!)⟩

/-! ## The bounce counter -/

/-- C13: for every coin and every frame, `bounceCount` after the frame is at least
`bounceCount` before it and `maxBounces` is unchanged; over any run of frames the counter is
non-decreasing. -/
theorem updateCoin_bounceCount_monotone (cfg : Config) (W H : ℚ) (c : Coin) :
    (∀ d : FrameDraws, c.bounceCount ≤ (updateCoin cfg W H d c).bounceCount
        ∧ (updateCoin cfg W H d c).maxBounces = c.maxBounces)
      ∧ (∀ (draws : ℕ → FrameDraws) (n m : ℕ), n ≤ m →
          (runFrames cfg W H draws n c).bounceCount ≤ (runFrames cfg W H draws m c).bounceCount
            ∧ (runFrames cfg W H draws m c).maxBounces = c.maxBounces) := by
  refine ⟨fun d => ⟨updateCoin_bounceCount_ge cfg W H d c, updateCoin_maxBounces cfg W H d c⟩,
    ?_⟩
  intro draws n m hnm
  refine ⟨?_, runFrames_maxBounces cfg W H draws c m⟩
  obtain ⟨k, rfl⟩ : ∃ k, m = n + k := ⟨m - n, by omega⟩
  rw [← runFrames_add]
  exact runFrames_bounceCount_ge cfg W H _ _ k

section BounceBudget

variable (cfg : Config) (W H : ℚ) (draws : ℕ → FrameDraws) (c : Coin)

theorem bottomBounces_budget (d : FrameDraws) (h : bottomBounces cfg W H d c) :
    c.bounceCount < c.maxBounces ∧ (beforeBottom cfg W d c).bounceCount < c.maxBounces := by
  have h1 := h.2.1
  rw [beforeBottom_maxBounces] at h1
  have h2 := beforeBottom_bounceCount_ge cfg W d c
  exact ⟨by omega, h1⟩

/-- Every bottom bounce counted so far has raised the counter by at least one. -/
theorem bottomBounceCount_add_le (n : ℕ) :
    c.bounceCount + (bottomBounceCount cfg W H draws n c : ℤ)
      ≤ (runFrames cfg W H draws n c).bounceCount := by
  induction n with
  | zero => simp [bottomBounceCount, runFrames]
  | succ n ih =>
    rw [bottomBounceCount, runFrames]
    split_ifs with hb
    · have h1 := updateCoin_bounceCount_of_bounce cfg W H (draws n) _ hb.1 hb.2
      push_cast
      omega
    · have h1 := updateCoin_bounceCount_ge cfg W H (draws n) (runFrames cfg W H draws n c)
      push_cast
      omega

/-- The number of bottom bounces never exceeds the budget the coin started with. -/
theorem bottomBounceCount_le_budget (n : ℕ) :
    bottomBounceCount cfg W H draws n c ≤ (c.maxBounces - c.bounceCount).toNat := by
  induction n with
  | zero => simp [bottomBounceCount]
  | succ n ih =>
    rw [bottomBounceCount]
    split_ifs with hb
    · have h1 := bottomBounces_budget cfg W H _ (draws n) hb.2
      rw [runFrames_maxBounces] at h1
      have h2 := bottomBounceCount_add_le cfg W H draws c n
      omega
    · omega

end BounceBudget

/-- C14: in every sequence of frames starting from a coin with `bounceCount = 0`, the number
of frames that perform a bottom bounce is at most `maxBounces` (at most `0` should
`maxBounces` be negative): a frame bounces a live coin off the bottom only when
`bounceCount < maxBounces` holds before it (at the start of the frame and on entry to the
bottom handling), and the bounce reflects `vy`, clamps `y` to the threshold and increments
`bounceCount`. -/
theorem bottom_bounces_at_most_maxBounces (cfg : Config) (W H : ℚ) (draws : ℕ → FrameDraws)
    (c : Coin) (h0 : c.bounceCount = 0) :
    (∀ n, bottomBounceCount cfg W H draws n c ≤ c.maxBounces.toNat)
      ∧ (0 ≤ c.maxBounces → ∀ n, (bottomBounceCount cfg W H draws n c : ℤ) ≤ c.maxBounces)
      ∧ (∀ (d : FrameDraws) (s : Coin), s.removed = false → bottomBounces cfg W H d s →
          s.bounceCount < s.maxBounces
            ∧ (beforeBottom cfg W d s).bounceCount < s.maxBounces
            ∧ (updateCoin cfg W H d s).bounceCount = (beforeBottom cfg W d s).bounceCount + 1
            ∧ s.bounceCount + 1 ≤ (updateCoin cfg W H d s).bounceCount
            ∧ (updateCoin cfg W H d s).y = H - s.size * (1 / 5)
            ∧ (updateCoin cfg W H d s).vy
                = -(beforeBottom cfg W d s).vy * cfg.bounceReduction) := by
  have hle : ∀ n, bottomBounceCount cfg W H draws n c ≤ c.maxBounces.toNat := by
    intro n
    have := bottomBounceCount_le_budget cfg W H draws c n
    rw [h0, sub_zero] at this
    exact this
  refine ⟨hle, ?_, ?_⟩
  · intro hm n
    have := hle n
    omega
  · intro d s hs hb
    have hbud := bottomBounces_budget cfg W H s d hb
    have e : updateCoin cfg W H d s
        = writeTransform (bottomBounce cfg H d.boost (beforeBottom cfg W d s)) := by
      rw [updateCoin_of_live cfg W H d s hs, handleBottom_of_bounce cfg H _ _ hb.1 hb.2]
    refine ⟨hbud.1, hbud.2, ?_, updateCoin_bounceCount_of_bounce cfg W H d s hs hb, ?_, ?_⟩
    · rw [e]; rfl
    · rw [e]
      show bottomEdge H (beforeBottom cfg W d s) = _
      rw [bottomEdge_beforeBottom]; rfl
    · rw [e]; rfl

/-- Witness for C14: the coin of the low-viewport scenario (created with `bounceCount = 0`,
`maxBounces = 3`) has bounced once off the bottom after `24` frames, and never more than
three times. -/
theorem bottom_bounces_at_most_maxBounces_witness :
    (newCoin config 1000 midCoinDraws).bounceCount = 0
      ∧ (newCoin config 1000 midCoinDraws).maxBounces = 3
      ∧ bottomBounceCount config 1000 20 (fun _ => midDraws) 24
          (newCoin config 1000 midCoinDraws) = 1
      ∧ ∀ n, bottomBounceCount config 1000 20 (fun _ => midDraws) n
          (newCoin config 1000 midCoinDraws) ≤ 3 := by
  have h0 : (newCoin config 1000 midCoinDraws).bounceCount = 0 := rfl
  have hm : (newCoin config 1000 midCoinDraws).maxBounces = 3 := by decide!
  have t := (bottom_bounces_at_most_maxBounces config 1000 20 (fun _ => midDraws)
    (newCoin config 1000 midCoinDraws) h0).1
  rw [hm] at t
  exact ⟨h0, hm, by decide!, t⟩

/-! ## Creation of a coin -/

section CreatedRanges

theorem isDouble_half : isDouble (1 / 2) :=
  ⟨1, -1, by norm_num, by norm_num, by norm_num, by norm_num⟩

theorem isDouble_neg_half : isDouble (-(1 / 2)) :=
  ⟨-1, -1, by norm_num, by norm_num, by norm_num, by norm_num⟩

/-- A draw scaled to `[lo, hi]` as in lines 71 and 93 stays in `[lo, hi]` after rounding. -/
theorem scaled_draw_bounds (r lo hi : ℚ) (hr0 : 0 ≤ r) (hr1 : r ≤ 1) (hle : lo ≤ hi)
    (hlo : isDouble lo) (hhi : isDouble hi) (hdiff : isDouble (hi - lo)) :
    lo ≤ roundDouble (roundDouble (r * roundDouble (hi - lo)) + lo)
      ∧ roundDouble (roundDouble (r * roundDouble (hi - lo)) + lo) ≤ hi := by
  rw [roundDouble_of_isDouble _ hdiff]
  have hspan : 0 ≤ hi - lo := by linarith
  have h0 : 0 ≤ roundDouble (r * (hi - lo)) :=
    le_roundDouble _ 0 isDouble_zero (mul_nonneg hr0 hspan)
  have h1 : roundDouble (r * (hi - lo)) ≤ hi - lo := by
    apply roundDouble_le _ _ hdiff
    have := mul_le_mul_of_nonneg_right hr1 hspan
    linarith
  exact ⟨le_roundDouble _ lo hlo (by linarith), roundDouble_le _ hi hhi (by linarith)⟩

/-- A draw centred and scaled by `k` as in lines 92 and 96 stays in `[-k/2, k/2]`. -/
theorem centred_draw_bounds (r k : ℚ) (hr0 : 0 ≤ r) (hr1 : r ≤ 1) (hk : 0 ≤ k)
    (hlo : isDouble (-(k / 2))) (hhi : isDouble (k / 2)) :
    -(k / 2) ≤ roundDouble (roundDouble (r - 1 / 2) * k)
      ∧ roundDouble (roundDouble (r - 1 / 2) * k) ≤ k / 2 := by
  have h0 : -(1 / 2) ≤ roundDouble (r - 1 / 2) :=
    le_roundDouble _ _ isDouble_neg_half (by linarith)
  have h1 : roundDouble (r - 1 / 2) ≤ 1 / 2 :=
    roundDouble_le _ _ isDouble_half (by linarith)
  have h2 := mul_le_mul_of_nonneg_right h0 hk
  have h3 := mul_le_mul_of_nonneg_right h1 hk
  exact ⟨le_roundDouble _ _ hlo (by linarith), roundDouble_le _ _ hhi (by linarith)⟩

end CreatedRanges

/-- C15 (as stated, refuted): with the configured values and width `1000`, the fade-in draw
`1 - 2 ^ (-53)`, the largest binary64 number below `1`, gives `fadeInDistance = 300`: the
product `r * 200` rounds to `200 - 2 ^ (-45)` and the sum with `100` lies half-way between
two binary64 numbers and rounds to the even one, `300`, outside `[100, 300)`. -/
theorem created_coin_fadeInDistance_300 :
    config.minSize ≤ config.maxSize ∧ config.minSpeed ≤ config.maxSpeed
      ∧ unitDraws edgeDraws
      ∧ edgeDraws.fadeInDistance < 1
      ∧ edgeDraws.fadeInDistance = 1 - 1 / 9007199254740992
      ∧ roundDouble edgeDraws.fadeInDistance = edgeDraws.fadeInDistance
      ∧ roundDouble (edgeDraws.fadeInDistance * 200) = 200 - 1 / 35184372088832
      ∧ (newCoin config 1000 edgeDraws).fadeInDistance = 300
      ∧ ¬ (newCoin config 1000 edgeDraws).fadeInDistance < 300
      ∧ createCoin config 1000 edgeDraws [] = [newCoin config 1000 edgeDraws] := by
  unfold unitDraws
  decide!

/-- C15 (amended): for a config with `minSize ≤ maxSize` and `minSpeed ≤ maxSpeed` whose
four bounds and the two differences `maxSize - minSize`, `maxSpeed - minSpeed` are binary64
numbers (as the configured `64`, `120`, `4`, `5` are), a binary64 viewport width `W ≥ 0` and
binary64 draws in `[0, 1)`, `createCoin` appends exactly one coin, and that coin has
`opacity = 0`, `fadeInProgress = 0`, `bounceCount = 0`, `removed = false`, `y = -50`,
`x` in `[0, W]`, `size` in `[minSize, maxSize]`, `vy` in `[minSpeed, maxSpeed]`, `vx` in
`[-1.5, 1.5]`, `rotationSpeed` in `[-4, 4]`, `fadeInDistance` in the closed interval
`[100, 300]` and `maxBounces` in `{2, 3, 4}`; its element is attached, sized like the coin
and placed at `left = x`, `top = -50`. -/
theorem createCoin_appends_coin_in_ranges (cfg : Config) (W : ℚ) (d : CoinDraws)
    (coins : List Coin) (hs : cfg.minSize ≤ cfg.maxSize) (hv : cfg.minSpeed ≤ cfg.maxSpeed)
    (hsd : isDouble cfg.minSize ∧ isDouble cfg.maxSize
      ∧ isDouble (cfg.maxSize - cfg.minSize))
    (hvd : isDouble cfg.minSpeed ∧ isDouble cfg.maxSpeed
      ∧ isDouble (cfg.maxSpeed - cfg.minSpeed))
    (hW : 0 ≤ W) (hWd : isDouble W) (hd : unitDraws d) (hdd : doubleDraws d) :
    createCoin cfg W d coins = coins ++ [newCoin cfg W d]
      ∧ (createCoin cfg W d coins).length = coins.length + 1
      ∧ (newCoin cfg W d).opacity = 0
      ∧ (newCoin cfg W d).fadeInProgress = 0
      ∧ (newCoin cfg W d).bounceCount = 0
      ∧ (newCoin cfg W d).removed = false
      ∧ (newCoin cfg W d).y = -50
      ∧ (0 ≤ (newCoin cfg W d).x ∧ (newCoin cfg W d).x ≤ W)
      ∧ (cfg.minSize ≤ (newCoin cfg W d).size ∧ (newCoin cfg W d).size ≤ cfg.maxSize)
      ∧ (cfg.minSpeed ≤ (newCoin cfg W d).vy ∧ (newCoin cfg W d).vy ≤ cfg.maxSpeed)
      ∧ (-(3 / 2) ≤ (newCoin cfg W d).vx ∧ (newCoin cfg W d).vx ≤ 3 / 2)
      ∧ (-4 ≤ (newCoin cfg W d).rotationSpeed ∧ (newCoin cfg W d).rotationSpeed ≤ 4)
      ∧ (100 ≤ (newCoin cfg W d).fadeInDistance ∧ (newCoin cfg W d).fadeInDistance ≤ 300)
      ∧ ((newCoin cfg W d).maxBounces = 2 ∨ (newCoin cfg W d).maxBounces = 3
        ∨ (newCoin cfg W d).maxBounces = 4)
      ∧ (newCoin cfg W d).element.attached = true
      ∧ (newCoin cfg W d).element.width = (newCoin cfg W d).size
      ∧ (newCoin cfg W d).element.height = (newCoin cfg W d).size
      ∧ (newCoin cfg W d).element.left = (newCoin cfg W d).x
      ∧ (newCoin cfg W d).element.top = -50 := by
  obtain ⟨⟨hs0, hs1⟩, ⟨hx0, hx1⟩, -, ⟨hvx0, hvx1⟩, ⟨hvy0, hvy1⟩, ⟨hr0, hr1⟩, ⟨hf0, hf1⟩,
    ⟨hm0, hm1⟩⟩ := hd
  obtain ⟨-, -, -, -, -, -, -, hmd⟩ := hdd
  have hsize := scaled_draw_bounds d.size cfg.minSize cfg.maxSize hs0 hs1.le hs hsd.1 hsd.2.1
    hsd.2.2
  have hvy := scaled_draw_bounds d.vy cfg.minSpeed cfg.maxSpeed hvy0 hvy1.le hv hvd.1 hvd.2.1
    hvd.2.2
  have hvx := centred_draw_bounds d.vx 3 hvx0 hvx1.le (by norm_num)
    ⟨-3, -1, by norm_num, by norm_num, by norm_num, by norm_num⟩
    ⟨3, -1, by norm_num, by norm_num, by norm_num, by norm_num⟩
  have hrs := centred_draw_bounds d.rotationSpeed 8 hr0 hr1.le (by norm_num)
    (isDouble_of_int _ (-4) (by norm_num) (by norm_num))
    (isDouble_of_int _ 4 (by norm_num) (by norm_num))
  have hx : 0 ≤ roundDouble (d.startX * W) ∧ roundDouble (d.startX * W) ≤ W := by
    refine ⟨le_roundDouble _ 0 isDouble_zero (mul_nonneg hx0 hW), roundDouble_le _ W hWd ?_⟩
    have := mul_le_mul_of_nonneg_right hx1.le hW
    linarith
  have hfid : 100 ≤ roundDouble (roundDouble (d.fadeInDistance * 200) + 100)
      ∧ roundDouble (roundDouble (d.fadeInDistance * 200) + 100) ≤ 300 := by
    have h0 : 0 ≤ roundDouble (d.fadeInDistance * 200) :=
      le_roundDouble _ 0 isDouble_zero (by linarith)
    have h1 : roundDouble (d.fadeInDistance * 200) ≤ 200 :=
      roundDouble_le _ 200 (isDouble_of_int _ 200 (by norm_num) (by norm_num)) (by linarith)
    exact ⟨le_roundDouble _ 100 isDouble_hundred (by linarith),
      roundDouble_le _ 300 (isDouble_of_int _ 300 (by norm_num) (by norm_num)) (by linarith)⟩
  have hfloor0 : 0 ≤ ⌊roundDouble (d.maxBounces * 3)⌋ :=
    Int.floor_nonneg.mpr (le_roundDouble _ 0 isDouble_zero (by linarith))
  have hfloor1 : ⌊roundDouble (d.maxBounces * 3)⌋ < 3 := by
    apply Int.floor_lt.mpr
    have hm2 := isDouble_lt_one d.maxBounces hmd hm1
    have := roundDouble_lt_three (d.maxBounces * 3) (by linarith)
    exact_mod_cast this
  have hvx' : -(3 / 2) ≤ roundDouble (roundDouble (d.vx - 1 / 2) * 3)
      ∧ roundDouble (roundDouble (d.vx - 1 / 2) * 3) ≤ 3 / 2 := hvx
  have hrs' : -4 ≤ roundDouble (roundDouble (d.rotationSpeed - 1 / 2) * 8)
      ∧ roundDouble (roundDouble (d.rotationSpeed - 1 / 2) * 8) ≤ 4 := by
    have e : (8 : ℚ) / 2 = 4 := by norm_num
    rw [e] at hrs
    exact hrs
  refine ⟨rfl, createCoin_length cfg W d coins, rfl, rfl, rfl, rfl, rfl, hx, hsize, hvy, hvx',
    hrs', hfid, ?_, rfl, rfl, rfl, rfl, rfl⟩
  show ⌊roundDouble (d.maxBounces * 3)⌋ + 2 = 2 ∨ ⌊roundDouble (d.maxBounces * 3)⌋ + 2 = 3
    ∨ ⌊roundDouble (d.maxBounces * 3)⌋ + 2 = 4
  omega

/-- Witness for the amended C15 with the configured values, width `1000` and all draws at
`1 / 2`: one coin is appended, of size at most `120` and `fadeInDistance` at most `300`. -/
theorem createCoin_appends_coin_in_ranges_witness :
    config.minSize ≤ config.maxSize ∧ config.minSpeed ≤ config.maxSpeed
      ∧ isDouble config.minSize ∧ isDouble config.maxSize
      ∧ isDouble (config.maxSize - config.minSize)
      ∧ isDouble config.minSpeed ∧ isDouble config.maxSpeed
      ∧ isDouble (config.maxSpeed - config.minSpeed)
      ∧ (0 : ℚ) ≤ 1000 ∧ isDouble 1000 ∧ unitDraws midCoinDraws ∧ doubleDraws midCoinDraws
      ∧ (createCoin config 1000 midCoinDraws []).length = 1
      ∧ (newCoin config 1000 midCoinDraws).size ≤ config.maxSize
      ∧ (newCoin config 1000 midCoinDraws).fadeInDistance ≤ 300 := by
  have h1 : config.minSize ≤ config.maxSize := by decide!
  have h2 : config.minSpeed ≤ config.maxSpeed := by decide!
  have d1 : isDouble config.minSize := isDouble_of_int _ 64 (by norm_num [config]) (by norm_num)
  have d2 : isDouble config.maxSize := isDouble_of_int _ 120 (by norm_num [config]) (by norm_num)
  have d3 : isDouble (config.maxSize - config.minSize) :=
    isDouble_of_int _ 56 (by norm_num [config]) (by norm_num)
  have d4 : isDouble config.minSpeed := isDouble_of_int _ 4 (by norm_num [config]) (by norm_num)
  have d5 : isDouble config.maxSpeed := isDouble_of_int _ 5 (by norm_num [config]) (by norm_num)
  have d6 : isDouble (config.maxSpeed - config.minSpeed) :=
    isDouble_of_int _ 1 (by norm_num [config]) (by norm_num)
  have h3 : (0 : ℚ) ≤ 1000 := by norm_num
  have d7 : isDouble 1000 := isDouble_of_int _ 1000 (by norm_num) (by norm_num)
  have h4 : unitDraws midCoinDraws := by
    unfold unitDraws
    decide!
  have h5 : doubleDraws midCoinDraws :=
    ⟨isDouble_half, isDouble_half, isDouble_half, isDouble_half, isDouble_half, isDouble_half,
      isDouble_half, isDouble_half⟩
  have t := createCoin_appends_coin_in_ranges config 1000 midCoinDraws [] h1 h2 ⟨d1, d2, d3⟩
    ⟨d4, d5, d6⟩ h3 d7 h4 h5
  exact ⟨h1, h2, d1, d2, d3, d4, d5, d6, h3, d7, h4, h5, t.2.1, t.2.2.2.2.2.2.2.2.1.2,
    t.2.2.2.2.2.2.2.2.2.2.2.2.1.2⟩

/-! ## Side edges -/

section Sides

variable (cfg : Config) (W H r : ℚ) (d : FrameDraws) (c : Coin)

@[simp] theorem handleFadeIn_rotationSpeed :
    (handleFadeIn c).rotationSpeed = c.rotationSpeed := by
  unfold handleFadeIn; split_ifs <;> rfl

@[simp] theorem beforeSides_rotationSpeed :
    (beforeSides cfg c).rotationSpeed = c.rotationSpeed := by
  simp [beforeSides, updateRotation, moveCoin, updatePosition, applyFriction, applyGravity]

theorem handleSides_of_left (h : c.x < 0) : handleSides cfg W r c = sideBounce cfg 0 r c := by
  unfold handleSides; rw [if_pos h]

theorem handleSides_of_right (h0 : 0 ≤ c.x) (h : W - c.size < c.x) :
    handleSides cfg W r c = sideBounce cfg (W - c.size) r c := by
  have h1 : c.x > rightEdge W c := h
  unfold handleSides; rw [if_neg (not_lt.mpr h0), if_pos h1]; rfl

theorem handleSides_of_inside (h0 : 0 ≤ c.x) (h : c.x ≤ W - c.size) :
    handleSides cfg W r c = c := by
  have h1 : ¬ c.x > rightEdge W c := not_lt.mpr h
  unfold handleSides; rw [if_neg (not_lt.mpr h0), if_neg h1]

theorem handleSides_bounceCount_le :
    (handleSides cfg W r c).bounceCount ≤ c.bounceCount + 1 := by
  unfold handleSides sideBounce; split_ifs <;> simp

theorem updateCoin_x (h : c.removed = false) :
    (updateCoin cfg W H d c).x = (beforeBottom cfg W d c).x := by
  rw [updateCoin_of_live cfg W H d c h, writeTransform_x, handleBottom_x]

end Sides

/-- C16 (as stated, refuted): in a viewport narrower than the coin (`W = 50`, size `64`) the
moved `leftCoin` has `x = -6.98`, which is both `< 0` and `> W - size = -14`; the frame
handles the left edge only and sets `x` to `0`, not to `W - size`. -/
theorem leftCoin_narrow_viewport :
    leftCoin.removed = false
      ∧ (beforeSides config leftCoin).x > 50 - leftCoin.size
      ∧ (beforeSides config leftCoin).x < 0
      ∧ (updateCoin config 50 800 midDraws leftCoin).x = 0
      ∧ (updateCoin config 50 800 midDraws leftCoin).x ≠ 50 - leftCoin.size := by
  decide!

/-- C16 (amended): for a live coin, with `x` the position after the position update: if
`x < 0` the side handling is the bounce that clamps `x` to `0`; if `x ≥ 0` and
`x > W - size` it is the bounce that clamps `x` to `W - size`; such a bounce sets `vx` to
`-vx * bounceReduction` with the damped `vx`, subtracts `0.3 * |new vx|` from `vy`, sets
`rotationSpeed` to `1.2 * |rotationSpeed|` with the sign chosen by the draw, and increments
`bounceCount` by exactly 1; if `0 ≤ x ≤ W - size` the side handling leaves the coin
untouched; and a frame handles at most one of the two edges (the left one when both tests
hold). The clamped `x` is the `x` at the end of the frame. -/
theorem updateCoin_side_handling (cfg : Config) (W H : ℚ) (d : FrameDraws) (c : Coin)
    (h0 : c.removed = false) :
    (∀ e : ℚ,
        (sideBounce cfg e d.sign (beforeSides cfg c)).x = e
          ∧ (sideBounce cfg e d.sign (beforeSides cfg c)).vx
              = -(c.vx * cfg.friction) * cfg.bounceReduction
          ∧ (sideBounce cfg e d.sign (beforeSides cfg c)).vy
              = (c.vy + cfg.gravity) * cfg.friction
                - 3 / 10 * |(sideBounce cfg e d.sign (beforeSides cfg c)).vx|
          ∧ |(sideBounce cfg e d.sign (beforeSides cfg c)).rotationSpeed|
              = 6 / 5 * |c.rotationSpeed|
          ∧ (sideBounce cfg e d.sign (beforeSides cfg c)).rotationSpeed
              = (if d.sign > 1 / 2 then 6 / 5 * |c.rotationSpeed|
                  else -(6 / 5 * |c.rotationSpeed|))
          ∧ (sideBounce cfg e d.sign (beforeSides cfg c)).bounceCount = c.bounceCount + 1)
      ∧ ((beforeSides cfg c).x < 0 →
          beforeBottom cfg W d c = sideBounce cfg 0 d.sign (beforeSides cfg c)
            ∧ (updateCoin cfg W H d c).x = 0)
      ∧ (0 ≤ (beforeSides cfg c).x → W - c.size < (beforeSides cfg c).x →
          beforeBottom cfg W d c = sideBounce cfg (W - c.size) d.sign (beforeSides cfg c)
            ∧ (updateCoin cfg W H d c).x = W - c.size)
      ∧ (0 ≤ (beforeSides cfg c).x → (beforeSides cfg c).x ≤ W - c.size →
          beforeBottom cfg W d c = beforeSides cfg c
            ∧ (updateCoin cfg W H d c).x = (beforeSides cfg c).x)
      ∧ (beforeBottom cfg W d c).bounceCount ≤ c.bounceCount + 1 := by
  refine ⟨?_, ?_, ?_, ?_, ?_⟩
  · intro e
    have hrs : (sideBounce cfg e d.sign (beforeSides cfg c)).rotationSpeed
        = |c.rotationSpeed| * (if d.sign > 1 / 2 then 1 else -1) * (6 / 5) := by
      show |(beforeSides cfg c).rotationSpeed| * _ * _ = _
      rw [beforeSides_rotationSpeed]
    refine ⟨rfl, ?_, ?_, ?_, ?_, ?_⟩
    · show -(beforeSides cfg c).vx * cfg.bounceReduction = _
      rw [beforeSides_vx]
    · show (beforeSides cfg c).vy - |-(beforeSides cfg c).vx * cfg.bounceReduction| * (3 / 10)
        = (c.vy + cfg.gravity) * cfg.friction
          - 3 / 10 * |-(beforeSides cfg c).vx * cfg.bounceReduction|
      rw [beforeSides_vy]; ring
    · rw [hrs]
      split_ifs
      · rw [mul_one, abs_mul, abs_abs, abs_of_pos (by norm_num : (0 : ℚ) < 6 / 5)]; ring
      · rw [abs_mul, abs_mul, abs_abs, abs_neg, abs_one,
          abs_of_pos (by norm_num : (0 : ℚ) < 6 / 5)]; ring
    · rw [hrs]
      split_ifs <;> ring
    · show (beforeSides cfg c).bounceCount + 1 = _
      rw [beforeSides_bounceCount]
  · intro hx
    have e := handleSides_of_left cfg W d.sign (beforeSides cfg c) hx
    refine ⟨e, ?_⟩
    rw [updateCoin_x cfg W H d c h0]
    show (handleSides cfg W d.sign (beforeSides cfg c)).x = 0
    rw [e]; rfl
  · intro hx0 hx1
    have e := handleSides_of_right cfg W d.sign (beforeSides cfg c) hx0
      (by rw [beforeSides_size]; exact hx1)
    rw [beforeSides_size] at e
    refine ⟨e, ?_⟩
    rw [updateCoin_x cfg W H d c h0]
    show (handleSides cfg W d.sign (beforeSides cfg c)).x = W - c.size
    rw [e]; rfl
  · intro hx0 hx1
    have e := handleSides_of_inside cfg W d.sign (beforeSides cfg c) hx0
      (by rw [beforeSides_size]; exact hx1)
    refine ⟨e, ?_⟩
    rw [updateCoin_x cfg W H d c h0]
    show (handleSides cfg W d.sign (beforeSides cfg c)).x = _
    rw [e]
  · have := handleSides_bounceCount_le cfg W d.sign (beforeSides cfg c)
    rw [beforeSides_bounceCount] at this
    exact this

/-- Witness for the amended C16 at `leftCoin` in a `1000 × 800` viewport: left bounce,
`x = 0`, `bounceCount` from `0` to `1`. -/
theorem updateCoin_side_handling_witness :
    leftCoin.removed = false
      ∧ (beforeSides config leftCoin).x < 0
      ∧ (updateCoin config 1000 800 midDraws leftCoin).x = 0
      ∧ (beforeBottom config 1000 midDraws leftCoin).bounceCount ≤ leftCoin.bounceCount + 1 := by
  have t := updateCoin_side_handling config 1000 800 midDraws leftCoin rfl
  have hx : (beforeSides config leftCoin).x < 0 := by decide!
  exact ⟨rfl, hx, (t.2.1 hx).2, t.2.2.2.2⟩

/-- C20: for a live coin in a viewport with `W ≥ size`, the position after a frame satisfies
`0 ≤ x ≤ W - size`, whatever `x` and `vx` were before the frame. -/
theorem updateCoin_x_in_bounds (cfg : Config) (W H : ℚ) (d : FrameDraws) (c : Coin)
    (h0 : c.removed = false) (hW : c.size ≤ W) :
    0 ≤ (updateCoin cfg W H d c).x ∧ (updateCoin cfg W H d c).x ≤ W - c.size := by
  rw [updateCoin_x cfg W H d c h0]
  show 0 ≤ (handleSides cfg W d.sign (beforeSides cfg c)).x
    ∧ (handleSides cfg W d.sign (beforeSides cfg c)).x ≤ W - c.size
  rcases lt_or_le (beforeSides cfg c).x 0 with hx | hx
  · rw [handleSides_of_left cfg W d.sign _ hx]
    show (0 : ℚ) ≤ 0 ∧ (0 : ℚ) ≤ W - c.size
    exact ⟨le_refl _, by linarith⟩
  · rcases lt_or_le (W - c.size) (beforeSides cfg c).x with hr | hr
    · rw [handleSides_of_right cfg W d.sign _ hx (by rw [beforeSides_size]; exact hr),
        beforeSides_size]
      show 0 ≤ W - c.size ∧ W - c.size ≤ W - c.size
      exact ⟨by linarith, le_refl _⟩
    · rw [handleSides_of_inside cfg W d.sign _ hx (by rw [beforeSides_size]; exact hr)]
      exact ⟨hx, hr⟩

/-- Witness for C20 at `leftCoin` (size `64`) in a viewport of width `1000`. -/
theorem updateCoin_x_in_bounds_witness :
    leftCoin.removed = false ∧ leftCoin.size ≤ 1000
      ∧ 0 ≤ (updateCoin config 1000 800 midDraws leftCoin).x
      ∧ (updateCoin config 1000 800 midDraws leftCoin).x ≤ 1000 - leftCoin.size :=
  have hW : leftCoin.size ≤ 1000 := by decide!
  have t := updateCoin_x_in_bounds config 1000 800 midDraws leftCoin rfl hW
  ⟨rfl, hW, t.1, t.2⟩

/-! ## The bottom bounce -/

/-- C17: for a live coin whose `y` after the position update exceeds the bottom threshold
`H - 0.2 * size` and which, on entry to the bottom handling (after the side handling of the
same frame), has `bounceCount < maxBounces` and `|vy| > bottomBounceThreshold`: the frame
sets `y` to the threshold, sets `vy` to `-vy * bounceReduction`, adds to `vx` the
perturbation `(draw - 0.5) * horizontalBoost`, of magnitude at most `horizontalBoost / 2`,
multiplies `rotationSpeed` by `1.1`, increments `bounceCount` by exactly 1, and its bottom
handling changes neither the opacity nor `removed`. -/
theorem updateCoin_bottom_bounce (cfg : Config) (W H : ℚ) (d : FrameDraws) (c : Coin)
    (h0 : c.removed = false) (hy : (moveCoin cfg c).y > H - c.size * (1 / 5))
    (hb : canBounceBottom cfg (beforeBottom cfg W d c))
    (hr0 : 0 ≤ d.boost) (hr1 : d.boost < 1) :
    (updateCoin cfg W H d c).y = H - c.size * (1 / 5)
      ∧ (updateCoin cfg W H d c).vy = -(beforeBottom cfg W d c).vy * cfg.bounceReduction
      ∧ (updateCoin cfg W H d c).vx
          = (beforeBottom cfg W d c).vx + (d.boost - 1 / 2) * cfg.horizontalBoost
      ∧ |(updateCoin cfg W H d c).vx - (beforeBottom cfg W d c).vx|
          ≤ |cfg.horizontalBoost| / 2
      ∧ (0 ≤ cfg.horizontalBoost →
          |(updateCoin cfg W H d c).vx - (beforeBottom cfg W d c).vx|
            ≤ cfg.horizontalBoost / 2)
      ∧ (updateCoin cfg W H d c).rotationSpeed
          = (beforeBottom cfg W d c).rotationSpeed * (11 / 10)
      ∧ (updateCoin cfg W H d c).bounceCount = (beforeBottom cfg W d c).bounceCount + 1
      ∧ (updateCoin cfg W H d c).opacity = (beforeBottom cfg W d c).opacity
      ∧ (c.fadeInDistance ≤ c.fadeInProgress → (updateCoin cfg W H d c).opacity = c.opacity)
      ∧ (updateCoin cfg W H d c).removed = false
      ∧ (updateCoin cfg W H d c).element.attached = c.element.attached := by
  have hgt : (beforeBottom cfg W d c).y > bottomEdge H (beforeBottom cfg W d c) := by
    rw [bottomEdge_beforeBottom, beforeBottom_y]
    simpa [bottomEdge] using hy
  have e : updateCoin cfg W H d c
      = writeTransform (bottomBounce cfg H d.boost (beforeBottom cfg W d c)) := by
    rw [updateCoin_of_live cfg W H d c h0, handleBottom_of_bounce cfg H _ _ hgt hb]
  have hvx : (updateCoin cfg W H d c).vx
      = (beforeBottom cfg W d c).vx + (d.boost - 1 / 2) * cfg.horizontalBoost := by
    rw [e]; rfl
  have habs : |(updateCoin cfg W H d c).vx - (beforeBottom cfg W d c).vx|
      ≤ |cfg.horizontalBoost| / 2 := by
    rw [hvx, add_sub_cancel_left, abs_mul]
    have h1 : |d.boost - 1 / 2| ≤ 1 / 2 := abs_le.mpr ⟨by linarith, by linarith⟩
    have h2 := mul_le_mul_of_nonneg_right h1 (abs_nonneg cfg.horizontalBoost)
    linarith
  have hop : (updateCoin cfg W H d c).opacity = (beforeBottom cfg W d c).opacity := by
    rw [e]; rfl
  refine ⟨?_, by rw [e]; rfl, hvx, habs, ?_, by rw [e]; rfl, by rw [e]; rfl, hop, ?_, ?_, ?_⟩
  · rw [e]
    show bottomEdge H (beforeBottom cfg W d c) = _
    rw [bottomEdge_beforeBottom]; rfl
  · intro hpos
    rw [abs_of_nonneg hpos] at habs
    exact habs
  · intro hp
    have hn : ¬ (moveCoin cfg c).fadeInProgress < (moveCoin cfg c).fadeInDistance :=
      not_lt.mpr hp
    rw [hop, beforeBottom_opacity]
    unfold handleFadeIn
    rw [if_neg hn]
    rfl
  · rw [e]
    show (beforeBottom cfg W d c).removed = false
    rw [beforeBottom_removed, h0]
  · rw [e]
    show (beforeBottom cfg W d c).element.attached = c.element.attached
    unfold beforeBottom handleSides sideBounce beforeSides updateRotation handleFadeIn
    split_ifs <;> rfl

/-- Witness for C17 at `fastCoin`: it hits the bottom of a `1000 × 800` viewport at
`vy = 10.098` with its budget unused; the frame puts it at `y = 787.2` with
`vy = -9.5931`, `bounceCount = 1` and unchanged opacity. -/
theorem updateCoin_bottom_bounce_witness :
    fastCoin.removed = false
      ∧ (moveCoin config fastCoin).y > 800 - fastCoin.size * (1 / 5)
      ∧ canBounceBottom config (beforeBottom config 1000 midDraws fastCoin)
      ∧ (0 ≤ midDraws.boost ∧ midDraws.boost < 1)
      ∧ (updateCoin config 1000 800 midDraws fastCoin).y = 800 - fastCoin.size * (1 / 5)
      ∧ (updateCoin config 1000 800 midDraws fastCoin).removed = false := by
  have hy : (moveCoin config fastCoin).y > 800 - fastCoin.size * (1 / 5) := by decide!
  have hb : canBounceBottom config (beforeBottom config 1000 midDraws fastCoin) := by decide!
  have hr0 : 0 ≤ midDraws.boost := by decide!
  have hr1 : midDraws.boost < 1 := by decide!
  have t := updateCoin_bottom_bounce config 1000 800 midDraws fastCoin rfl hy hb hr0 hr1
  exact ⟨rfl, hy, hb, ⟨hr0, hr1⟩, t.1, t.2.2.2.2.2.2.2.2.2.1⟩

/-! ## Fade-in: the accumulator and the opacity it writes -/

section FadeIn

variable (cfg : Config) (W H : ℚ) (d : FrameDraws) (c : Coin)

theorem handleFadeIn_of_lt (h : c.fadeInProgress < c.fadeInDistance) :
    (handleFadeIn c).fadeInProgress = c.fadeInProgress + c.vy
      ∧ (handleFadeIn c).opacity = min 1 ((c.fadeInProgress + c.vy) / c.fadeInDistance)
      ∧ (handleFadeIn c).element.styleOpacity
          = some (min 1 ((c.fadeInProgress + c.vy) / c.fadeInDistance)) := by
  unfold handleFadeIn
  rw [if_pos h]
  exact ⟨rfl, rfl, rfl⟩

theorem handleFadeIn_of_not_lt (h : c.fadeInDistance ≤ c.fadeInProgress) :
    handleFadeIn c = c := by
  unfold handleFadeIn
  rw [if_neg (not_lt.mpr h)]

theorem updateCoin_opacity_of_not_fade (h0 : c.removed = false)
    (h : ¬ fadesOut cfg W H d c) :
    (updateCoin cfg W H d c).opacity = (handleFadeIn (moveCoin cfg c)).opacity := by
  rcases updateCoin_cases cfg W H d c h0 with ⟨-, e⟩ | ⟨-, e⟩ | ⟨hf, -⟩
  · rw [e, writeTransform_opacity, beforeBottom_opacity]
  · rw [e]
    show (beforeBottom cfg W d c).opacity = _
    rw [beforeBottom_opacity]
  · exact absurd hf h

theorem updateCoin_opacity_le_fadeIn (h0 : c.removed = false) :
    (updateCoin cfg W H d c).opacity ≤ (handleFadeIn (moveCoin cfg c)).opacity := by
  rcases updateCoin_cases cfg W H d c h0 with ⟨-, e⟩ | ⟨-, e⟩ | ⟨-, e⟩
  · rw [e, writeTransform_opacity, beforeBottom_opacity]
  · rw [e]
    show (beforeBottom cfg W d c).opacity ≤ _
    rw [beforeBottom_opacity]
  · rw [e, writeTransform_opacity, fadeOut_opacity, beforeBottom_opacity]
    linarith

/-- The accumulator after `n` frames is its initial value plus the travel summed over the
frames in which the coin was live and fading in. -/
theorem runFrames_fadeInProgress (draws : ℕ → FrameDraws) (n : ℕ) :
    (runFrames cfg W H draws n c).fadeInProgress
      = c.fadeInProgress + fadeInTravel cfg W H draws n c := by
  induction n with
  | zero => simp [runFrames, fadeInTravel]
  | succ n ih =>
    rw [runFrames, fadeInTravel]
    by_cases hl : (runFrames cfg W H draws n c).removed = false
    · rw [updateCoin_fadeInProgress cfg W H _ _ hl]
      by_cases hp : (runFrames cfg W H draws n c).fadeInProgress
          < (runFrames cfg W H draws n c).fadeInDistance
      · rw [if_pos hp, if_pos ⟨hl, hp⟩, ih]; ring
      · rw [if_neg hp, if_neg (fun h => hp h.2), ih]; ring
    · have hr : (runFrames cfg W H draws n c).removed = true := by simpa using hl
      rw [updateCoin_of_removed cfg W H _ _ hr, if_neg (fun h => hl h.1), ih]; ring

/-- Once the fade-in is over, a frame leaves the accumulator alone and can only lower the
opacity; it leaves the opacity alone unless it takes the fade-out branch on a live coin. -/
theorem updateCoin_past_fadeIn (h : c.fadeInDistance ≤ c.fadeInProgress) :
    (updateCoin cfg W H d c).fadeInProgress = c.fadeInProgress
      ∧ (updateCoin cfg W H d c).opacity ≤ c.opacity
      ∧ (¬ (c.removed = false ∧ fadesOut cfg W H d c) →
          (updateCoin cfg W H d c).opacity = c.opacity) := by
  have hm : handleFadeIn (moveCoin cfg c) = moveCoin cfg c :=
    handleFadeIn_of_not_lt (moveCoin cfg c) h
  by_cases hl : c.removed = false
  · refine ⟨?_, ?_, ?_⟩
    · rw [updateCoin_fadeInProgress cfg W H d c hl, if_neg (not_lt.mpr h)]
    · have := updateCoin_opacity_le_fadeIn cfg W H d c hl
      rw [hm] at this
      exact this
    · intro hno
      rw [updateCoin_opacity_of_not_fade cfg W H d c hl (fun hf => hno ⟨hl, hf⟩), hm]
      rfl
  · have hr : c.removed = true := by simpa using hl
    rw [updateCoin_of_removed cfg W H d c hr]
    exact ⟨rfl, le_refl _, fun _ => rfl⟩

theorem runFrames_past_fadeIn (draws : ℕ → FrameDraws)
    (h : c.fadeInDistance ≤ c.fadeInProgress) (n : ℕ) :
    (runFrames cfg W H draws n c).fadeInProgress = c.fadeInProgress
      ∧ (runFrames cfg W H draws (n + 1) c).opacity ≤ (runFrames cfg W H draws n c).opacity
      ∧ (runFrames cfg W H draws n c).opacity ≤ c.opacity
      ∧ ((∀ k, k < n → ¬ ((runFrames cfg W H draws k c).removed = false
            ∧ fadesOut cfg W H (draws k) (runFrames cfg W H draws k c))) →
          (runFrames cfg W H draws n c).opacity = c.opacity) := by
  induction n with
  | zero =>
    have t := updateCoin_past_fadeIn cfg W H (draws 0) c h
    exact ⟨rfl, t.2.1, le_refl _, fun _ => rfl⟩
  | succ n ih =>
    obtain ⟨ih1, ih2, ih3, ih4⟩ := ih
    have hn : (runFrames cfg W H draws n c).fadeInDistance
        ≤ (runFrames cfg W H draws n c).fadeInProgress := by
      rw [runFrames_fadeInDistance, ih1]; exact h
    have t := updateCoin_past_fadeIn cfg W H (draws n) _ hn
    have hn1 : (runFrames cfg W H draws (n + 1) c).fadeInDistance
        ≤ (runFrames cfg W H draws (n + 1) c).fadeInProgress := by
      rw [runFrames_fadeInDistance]
      show c.fadeInDistance ≤ (updateCoin cfg W H (draws n) _).fadeInProgress
      rw [t.1, ih1]; exact h
    have t1 := updateCoin_past_fadeIn cfg W H (draws (n + 1)) _ hn1
    refine ⟨?_, t1.2.1, le_trans ih2 ih3, ?_⟩
    · show (updateCoin cfg W H (draws n) _).fadeInProgress = _
      rw [t.1, ih1]
    · intro hall
      show (updateCoin cfg W H (draws n) _).opacity = _
      rw [t.2.2 (hall n (Nat.lt_succ_self n)),
        ih4 (fun k hk => hall k (Nat.lt_succ_of_lt hk))]

end FadeIn

/-- C18: for a live coin with `fadeInDistance > 0`: if `fadeInProgress < fadeInDistance` at
the start of the frame, the frame adds the damped velocity `(vy + gravity) * friction` to
`fadeInProgress` and its fade-in branch sets the opacity (on the coin and on the element) to
`min(1, fadeInProgress / fadeInDistance)` with the updated accumulator, which is the opacity
at the end of the frame unless the frame also fades out; if
`fadeInProgress ≥ fadeInDistance` at the start of the frame, `fadeInProgress` is left
unchanged.  Hence after any number of frames `fadeInProgress` is its initial value plus the
sum of the velocities integrated in the frames in which fade-in was active, and for a coin
created by `createCoin` (initial value `0`) it equals that sum. -/
theorem updateCoin_fade_in_accumulates (cfg : Config) (W H : ℚ) (d : FrameDraws) (c : Coin)
    (h0 : c.removed = false) (_hd : 0 < c.fadeInDistance) :
    (c.fadeInProgress < c.fadeInDistance →
        (updateCoin cfg W H d c).fadeInProgress
            = c.fadeInProgress + (c.vy + cfg.gravity) * cfg.friction
          ∧ (moveCoin cfg c).vy = (c.vy + cfg.gravity) * cfg.friction
          ∧ (handleFadeIn (moveCoin cfg c)).opacity
              = min 1 ((updateCoin cfg W H d c).fadeInProgress / c.fadeInDistance)
          ∧ (handleFadeIn (moveCoin cfg c)).element.styleOpacity
              = some (min 1 ((updateCoin cfg W H d c).fadeInProgress / c.fadeInDistance))
          ∧ (¬ fadesOut cfg W H d c →
              (updateCoin cfg W H d c).opacity
                = min 1 ((updateCoin cfg W H d c).fadeInProgress / c.fadeInDistance)))
      ∧ (c.fadeInDistance ≤ c.fadeInProgress →
          (updateCoin cfg W H d c).fadeInProgress = c.fadeInProgress)
      ∧ (∀ (draws : ℕ → FrameDraws) (n : ℕ),
          (runFrames cfg W H draws n c).fadeInProgress
            = c.fadeInProgress + fadeInTravel cfg W H draws n c)
      ∧ (∀ (dc : CoinDraws) (draws : ℕ → FrameDraws) (n : ℕ),
          (runFrames cfg W H draws n (newCoin cfg W dc)).fadeInProgress
            = fadeInTravel cfg W H draws n (newCoin cfg W dc)) := by
  refine ⟨?_, ?_, fun draws n => runFrames_fadeInProgress cfg W H c draws n, ?_⟩
  · intro hlt
    have hp : (updateCoin cfg W H d c).fadeInProgress
        = c.fadeInProgress + (c.vy + cfg.gravity) * cfg.friction := by
      rw [updateCoin_fadeInProgress cfg W H d c h0, if_pos hlt]
    have hf := handleFadeIn_of_lt (moveCoin cfg c) hlt
    rw [show (moveCoin cfg c).fadeInProgress = c.fadeInProgress from rfl,
      show (moveCoin cfg c).vy = (c.vy + cfg.gravity) * cfg.friction from rfl,
      show (moveCoin cfg c).fadeInDistance = c.fadeInDistance from rfl, ← hp] at hf
    refine ⟨hp, rfl, hf.2.1, hf.2.2, fun hno => ?_⟩
    rw [updateCoin_opacity_of_not_fade cfg W H d c h0 hno]
    exact hf.2.1
  · intro hge
    exact (updateCoin_past_fadeIn cfg W H d c hge).1
  · intro dc draws n
    rw [runFrames_fadeInProgress]
    show (0 : ℚ) + _ = _
    rw [zero_add]

/-- Witness for C18 at `sampleCoin` (`fadeInProgress = 50 < 100`, `vy = 4`): the frame
raises the accumulator to `54.158` and writes the opacity `0.54158`. -/
theorem updateCoin_fade_in_accumulates_witness :
    sampleCoin.removed = false ∧ 0 < sampleCoin.fadeInDistance
      ∧ sampleCoin.fadeInProgress < sampleCoin.fadeInDistance
      ∧ (updateCoin config 1000 800 midDraws sampleCoin).fadeInProgress
          = sampleCoin.fadeInProgress + (sampleCoin.vy + config.gravity) * config.friction
      ∧ (updateCoin config 1000 800 midDraws sampleCoin).fadeInProgress = 54158 / 1000 := by
  have hd : 0 < sampleCoin.fadeInDistance := by decide!
  have hlt : sampleCoin.fadeInProgress < sampleCoin.fadeInDistance := by decide!
  have t := updateCoin_fade_in_accumulates config 1000 800 midDraws sampleCoin rfl hd
  exact ⟨rfl, hd, hlt, (t.1 hlt).1, by decide!⟩

/-- C19: for a live coin with `fadeInDistance > 0`: in the frame in which `fadeInProgress`
first becomes `≥ fadeInDistance` the fade-in branch sets the opacity to exactly `1`; in every
later frame the accumulator stays put and the opacity is unchanged unless the frame takes the
fade-out branch, in which case it drops; hence once the threshold has been reached the
opacity never increases again, and it stays at `1` until a frame fades the coin out. -/
theorem updateCoin_fade_in_completes (cfg : Config) (W H : ℚ) (d : FrameDraws) (c : Coin)
    (h0 : c.removed = false) (hd : 0 < c.fadeInDistance) :
    (c.fadeInProgress < c.fadeInDistance →
        c.fadeInDistance ≤ c.fadeInProgress + (c.vy + cfg.gravity) * cfg.friction →
          (handleFadeIn (moveCoin cfg c)).opacity = 1
            ∧ (handleFadeIn (moveCoin cfg c)).element.styleOpacity = some 1
            ∧ (updateCoin cfg W H d c).fadeInDistance
                ≤ (updateCoin cfg W H d c).fadeInProgress
            ∧ (¬ fadesOut cfg W H d c → (updateCoin cfg W H d c).opacity = 1)
            ∧ (∀ (draws : ℕ → FrameDraws) (m : ℕ),
                (∀ k, k < 1 + m → ¬ ((runFrames cfg W H draws k c).removed = false
                  ∧ fadesOut cfg W H (draws k) (runFrames cfg W H draws k c))) →
                  (runFrames cfg W H draws (1 + m) c).opacity = 1))
      ∧ (c.fadeInDistance ≤ c.fadeInProgress →
          (updateCoin cfg W H d c).fadeInProgress = c.fadeInProgress
            ∧ (updateCoin cfg W H d c).opacity ≤ c.opacity
            ∧ (¬ fadesOut cfg W H d c → (updateCoin cfg W H d c).opacity = c.opacity)
            ∧ (∀ (draws : ℕ → FrameDraws) (n : ℕ),
                (runFrames cfg W H draws n c).fadeInProgress = c.fadeInProgress
                  ∧ (runFrames cfg W H draws (n + 1) c).opacity
                      ≤ (runFrames cfg W H draws n c).opacity
                  ∧ (runFrames cfg W H draws n c).opacity ≤ c.opacity
                  ∧ ((∀ k, k < n → ¬ ((runFrames cfg W H draws k c).removed = false
                        ∧ fadesOut cfg W H (draws k) (runFrames cfg W H draws k c))) →
                      (runFrames cfg W H draws n c).opacity = c.opacity))) := by
  constructor
  · intro hlt hcross
    have hf := handleFadeIn_of_lt (moveCoin cfg c) hlt
    have hq : (1 : ℚ) ≤ ((moveCoin cfg c).fadeInProgress + (moveCoin cfg c).vy)
        / (moveCoin cfg c).fadeInDistance := by
      show (1 : ℚ) ≤ (c.fadeInProgress + (c.vy + cfg.gravity) * cfg.friction)
        / c.fadeInDistance
      rw [le_div_iff₀ hd, one_mul]
      exact hcross
    have hone : (handleFadeIn (moveCoin cfg c)).opacity = 1 := by
      rw [hf.2.1]; exact min_eq_left hq
    have hstyle : (handleFadeIn (moveCoin cfg c)).element.styleOpacity = some 1 := by
      rw [hf.2.2, min_eq_left hq]
    have hprog : ∀ e : FrameDraws, (updateCoin cfg W H e c).fadeInDistance
        ≤ (updateCoin cfg W H e c).fadeInProgress := by
      intro e
      rw [updateCoin_fadeInDistance, updateCoin_fadeInProgress cfg W H e c h0, if_pos hlt]
      exact hcross
    have hfinal : ∀ e : FrameDraws, ¬ fadesOut cfg W H e c →
        (updateCoin cfg W H e c).opacity = 1 := by
      intro e hno
      rw [updateCoin_opacity_of_not_fade cfg W H e c h0 hno, hone]
    refine ⟨hone, hstyle, hprog d, hfinal d, ?_⟩
    intro draws m hall
    have h1 : (runFrames cfg W H draws 1 c).opacity = 1 :=
      hfinal (draws 0) (fun hfo => hall 0 (by omega) ⟨h0, hfo⟩)
    have t := runFrames_past_fadeIn cfg W H (runFrames cfg W H draws 1 c)
      (fun k => draws (1 + k)) (hprog (draws 0)) m
    have hrest : ∀ k, k < m →
        ¬ ((runFrames cfg W H (fun k => draws (1 + k)) k (runFrames cfg W H draws 1 c)).removed
            = false
          ∧ fadesOut cfg W H (draws (1 + k))
            (runFrames cfg W H (fun k => draws (1 + k)) k (runFrames cfg W H draws 1 c))) := by
      intro k hk
      rw [runFrames_add]
      exact hall (1 + k) (by omega)
    have h2 := t.2.2.2 hrest
    rw [runFrames_add] at h2
    rw [h2, h1]
  · intro hge
    have t := updateCoin_past_fadeIn cfg W H d c hge
    refine ⟨t.1, t.2.1, fun hno => t.2.2 (fun hf => hno hf.2), ?_⟩
    intro draws n
    exact runFrames_past_fadeIn cfg W H c draws hge n

/-- Witness for C19: at `crossingCoin` the frame carries the accumulator from `98` past
`100` and its fade-in branch writes the opacity `1`; at `spentCoin` (fade-in over, opacity
`1`) a frame leaves the accumulator at `100` and does not raise the opacity. -/
theorem updateCoin_fade_in_completes_witness :
    (crossingCoin.removed = false ∧ 0 < crossingCoin.fadeInDistance
        ∧ crossingCoin.fadeInProgress < crossingCoin.fadeInDistance
        ∧ crossingCoin.fadeInDistance
            ≤ crossingCoin.fadeInProgress + (crossingCoin.vy + config.gravity) * config.friction
        ∧ (handleFadeIn (moveCoin config crossingCoin)).opacity = 1
        ∧ (updateCoin config 1000 800 midDraws crossingCoin).opacity = 1)
      ∧ (spentCoin.removed = false ∧ 0 < spentCoin.fadeInDistance
        ∧ spentCoin.fadeInDistance ≤ spentCoin.fadeInProgress
        ∧ (updateCoin config 1000 800 midDraws spentCoin).fadeInProgress
            = spentCoin.fadeInProgress
        ∧ (updateCoin config 1000 800 midDraws spentCoin).opacity ≤ spentCoin.opacity) := by
  have hd1 : 0 < crossingCoin.fadeInDistance := by decide!
  have hlt : crossingCoin.fadeInProgress < crossingCoin.fadeInDistance := by decide!
  have hcross : crossingCoin.fadeInDistance
      ≤ crossingCoin.fadeInProgress + (crossingCoin.vy + config.gravity) * config.friction := by
    decide!
  have hno : ¬ fadesOut config 1000 800 midDraws crossingCoin := by decide!
  have t1 := (updateCoin_fade_in_completes config 1000 800 midDraws crossingCoin rfl hd1).1
    hlt hcross
  have hd : 0 < spentCoin.fadeInDistance := by decide!
  have hge : spentCoin.fadeInDistance ≤ spentCoin.fadeInProgress := by decide!
  have t := updateCoin_fade_in_completes config 1000 800 midDraws spentCoin rfl hd
  exact ⟨⟨rfl, hd1, hlt, hcross, t1.1, t1.2.2.2.1 hno⟩,
    ⟨rfl, hd, hge, (t.2 hge).1, (t.2 hge).2.1⟩⟩

end FallingCoins
